import Mathlib

/-!
# Environment store of the shell: `export`, `unset`, `init_env`

A shallow embedding of `src/export.c`, `src/unset.c`, `src/init_env.c` and the
string helpers of `src/utils.c` they call.

* A C string is the list of its bytes before the terminating NUL (`CStr`).
* A `char *` that may be `NULL` is an `Option CStr`.
* The two singly linked lists (`t_export`, `t_env_list`) are Lean lists of nodes.
* `printf` output is the list of bytes written to standard output (`Out`).
* Undefined behaviour of the C code (a read through `NULL`, a read past an
  allocation) is the result `none`.
* `malloc` is assumed to succeed.
-/

namespace Minishell

/-- The bytes of a NUL-terminated C string, terminator excluded. -/
abbrev CStr := List Char

/-- Bytes written to standard output. -/
abbrev Out := List Char

/-- Node of the exported view (`t_export`): `var`, `value` (may be `NULL`). -/
structure t_export where
  var : CStr
  value : Option CStr
deriving DecidableEq, Repr

/-- Node of the lookup view (`t_env_list`): `name`, `value` (may be `NULL`). -/
structure t_env_list where
  name : CStr
  value : Option CStr
deriving DecidableEq, Repr

/-- The two views the built-ins receive as `t_export **data, t_env_list **env_list`. -/
structure Store where
  data : List t_export
  env_list : List t_env_list
deriving DecidableEq, Repr

/-! ## utils.c -/

/-- Source function `ft_strcmp`: difference of the bytes at the first position where the strings
differ (the terminator counts as byte 0). Only the test `== 0` is used by the callers. -/
def ft_strcmp : CStr → CStr → Int
  | [], [] => 0
  | [], b :: _ => 0 - (b.toNat : Int)
  | a :: _, [] => (a.toNat : Int)
  | a :: s1, b :: s2 => if a = b then ft_strcmp s1 s2 else (a.toNat : Int) - (b.toNat : Int)

/-- The C library `strcmp` (used by `insert`): bytes compared as unsigned values. -/
def strcmp : CStr → CStr → Int
  | [], [] => 0
  | [], b :: _ => 0 - (b.toNat : Int)
  | a :: _, [] => (a.toNat : Int)
  | a :: s1, b :: s2 => if a = b then strcmp s1 s2 else (a.toNat : Int) - (b.toNat : Int)

/-- Source function `ft_isalnum`. -/
def ft_isalnum (c : Char) : Bool :=
  (decide ('0' ≤ c) && decide (c ≤ '9')) || (decide ('a' ≤ c) && decide (c ≤ 'z'))
    || (decide ('A' ≤ c) && decide (c ≤ 'Z'))

/-- The C library `isdigit`. -/
def isdigit (c : Char) : Bool :=
  decide ('0' ≤ c) && decide (c ≤ '9')

/-- Source function `ft_strjoin`: a `NULL` first argument is replaced by the empty string. -/
def ft_strjoin (s1 : Option CStr) (s2 : CStr) : CStr :=
  (s1.getD []) ++ s2

/-- Source function `ft_split1`, the scanning loop of `ft_split`: the maximal runs of bytes other
than `c`, in order. The first argument is the word being copied, if the scan is
inside one. -/
def ft_split1 (c : Char) : Option CStr → CStr → List CStr
  | none, [] => []
  | some w, [] => [w]
  | none, x :: s => if x = c then ft_split1 c none s else ft_split1 c (some [x]) s
  | some w, x :: s => if x = c then w :: ft_split1 c none s else ft_split1 c (some (w ++ [x])) s

/-- Source function `ft_split`: the array of words, without its `NULL` terminator. -/
def ft_split (s : CStr) (c : Char) : List CStr :=
  ft_split1 c none s

/-- The byte `s[0]` of a C string (the terminator, byte 0, for the empty string). -/
def at0 (s : CStr) : Char :=
  s.headD (Char.ofNat 0)

/-! ## export.c -/

/-- Source function `addnew`: a fresh exported-view node. -/
def addnew (var : CStr) (value : Option CStr) : t_export :=
  { var := var, value := value }

/-- Source function `addback_export`: link `new` after the last node. -/
def addback_export (a : List t_export) (new : t_export) : List t_export :=
  a ++ [new]

/-- Source function `addnew2`: a fresh lookup-view node. -/
def addnew2 (var : CStr) (value : Option CStr) : t_env_list :=
  { name := var, value := value }

/-- Source function `addback_env`: link `new` after the last node. -/
def addback_env (a : List t_env_list) (new : t_env_list) : List t_env_list :=
  a ++ [new]

/-- Source function `check_if_equal_is`: some `=` of the string is followed by another byte. -/
def check_if_equal_is : CStr → Bool
  | [] => false
  | c :: s => if c = '=' ∧ s ≠ [] then true else check_if_equal_is s

/-- Source function `check_if_in_env`: some node of the exported view is named `name`
(the parameter `value` is not used by the source either). -/
def check_if_in_env (name : CStr) (_value : CStr) : List t_export → Bool
  | [] => false
  | head :: rest => if ft_strcmp head.var name = 0 then true else check_if_in_env name _value rest

/-- The scan of `get_name` from index `i` on: the bytes copied into the result.
The scan stops at the terminator, at `=`, or at a `+` directly followed by `=`
when its index is greater than 2 (the `+` written by the copy loop is then
overwritten by the terminator). -/
def get_name_scan (i : Nat) : CStr → CStr
  | [] => []
  | c :: s =>
    if c = '=' then []
    else if c = '+' ∧ s.head? = some '=' ∧ i > 2 then []
    else c :: get_name_scan (i + 1) s

/-- Source function `get_name`: `NULL` when the string starts with `=`. -/
def get_name (s : CStr) : Option CStr :=
  if s.head? = some '=' then none else some (get_name_scan 0 s)

/-- Source function `get_value`: everything after the first `=`. Without any `=` the first loop of
the source runs past the terminator: undefined behaviour, `none`. -/
def get_value : CStr → Option CStr
  | [] => none
  | c :: s => if c = '=' then some s else get_value s

/-- The first loop of `edit_value`: replace the value of the first node named
`name`; `none` when the loop ends without a match. -/
def edit_value_export (name value : CStr) : List t_export → Option (List t_export)
  | [] => none
  | head :: rest =>
    if ft_strcmp head.var name = 0 then some ({ head with value := some value } :: rest)
    else (edit_value_export name value rest).map (fun r => head :: r)

/-- The second loop of `edit_value`, on the lookup view; it prints one line per
node it visits. -/
def edit_value_env (name value : CStr) : List t_env_list → List t_env_list × Out
  | [] => ([], [])
  | lst :: rest =>
    let line := "home --------------------------------------------------------> \n".toList
    if ft_strcmp lst.name name = 0 then ({ lst with value := some value } :: rest, line)
    else ((lst :: (edit_value_env name value rest).1), line ++ (edit_value_env name value rest).2)

/-- Source function `edit_value`: the first loop returns from the function as soon as it has
found the name in the exported view; the second loop only runs otherwise. -/
def edit_value (name value : CStr) (data : List t_export) (env_list : List t_env_list) :
    List t_export × List t_env_list × Out :=
  match edit_value_export name value data with
  | some data1 => (data1, env_list, [])
  | none => (data, (edit_value_env name value env_list).1, (edit_value_env name value env_list).2)

/-- Source function `check_append`: the string contains `+=`. -/
def check_append : CStr → Bool
  | [] => false
  | c :: s => if c = '+' ∧ s.head? = some '=' then true else check_append s

/-- Source function `append_string`: join `value` to the value of the first node named `name`
of the exported view. -/
def append_string (name value : CStr) : List t_export → List t_export
  | [] => []
  | head :: rest =>
    if ft_strcmp head.var name = 0 then { head with value := some (ft_strjoin head.value value) } :: rest
    else head :: append_string name value rest

/-- Source function `error_od_export`: the bytes printed by `printf("error : %s not identifier\n", s)`. -/
def error_od_export (s : CStr) : Out :=
  "error : ".toList ++ s ++ " not identifier\n".toList

/-- The loop of `correct_name` from index `i` on. -/
def correct_name_loop (i : Nat) : CStr → Bool
  | [] => true
  | c :: s =>
    if ft_isalnum c = false then
      (if c = '+' ∧ s = [] ∧ i ≠ 0 then true else false)
    else correct_name_loop (i + 1) s

/-- Source function `correct_name`: 0 for `NULL`. -/
def correct_name : Option CStr → Bool
  | none => false
  | some s => correct_name_loop 0 s

/-- Source function `eqaul_last_only`: the first `=` of the string is its last byte. -/
def eqaul_last_only : CStr → Bool
  | [] => false
  | c :: s => if c = '=' ∧ s ≠ [] then false else if c = '=' ∧ s = [] then true else eqaul_last_only s

/-! ## init_env.c: `insert`, `sort` -/

/-- The `else` branch of `insert` seen from `current->next`: walk while the next
node is strictly smaller than `new_node`, then link `new_node` in front of it. -/
def insert_after (new_node : t_export) : List t_export → List t_export
  | [] => [new_node]
  | nxt :: rest =>
    if strcmp nxt.var new_node.var < 0 then nxt :: insert_after new_node rest
    else new_node :: nxt :: rest

/-- Source function `insert`: put `new_node` in front when the list is empty or its first name is
greater; otherwise after the run of strictly smaller names that follows the head. -/
def insert (head : List t_export) (new_node : t_export) : List t_export :=
  match head with
  | [] => [new_node]
  | first :: rest =>
    if strcmp first.var new_node.var > 0 then new_node :: first :: rest
    else first :: insert_after new_node rest

/-- The loop of `sort`: `sorted` is the list built so far, the argument the nodes
still to insert. -/
def sort_loop (sorted : List t_export) : List t_export → List t_export
  | [] => sorted
  | current :: next => sort_loop (insert sorted current) next

/-- Source function `sort`: insertion sort of the exported view by name. -/
def sort (head : List t_export) : List t_export :=
  sort_loop [] head

/-! ## export.c: `add_var_in_list`, `do_export` -/

/-- Source function `add_var_in_list`. The result is `none` when `get_name` returns `NULL`
(a name the nodes of the model cannot hold; `do_export` only calls the function
after `correct_name` has excluded it) or when `get_value` is undefined. -/
def add_var_in_list (st : Store) (str : CStr) : Option (Store × Out) :=
  if check_if_equal_is str = true ∧ eqaul_last_only str = false then
    match get_name str, get_value str with
    | some name, some value =>
      if check_if_in_env name value st.data = true then
        if check_append str = true then
          some ({ st with data := append_string name value st.data }, [])
        else
          some ({ data := (edit_value name value st.data st.env_list).1,
                  env_list := (edit_value name value st.data st.env_list).2.1 },
                (edit_value name value st.data st.env_list).2.2)
      else
        some ({ data := addback_export st.data (addnew name (some value)),
                env_list := addback_env st.env_list (addnew2 name (some value)) }, [])
    | _, _ => none
  else
    match get_name str with
    | some name =>
      if eqaul_last_only str = true then
        some ({ data := addback_export st.data (addnew (ft_strjoin (some name) ['=']) (some [])),
                env_list := addback_env st.env_list (addnew2 (ft_strjoin (some name) ['=']) (some [])) },
              [])
      else
        some ({ st with data := addback_export st.data (addnew name (some [])) }, [])
    | none => none

/-- The listing loop of `do_export` (run when there is no argument): one
`declare -x` line per node. Reading `*(head->value)` through `NULL` is `none`. -/
def export_print : List t_export → Option Out
  | [] => some []
  | head :: rest =>
    match head.value, export_print rest with
    | some v, some o =>
      if v = [] then
        if eqaul_last_only head.var = true then
          some ("declare -x ".toList ++ head.var ++ "\"\"\n".toList ++ o)
        else
          some ("declare -x ".toList ++ head.var ++ "\n".toList ++ o)
      else
        some ("declare -x ".toList ++ head.var ++ "=\"".toList ++ v ++ "\"\n".toList ++ o)
    | _, _ => none

/-- The argument loop of `do_export` over `str[1], str[2], ...`. -/
def do_export_loop : List CStr → Store → Option (Store × Out)
  | [], st => some (st, [])
  | s :: rest, st =>
    if correct_name (get_name s) = true ∧ isdigit (at0 s) = false then
      match add_var_in_list st s with
      | some r1 =>
        match do_export_loop rest r1.1 with
        | some r2 => some (r2.1, r1.2 ++ r2.2)
        | none => none
      | none => none
    else
      match do_export_loop rest st with
      | some r2 => some (r2.1, error_od_export s ++ r2.2)
      | none => none

/-- Source function `do_export`. `str` is the argument vector without its `NULL` terminator;
`str[0]` is the command word, so the arguments are `str.drop 1`. -/
def do_export (str : List CStr) (st : Store) : Option (Store × Out) :=
  match (if str.drop 1 = [] then export_print st.data else some []) with
  | none => none
  | some o0 =>
    match do_export_loop (str.drop 1) st with
    | some r => some ({ r.1 with data := sort r.1.data }, o0 ++ r.2)
    | none => none

/-! ## unset.c -/

/-- The loop of `removeNode2` seen from `head->next`: every node named `str`
after the head is unlinked. -/
def removeNode2_loop (str : CStr) : List t_env_list → List t_env_list
  | [] => []
  | nxt :: rest =>
    if ft_strcmp nxt.name str = 0 then removeNode2_loop str rest
    else nxt :: removeNode2_loop str rest

/-- Source function `removeNode2`: when the head is named `str` it is unlinked and the function
returns; otherwise the loop runs on the nodes after the head. -/
def removeNode2 (env : List t_env_list) (str : CStr) : List t_env_list :=
  match env with
  | [] => []
  | head :: rest =>
    if ft_strcmp head.name str = 0 then rest
    else head :: removeNode2_loop str rest

/-- The loop of `removeNode` seen from `head->next`. -/
def removeNode_loop (str : CStr) : List t_export → List t_export
  | [] => []
  | nxt :: rest =>
    if ft_strcmp nxt.var str = 0 then removeNode_loop str rest
    else nxt :: removeNode_loop str rest

/-- Source function `removeNode`: same shape as `removeNode2`, on the exported view. -/
def removeNode (lst : List t_export) (str : CStr) : List t_export :=
  match lst with
  | [] => []
  | head :: rest =>
    if ft_strcmp head.var str = 0 then rest
    else head :: removeNode_loop str rest

/-- Source function `check_name_is_exist`. -/
def check_name_is_exist (s : CStr) : List t_export → Bool
  | [] => false
  | head :: rest => if ft_strcmp head.var s = 0 then true else check_name_is_exist s rest

/-- The argument loop of `do_unset` over `str[1], str[2], ...`. -/
def do_unset_loop : List CStr → Store → Store × Out
  | [], st => (st, [])
  | s :: rest, st =>
    if check_name_is_exist s st.data = true then
      do_unset_loop rest { data := removeNode st.data s, env_list := removeNode2 st.env_list s }
    else
      ((do_unset_loop rest st).1, error_od_export s ++ (do_unset_loop rest st).2)

/-- Source function `do_unset`. As for `do_export`, `str[0]` is the command word. -/
def do_unset (str : List CStr) (st : Store) : Store × Out :=
  do_unset_loop (str.drop 1) st

/-! ## init_env.c: `init_env` -/

/-- Source function `addback_export1`. `i` is the value of the function's `static int i` before
the call; the first component of the result is its value after. On the first call
the list head is overwritten; later calls walk from the head, which is a read
through `NULL` (`none`) when the list is empty. -/
def addback_export1 (i : Nat) (a : List t_export) (new : t_export) : Option (Nat × List t_export) :=
  if i = 1 then some (i + 1, [new])
  else
    match a with
    | [] => none
    | _ :: _ => some (i + 1, a ++ [new])

/-- Source function `addback_env2`. -/
def addback_env2 (a : List t_env_list) (new : t_env_list) : List t_env_list :=
  a ++ [new]

/-- The loop of `init_env` over `env[0], env[1], ...`; `i` is the static counter of
`addback_export1`. `var_val[0]` and `var_val[1]` are read from the array returned
by `ft_split`, whose slot after the last word holds `NULL`: with one word
`var_val[1]` is `NULL`, with no word `var_val[1]` lies past the allocation
(`none`). -/
def init_env_loop : List CStr → Nat → Store → Option Store
  | [], _, st => some st
  | e :: rest, i, st =>
    match ft_split e '=' with
    | [] => none
    | n :: vs =>
      match addback_export1 i st.data { var := n, value := vs.head? } with
      | none => none
      | some r =>
        init_env_loop rest r.1
          { data := r.2, env_list := addback_env2 st.env_list { name := n, value := vs.head? } }

/-- Source function `init_env`, called once at start-up (the static counter is 1). -/
def init_env (st : Store) (env : List CStr) : Option Store :=
  match init_env_loop env 1 st with
  | none => none
  | some s => some { s with data := sort s.data }

/-! ## Well-formed inputs and specification predicates -/

/-- A list of bytes is a C string when none of them is the terminator. -/
def is_cstr (s : CStr) : Prop :=
  ∀ c ∈ s, c ≠ Char.ofNat 0

instance (s : CStr) : Decidable (is_cstr s) := by
  unfold is_cstr; infer_instance

/-- Every name held by the two views is a C string. -/
def names_are_cstr (st : Store) : Prop :=
  (∀ e ∈ st.data, is_cstr e.var) ∧ (∀ e ∈ st.env_list, is_cstr e.name)

instance (st : Store) : Decidable (names_are_cstr st) := by
  unfold names_are_cstr; infer_instance

/-- The exported view is in ascending (non-decreasing) order of its names. -/
def sorted_by_name (l : List t_export) : Prop :=
  l.Pairwise (fun a b => strcmp a.var b.var ≤ 0)

instance (l : List t_export) : Decidable (sorted_by_name l) := by
  unfold sorted_by_name; infer_instance

/-- The exported view is in strictly ascending order of its names. -/
def strictly_sorted (l : List t_export) : Prop :=
  l.Pairwise (fun a b => strcmp a.var b.var < 0)

/-- A valid identifier: non-empty, ASCII alphanumeric bytes only, no leading digit. -/
def valid_name (n : CStr) : Prop :=
  n ≠ [] ∧ (∀ c ∈ n, ft_isalnum c = true) ∧ isdigit (at0 n) = false

instance (n : CStr) : Decidable (valid_name n) := by
  unfold valid_name; infer_instance

/-- The name invariant of the data model: non-empty, no leading digit, ASCII
alphanumerics optionally followed by one final `+`. -/
def name_ok (n : CStr) : Prop :=
  n ≠ [] ∧ isdigit (at0 n) = false ∧
    (n.all ft_isalnum = true ∨ (n.getLast? = some '+' ∧ n.dropLast.all ft_isalnum = true))

instance (n : CStr) : Decidable (name_ok n) := by
  unfold name_ok; infer_instance

/-- Every name of both views satisfies the name invariant. -/
def names_ok (st : Store) : Prop :=
  (∀ e ∈ st.data, name_ok e.var) ∧ (∀ e ∈ st.env_list, name_ok e.name)

instance (st : Store) : Decidable (names_ok st) := by
  unfold names_ok; infer_instance

/-! ## echo.c -/

/-- Source function `count_len_of_str`: number of entries before the `NULL` terminator. -/
def count_len_of_str (s : List CStr) : Nat :=
  s.length

/-- The loop of `is_n` from the current index on: stop with 1 at the terminator
or at a space, with 0 at any other byte that is not `n`. -/
def is_n_loop : CStr → Bool
  | [] => true
  | c :: s => if c = ' ' then true else if c ≠ 'n' then false else is_n_loop s

/-- Source function `is_n`: 0 for `NULL`; one leading `-` is stepped over. -/
def is_n : Option CStr → Bool
  | none => false
  | some [] => is_n_loop []
  | some (c :: s) => if c = '-' then is_n_loop s else is_n_loop (c :: s)

/-- The loop of `if_more_n`: 1 at the first byte that is neither `-` nor `n`. -/
def if_more_n_loop : CStr → Bool
  | [] => false
  | c :: s => if c ≠ '-' ∧ c ≠ 'n' then true else if_more_n_loop s

/-- Source function `if_more_n`: 1 when the string does not start with `-`. -/
def if_more_n (s : CStr) : Bool :=
  if at0 s ≠ '-' then true else if_more_n_loop s

/-- The first loop of `ft_echo`, `while (is_n(str[i]))`, seen from `str[i]` on.
The state is `(f, i)`; the result is the final `(f, i)` and the entries from
`str[i]` on. At the terminator `is_n(NULL)` is 0. -/
def echo_flags : List CStr → Bool → Nat → Bool × Nat × List CStr
  | [], f, i => (f, i, [])
  | a :: rest, f, i =>
    if is_n (some a) = true then
      if if_more_n a = true then (true, i, a :: rest)
      else echo_flags rest true (i + 1)
    else (f, i, a :: rest)

/-- The second loop of `ft_echo`: each remaining entry, followed by one space
when another entry comes after it. -/
def echo_print : List CStr → Out
  | [] => []
  | a :: rest => a ++ (if rest ≠ [] then [' '] else []) ++ echo_print rest

/-- Source function `ft_echo`: the bytes written to standard output. `str[0]` is the
command word. -/
def ft_echo (str : List CStr) : Out :=
  match str.drop 1 with
  | [] => ['\n']
  | a :: rest =>
    let r := echo_flags (a :: rest) false 1
    let f := if r.2.1 > 2 then true else r.1
    echo_print r.2.2 ++ (if f = false then ['\n'] else [])

/-- The arguments joined by single spaces. -/
def join_with_spaces (l : List CStr) : Out :=
  List.intercalate [' '] l

/-- An echo flag as the specification has it: `-` followed by one or more `n`. -/
def is_echo_flag (a : CStr) : Bool :=
  match a with
  | [] => false
  | c :: s => decide (c = '-') && !s.isEmpty && s.all (fun d => decide (d = 'n'))

/-- What the specification asks of `echo`: drop the longest prefix of flags, join
the rest with single spaces, end with a newline exactly when no flag was dropped. -/
def echo_spec (args : List CStr) : Out :=
  join_with_spaces (args.dropWhile is_echo_flag)
    ++ (if (args.takeWhile is_echo_flag).isEmpty then ['\n'] else [])

/-! ## minishell.h: tokens, redirections, command nodes -/

/-- The token kinds of `minishell.h` (`#define SPACE 0` ... `#define NLINE 11`). -/
inductive TokType where
  | SPACE | APPEND | HEREDOC | RIGHTRED | LEFTRED | DOLLAR | PIPE
  | S_QUOTE | D_QUOTE | WORD | AFDOLLAR | NLINE
deriving DecidableEq, Repr

/-- Node of the token list (`t_token_list`); the list links are the Lean list. -/
structure t_token_list where
  value : CStr
  type : TokType
deriving DecidableEq, Repr

/-- Node of a redirection list (`t_redirections`): `type` and `file`. The field
`fd` is not read by any function modelled here. -/
structure t_redirections where
  type : TokType
  file : CStr
deriving DecidableEq, Repr

/-- The separator of a command node (`t_sep`). -/
inductive t_sep where
  | e_nline | e_pipe
deriving DecidableEq, Repr

/-- One slot of an argument array obtained from `malloc`: never written, holding
`NULL`, or holding a string. -/
inductive Slot where
  | unwritten
  | null
  | str (s : CStr)
deriving DecidableEq, Repr

/-- Node of the command list (`t_cmd_line`). `str` lists the slots of the
argument array from index 0 up to the last slot touched; `alloc` is the number
of slots `parser` allocated for it (a slot at index `alloc` or more lies past
the allocation). -/
structure t_cmd_line where
  str : List Slot
  alloc : Nat
  redirections : List t_redirections
  separator : t_sep
deriving DecidableEq, Repr

/-! ## redirections.c -/

/-- The files that can be opened for reading. -/
abbrev Files := List CStr

/-- The call `open(file, O_CREAT | O_RDWR, 0664)` seen from later `O_RDONLY`
opens: a file that did not exist is there afterwards when `mk file` holds (the
system lets it be created). -/
def open_creat (mk : CStr → Bool) (fs : Files) (file : CStr) : Files :=
  if file ∈ fs then fs else if mk file = true then file :: fs else fs

/-- An output redirection: `RIGHTRED` or `APPEND`. -/
def is_out (r : t_redirections) : Prop :=
  r.type = TokType.RIGHTRED ∨ r.type = TokType.APPEND

instance (r : t_redirections) : Decidable (is_out r) := by
  unfold is_out; infer_instance

/-- An input redirection: `LEFTRED` or `HEREDOC`. -/
def is_in (r : t_redirections) : Prop :=
  r.type = TokType.LEFTRED ∨ r.type = TokType.HEREDOC

instance (r : t_redirections) : Decidable (is_in r) := by
  unfold is_in; infer_instance

/-- Source function `is_last`: 1 when no output redirection is in the list. -/
def is_last : List t_redirections → Bool
  | [] => true
  | curr :: rest => if is_out curr then false else is_last rest

/-- The loop of `last_outfile` over the redirections of a node: every output
target met is opened with `O_CREAT`; the node returned is the first one that has
no output redirection after it. -/
def last_outfile_loop (mk : CStr → Bool) : List t_redirections → Files →
    Option t_redirections × Files
  | [], fs => (none, fs)
  | curr :: rest, fs =>
    if is_out curr then
      if is_last rest = true then (some curr, open_creat mk fs curr.file)
      else last_outfile_loop mk rest (open_creat mk fs curr.file)
    else last_outfile_loop mk rest fs

/-- Source function `last_outfile`: the node returned (`none` for `NULL`) and the files
readable afterwards. -/
def last_outfile (mk : CStr → Bool) (cmd_line : t_cmd_line) (fs : Files) :
    Option t_redirections × Files :=
  last_outfile_loop mk cmd_line.redirections fs

/-- Source function `is_last_infile`: 1 when no input redirection is in the list. -/
def is_last_infile : List t_redirections → Bool
  | [] => true
  | curr :: rest => if is_in curr then false else is_last_infile rest

/-- The bytes `last_infile` writes to standard error for a target that cannot
be opened. The first `write` has length 12 for the 11 bytes of `minishell: `, so
the terminator of that literal is written too. -/
def no_such_file (file : CStr) : Out :=
  "minishell: ".toList ++ [Char.ofNat 0] ++ file ++ ": No such file or directory\n".toList

/-- The loop of `last_infile`. The result is the node returned, the value of
`*no_file`, the bytes written to standard error and the files readable
afterwards. -/
def last_infile_loop (mk : CStr → Bool) : List t_redirections → Files → Int →
    Option t_redirections × Int × Out × Files
  | [], fs, no_file => (none, no_file, [], fs)
  | curr :: rest, fs, no_file =>
    if is_out curr then
      last_infile_loop mk rest (open_creat mk fs curr.file) no_file
    else if is_in curr then
      if curr.type = TokType.LEFTRED ∧ curr.file ∉ fs then
        (none, 0, no_such_file curr.file, fs)
      else if is_last_infile rest = true then (some curr, no_file, [], fs)
      else last_infile_loop mk rest fs no_file
    else last_infile_loop mk rest fs no_file

/-- Source function `last_infile`; `no_file` is the value of `*no_file` at the call. -/
def last_infile (mk : CStr → Bool) (cmd_line : t_cmd_line) (no_file : Int) (fs : Files) :
    Option t_redirections × Int × Out × Files :=
  last_infile_loop mk cmd_line.redirections fs no_file

/-- Some `LEFTRED` target of the list cannot be opened when the scan of
`last_infile` reaches it: it is not among the readable files `fs`, and no
earlier output redirection of the list has created it. -/
def unopenable (mk : CStr → Bool) (fs : Files) (l : List t_redirections) : Prop :=
  ∃ pre r post, l = pre ++ r :: post ∧ r.type = TokType.LEFTRED ∧ r.file ∉ fs ∧
    ¬ (mk r.file = true ∧ ∃ o ∈ pre, is_out o ∧ o.file = r.file)

/-! ## execution_2.c, execution.c: which path a pipeline takes -/

/-- Reading `str[k]` of a command node: `some none` for `NULL`, `some (some s)`
for a string, `none` (undefined behaviour) for a slot never written or past the
allocation. -/
def read_slot (c : t_cmd_line) (k : Nat) : Option (Option CStr) :=
  if k < c.alloc then
    match c.str.get? k with
    | some (Slot.str s) => some (some s)
    | some Slot.null => some none
    | _ => none
  else none

/-- Source function `main_builtins`. -/
def main_builtins (cmd_line : List t_cmd_line) : Option Bool :=
  match cmd_line with
  | [] => some false
  | c :: _ =>
    match read_slot c 0 with
    | none => none
    | some none => some false
    | some (some s0) =>
      if ft_strcmp s0 "cd".toList = 0 then some true
      else if ft_strcmp s0 "export".toList = 0 then
        match read_slot c 1 with
        | none => none
        | some (some _) => some true
        | some none => if ft_strcmp s0 "unset".toList = 0 then some true else some false
      else if ft_strcmp s0 "unset".toList = 0 then some true
      else some false

/-- The branch `execution` takes: the built-in run in the shell process
(`ft_heredoc` then `execute_builtins`), the forking path (`execute_command`), or
nothing at all for an empty command list. -/
inductive Branch where
  | in_shell | forking | nothing
deriving DecidableEq, Repr

/-- Source function `execution`, reduced to the branch it takes. -/
def execution (cmd_line : List t_cmd_line) : Option Branch :=
  match cmd_line with
  | [] => some Branch.nothing
  | c :: _ =>
    match main_builtins cmd_line with
    | none => none
    | some b =>
      if b = true ∧ c.separator = t_sep.e_nline then some Branch.in_shell
      else some Branch.forking

/-- What the specification asks of `execution` on a non-empty pipeline: the
shell process runs the command exactly when there is one node and its first
word is `cd`, `unset` or `exit`, or `export` followed by an argument. -/
def runs_in_shell_spec (argv : List CStr) (nodes : Nat) : Bool :=
  decide (nodes = 1) &&
    (decide (argv.head? = some "cd".toList) || decide (argv.head? = some "unset".toList)
      || decide (argv.head? = some "exit".toList)
      || (decide (argv.head? = some "export".toList) && decide (2 ≤ argv.length)))

/-! ## parser.c -/

/-- A redirection operator: `RIGHTRED`, `LEFTRED`, `APPEND` or `HEREDOC`. -/
def is_redir (t : TokType) : Bool :=
  decide (t = TokType.RIGHTRED ∨ t = TokType.LEFTRED ∨ t = TokType.APPEND ∨ t = TokType.HEREDOC)

/-- The token ends a command: `PIPE` or `NLINE`. -/
def is_end (t : TokType) : Bool :=
  decide (t = TokType.PIPE ∨ t = TokType.NLINE)

/-- Step over one token when it is a `SPACE` (`if (tokens && tokens->type == SPACE)`). -/
def skip_space : List t_token_list → List t_token_list
  | [] => []
  | t :: rest => if t.type = TokType.SPACE then rest else t :: rest

/-- The inner loop of `to_alloc_count`: step over `WORD` and `AFDOLLAR` tokens. -/
def skip_words : List t_token_list → List t_token_list
  | [] => []
  | t :: rest =>
    if t.type = TokType.WORD ∨ t.type = TokType.AFDOLLAR then skip_words rest else t :: rest

/-- The first `if` of the loop body of `to_alloc_count`. After stepping over the
operator the source reads `tokens_->type` twice without a `NULL` test: `none`
when the list has ended there. -/
def count_redir : List t_token_list → Option (List t_token_list)
  | [] => some []
  | t :: rest =>
    if is_redir t.type = true then
      match rest with
      | [] => none
      | n :: rest2 =>
        if n.type = TokType.SPACE then
          match rest2 with
          | [] => none
          | m :: rest3 => if m.type = TokType.WORD then some rest3 else some (m :: rest3)
        else if n.type = TokType.WORD then some rest2
        else some (n :: rest2)
    else some (t :: rest)

/-- The third `if` of the loop body of `to_alloc_count`: a `WORD` or `DOLLAR`
starts a run that is stepped over and counted once. -/
def count_word (tokens : List t_token_list) (i : Nat) : List t_token_list × Nat :=
  match tokens with
  | [] => ([], i)
  | t :: rest =>
    if t.type = TokType.WORD then (skip_words (t :: rest), i + 1)
    else if t.type = TokType.DOLLAR then (skip_words rest, i + 1)
    else (t :: rest, i)

/-- The loop of `to_alloc_count`. `fuel` bounds the number of iterations; an
iteration that leaves the token pointer where it was would repeat forever, and
is `none` like a read through `NULL`. -/
def to_alloc_count_loop : Nat → List t_token_list → Nat → Option Nat
  | 0, _, _ => none
  | fuel + 1, tokens, i =>
    match tokens with
    | [] => some i
    | t :: rest =>
      if is_end t.type = true then some i
      else
        match count_redir (t :: rest) with
        | none => none
        | some tokens1 =>
          if (count_word (skip_space tokens1) i).1.length < (t :: rest).length then
            to_alloc_count_loop fuel (count_word (skip_space tokens1) i).1
              (count_word (skip_space tokens1) i).2
          else none

/-- Source function `to_alloc_count`. -/
def to_alloc_count (tokens : List t_token_list) : Option Nat :=
  to_alloc_count_loop (tokens.length + 1) tokens 0

/-- Modelled from the spec: `init_redirection` and `fill_redirections_list` are
not in the sources at hand; a redirection record of the given kind and target is
appended to the node's list, which is thus in source order. -/
def fill_redirections_list (redirections : List t_redirections) (type : TokType)
    (file : CStr) : List t_redirections :=
  redirections ++ [{ type := type, file := file }]

/-- Modelled from the spec: `init_cmdline` and `separator` are not in the sources at
hand; the node's separator is `PIPE` when the command ends at a `PIPE` token and
end-of-line when it ends at `NLINE`. -/
def init_cmdline (str : List Slot) (alloc : Nat) (redirections : List t_redirections)
    (token : t_token_list) : t_cmd_line :=
  { str := str, alloc := alloc, redirections := redirections,
    separator := if token.type = TokType.PIPE then t_sep.e_pipe else t_sep.e_nline }

/-- Modelled from the spec: `fill_cmd_line` is not in the sources at hand; the node
is appended to the command list, which is thus in source order. -/
def fill_cmd_line (cmd_line : List t_cmd_line) (new : t_cmd_line) : List t_cmd_line :=
  cmd_line ++ [new]

/-- The assignment `str[i] = tmp`. A write past the slots listed so far extends
the list (whether it stays inside the allocation is read off `alloc`). -/
def write_slot : List Slot → Nat → CStr → List Slot
  | [], 0, v => [Slot.str v]
  | [], i + 1, v => Slot.unwritten :: write_slot [] i v
  | _ :: rest, 0, v => Slot.str v :: rest
  | x :: rest, i + 1, v => x :: write_slot rest i v

/-- The local state of `parser` inside one command: the token pointer, the
argument array, `i`, `tmp` and the redirection list. -/
structure PState where
  tokens : List t_token_list
  str : List Slot
  i : Nat
  tmp : Option CStr
  redirections : List t_redirections
deriving DecidableEq, Repr

/-- `tmp = tmp ? ft_strjoin(tmp, value) : value; str[i] = tmp; tokens = next`. -/
def take_word (s : PState) (t : t_token_list) (next : List t_token_list) : PState :=
  { s with tokens := next,
           tmp := some (match s.tmp with | none => t.value | some p => ft_strjoin (some p) t.value),
           str := write_slot s.str s.i
             (match s.tmp with | none => t.value | some p => ft_strjoin (some p) t.value) }

/-- The first `if` of the loop body of `parser` (`WORD` or `DOLLAR`). For a
`DOLLAR` the source reads `tokens->next->type` without a `NULL` test. -/
def parser_word (s : PState) : Option PState :=
  match s.tokens with
  | [] => some s
  | t :: rest =>
    if t.type = TokType.WORD then some (take_word s t rest)
    else if t.type = TokType.DOLLAR then
      match rest with
      | [] => none
      | n :: rest2 =>
        if n.type = TokType.AFDOLLAR then some (take_word s n rest2)
        else some (take_word s t (n :: rest2))
    else some s

/-- The second `if` of the loop body of `parser` (a redirection operator). The
source reads `tokens->next->type` and, when that is not `WORD`,
`tokens->next->next->value`, without `NULL` tests. -/
def parser_redir (s : PState) : Option PState :=
  match s.tokens with
  | [] => some s
  | t :: rest =>
    if is_redir t.type = true then
      match rest with
      | [] => none
      | n :: rest2 =>
        if n.type = TokType.WORD then
          some { s with tokens := skip_space rest2,
                        redirections := fill_redirections_list s.redirections t.type n.value }
        else
          match rest2 with
          | [] => none
          | m :: rest3 =>
            some { s with tokens := skip_space rest3,
                          redirections := fill_redirections_list s.redirections t.type m.value }
    else some s

/-- The third `if` of the loop body of `parser` (a `SPACE`). The source reads
`tokens->next->type` without a `NULL` test. -/
def parser_space (s : PState) : Option PState :=
  match s.tokens with
  | [] => some s
  | t :: rest =>
    if t.type = TokType.SPACE then
      match rest with
      | [] => none
      | n :: rest2 =>
        some { s with tokens := n :: rest2,
                      i := if n.type ≠ TokType.NLINE ∧ n.type ≠ TokType.PIPE then s.i + 1 else s.i,
                      tmp := none }
    else some s

/-- One pass through the body of the inner loop of `parser`. -/
def parser_body (s : PState) : Option PState :=
  match parser_word s with
  | none => none
  | some s1 =>
    match parser_redir s1 with
    | none => none
    | some s2 => parser_space s2

/-- The inner loop of `parser`, up to the `PIPE` or `NLINE` that ends the
command. `fuel` bounds the number of iterations; an iteration that leaves the
token pointer where it was is `none` (it would repeat forever). -/
def parser_cmd : Nat → PState → Option PState
  | 0, _ => none
  | fuel + 1, s =>
    match s.tokens with
    | [] => some s
    | t :: _ =>
      if is_end t.type = true then some s
      else
        match parser_body s with
        | none => none
        | some s1 =>
          if s1.tokens.length < s.tokens.length then parser_cmd fuel s1 else none

/-- The outer loop of `parser`: one command node per iteration. -/
def parser_loop : Nat → List t_token_list → List t_cmd_line → Option (List t_cmd_line)
  | 0, _, _ => none
  | fuel + 1, tokens, cmd_line =>
    match tokens with
    | [] => some cmd_line
    | t0 :: rest0 =>
      match to_alloc_count (t0 :: rest0) with
      | none => none
      | some n =>
        match parser_cmd ((t0 :: rest0).length + 1)
            { tokens := skip_space (t0 :: rest0),
              str := List.replicate n Slot.unwritten ++ [Slot.null],
              i := 0, tmp := none, redirections := [] } with
        | none => none
        | some s =>
          match s.tokens with
          | [] => some cmd_line
          | t :: rest =>
            if rest.length < (t0 :: rest0).length then
              parser_loop fuel rest
                (fill_cmd_line cmd_line (init_cmdline s.str (n + 1) s.redirections t))
            else none

/-- Source function `parser`: the command list after the call (`none` for undefined
behaviour or a loop that never ends). -/
def parser (cmd_line : List t_cmd_line) (tokens : List t_token_list) :
    Option (List t_cmd_line) :=
  match tokens with
  | [] => some cmd_line
  | t :: rest =>
    if t.type = TokType.NLINE then some cmd_line
    else parser_loop ((t :: rest).length + 1) (t :: rest) cmd_line

/-! ## Specification predicates for the parser -/

/-- A token list as `parser` expects it: it ends with its only `NLINE`; before
that come `WORD`, `SPACE`, `PIPE`, `DOLLAR` (optionally followed by `AFDOLLAR`)
and redirection operators; every redirection operator is followed by a `WORD`,
or by one `SPACE` and a `WORD`. -/
def valid_tokens : List t_token_list → Bool
  | [] => false
  | [t] => decide (t.type = TokType.NLINE)
  | t :: n :: rest =>
    if t.type = TokType.WORD ∨ t.type = TokType.SPACE ∨ t.type = TokType.PIPE then
      valid_tokens (n :: rest)
    else if t.type = TokType.DOLLAR then
      if n.type = TokType.AFDOLLAR then valid_tokens rest else valid_tokens (n :: rest)
    else if is_redir t.type = true then
      if n.type = TokType.WORD then valid_tokens rest
      else if n.type = TokType.SPACE then
        match rest with
        | [] => false
        | m :: rest2 => decide (m.type = TokType.WORD) && valid_tokens rest2
      else false
    else false

/-- The scanner state `t_tools` of `minishell.h`. -/
structure t_tools where
  there_is_dollar : Int
  s_quote : Int
  d_quote : Int
  no_expand : Int
  dollar_in : Int
deriving DecidableEq, Repr

/-- The scanners that `tokenizer.c` calls and that are not in the sources at
hand, taken as parameters. Each receives the token list and the line pointer
(`none` for `NULL`) and returns the new token list and line pointer; those that
receive `tools` return it too. -/
structure Scanners where
  is_squote : List t_token_list → Option CStr → t_tools →
    List t_token_list × Option CStr × t_tools
  is_dquote : List t_token_list → Option CStr → t_tools →
    List t_token_list × Option CStr × t_tools
  is_redirections : List t_token_list → Option CStr → t_tools →
    List t_token_list × Option CStr × t_tools
  is_wspace : List t_token_list → Option CStr → List t_token_list × Option CStr
  is_dollar_pipe : List t_token_list → Option CStr → List t_token_list × Option CStr
  is_word : List t_token_list → Option CStr → List t_token_list × Option CStr
  afdollar : List t_token_list → Option CStr → List t_token_list × Option CStr

/-- Source function `ft_strndup`: `NULL` for length 0, else at most `len` bytes. -/
def ft_strndup (src : CStr) (len : Nat) : Option CStr :=
  if len = 0 then none else some (src.take len)

/-- Source function `addback` of `utils.c`: nothing is added for `NULL` or the empty
string. -/
def addback (tokens : List t_token_list) (value : Option CStr) (type : TokType) :
    List t_token_list :=
  match value with
  | none => tokens
  | some [] => tokens
  | some (c :: v) => tokens ++ [{ value := c :: v, type := type }]

/-- Source function `ft_lstclear`: every node is freed and the list is `NULL`. -/
def ft_lstclear (_tokens : List t_token_list) : List t_token_list :=
  []

/-- The loop of `ft_strncmp` with `k` comparisons still allowed after this one. -/
def ft_strncmp_loop : CStr → CStr → Nat → Int
  | a :: s1, b :: s2, k + 1 =>
    if a = b then ft_strncmp_loop s1 s2 k else (a.toNat : Int) - (b.toNat : Int)
  | s1, s2, _ => ((at0 s1).toNat : Int) - ((at0 s2).toNat : Int)

/-- Source function `ft_strncmp`. -/
def ft_strncmp (str1 str2 : CStr) (n : Nat) : Int :=
  if n = 0 then 0 else ft_strncmp_loop str1 str2 (n - 1)

/-- Source function `still_dquote`. The scan `while (line[i] && line[i] != '"')` reads
through the pointer the scanners returned: `NULL` there is `none`. -/
def still_dquote (sc : Scanners) (tokens : List t_token_list) (line : Option CStr)
    (tools : t_tools) : Option (List t_token_list × Option CStr) :=
  match line with
  | none => some (tokens, none)
  | some l =>
    match (if at0 l = '$' then
             sc.afdollar (sc.is_dollar_pipe tokens (some l)).1 (sc.is_dollar_pipe tokens (some l)).2
           else (tokens, some l)) with
    | (_, none) => none
    | (tokens1, some l1) =>
      some (addback tokens1 (ft_strndup l1 (l1.takeWhile (fun c => c ≠ '"')).length) TokType.WORD,
        (if at0 (l1.dropWhile (fun c => c ≠ '"')) = '"' ∧ tools.dollar_in = 1 then
           some ((l1.dropWhile (fun c => c ≠ '"')).drop 1)
         else some (l1.dropWhile (fun c => c ≠ '"'))))

/-- The loop `while (!ft_strncmp(line, "$$", 2))` of `ft_dquotes`; `ft_strncmp`
reads through `line`, so `NULL` is `none`. `fuel` bounds the iterations. -/
def ft_dquotes_loop (sc : Scanners) (tools : t_tools) :
    Nat → List t_token_list → Option CStr → Option (List t_token_list × Option CStr)
  | 0, _, _ => none
  | _ + 1, _, none => none
  | fuel + 1, tokens, some l =>
    if ft_strncmp l "$$".toList 2 = 0 then
      match still_dquote sc (sc.is_dollar_pipe tokens (some l)).1
          (sc.is_dollar_pipe tokens (some l)).2 tools with
      | none => none
      | some r => ft_dquotes_loop sc tools fuel r.1 r.2
    else some (tokens, some l)

/-- The tail of `ft_dquotes` after its loop: `if (line && *line == '$')`. -/
def ft_dquotes_tail (sc : Scanners) (tools : t_tools) (tokens : List t_token_list) :
    Option CStr → Option (List t_token_list × Option CStr)
  | none => some (tokens, none)
  | some l =>
    if at0 l = '$' then
      still_dquote sc
        (sc.afdollar (sc.is_dollar_pipe tokens (some l)).1 (sc.is_dollar_pipe tokens (some l)).2).1
        (sc.afdollar (sc.is_dollar_pipe tokens (some l)).1 (sc.is_dollar_pipe tokens (some l)).2).2
        tools
    else some (tokens, some l)

/-- Source function `ft_dquotes`. -/
def ft_dquotes (sc : Scanners) (fuel : Nat) (tokens : List t_token_list) (line : Option CStr)
    (tools : t_tools) : Option (List t_token_list × Option CStr × t_tools) :=
  match line with
  | none => some (tokens, none, tools)
  | some l =>
    match sc.is_dquote tokens (some l) { tools with d_quote := 0, dollar_in := 0 } with
    | (tokens1, line1, tools1) =>
      match ft_dquotes_loop sc tools1 fuel tokens1 line1 with
      | none => none
      | some (tokens2, line2) =>
        match ft_dquotes_tail sc tools1 tokens2 line2 with
        | none => none
        | some (tokens3, line3) => some (tokens3, line3, tools1)

/-- Source function `ft_squotes`. -/
def ft_squotes (sc : Scanners) (tokens : List t_token_list) (line : Option CStr)
    (tools : t_tools) : List t_token_list × Option CStr × t_tools :=
  match line with
  | none => (tokens, none, tools)
  | some l => sc.is_squote tokens (some l) { tools with s_quote := 0 }

/-- Source function `open_quote_error`: the bytes written to standard output, and the
cleared list. -/
def open_quote_error (tokens : List t_token_list) : List t_token_list × Out :=
  (ft_lstclear tokens, "Open quote\n".toList)

/-- What one pass through the body of the loop of `tokenizer` does: the loop
condition fails, the pass ends in `break` after `open_quote_error`, or the scan
goes on from a new state. -/
inductive Scan where
  | stop
  | report
  | next (tokens : List t_token_list) (line : Option CStr) (tools : t_tools)
deriving DecidableEq, Repr

/-- The loop condition `line && *line` of `tokenizer` and one pass through the
loop body. `ft_strchr (set, *line)` with `*line` not 0 is not `NULL` exactly when
the byte is in `set`. `dfuel` bounds the loop of `ft_dquotes`. -/
def tokenizer_step (sc : Scanners) (dfuel : Nat) (tokens : List t_token_list)
    (line : Option CStr) (tools : t_tools) : Option Scan :=
  match line with
  | none => some Scan.stop
  | some l =>
    if at0 l = Char.ofNat 0 then some Scan.stop
    else if at0 l = Char.ofNat 39 then
      match ft_squotes sc tokens (some l) tools with
      | (tokens1, line1, tools1) =>
        if tools1.s_quote = 1 then some Scan.report else some (Scan.next tokens1 line1 tools1)
    else if at0 l = '"' then
      match ft_dquotes sc dfuel tokens (some l) tools with
      | none => none
      | some (tokens1, line1, tools1) =>
        if tools1.d_quote = 1 then some Scan.report else some (Scan.next tokens1 line1 tools1)
    else if at0 l ∈ " \t\x0b\x0c\r".toList then
      some (Scan.next (sc.is_wspace tokens (some l)).1 (sc.is_wspace tokens (some l)).2 tools)
    else if at0 l ∈ "><".toList then
      some (Scan.next (sc.is_redirections tokens (some l) tools).1
        (sc.is_redirections tokens (some l) tools).2.1 (sc.is_redirections tokens (some l) tools).2.2)
    else if at0 l ∈ "$|".toList then
      some (Scan.next (sc.is_dollar_pipe tokens (some l)).1 (sc.is_dollar_pipe tokens (some l)).2
        tools)
    else some (Scan.next (sc.is_word tokens (some l)).1 (sc.is_word tokens (some l)).2 tools)

/-- The loop of `tokenizer`: the token list when the loop is left and the bytes
written to standard output. `fuel` bounds the passes. -/
def tokenizer_loop (sc : Scanners) (dfuel : Nat) :
    Nat → List t_token_list → Option CStr → t_tools → Option (List t_token_list × Out)
  | 0, _, _, _ => none
  | fuel + 1, tokens, line, tools =>
    match tokenizer_step sc dfuel tokens line tools with
    | none => none
    | some Scan.stop => some (tokens, [])
    | some Scan.report => some (open_quote_error tokens)
    | some (Scan.next tokens1 line1 tools1) => tokenizer_loop sc dfuel fuel tokens1 line1 tools1

/-- Source function `tokenizer`: the list returned and the bytes written. -/
def tokenizer (sc : Scanners) (dfuel fuel : Nat) (line : Option CStr) (tools : t_tools) :
    Option (List t_token_list × Out) :=
  match tokenizer_loop sc dfuel fuel [] line tools with
  | none => none
  | some (tokens, out) => some (addback tokens (some "N".toList) TokType.NLINE, out)

/-- The quote scanner reports an unclosed quote in pass `k` of the loop of
`tokenizer` started in the given state (passes counted from 0). -/
def reports_in_pass (sc : Scanners) (dfuel : Nat) :
    Nat → List t_token_list → Option CStr → t_tools → Bool
  | 0, tokens, line, tools => decide (tokenizer_step sc dfuel tokens line tools = some Scan.report)
  | k + 1, tokens, line, tools =>
    match tokenizer_step sc dfuel tokens line tools with
    | some (Scan.next tokens1 line1 tools1) => reports_in_pass sc dfuel k tokens1 line1 tools1
    | _ => false

/-- Scanners for the example runs: `is_word` lexes the bytes up to the next
quote or blank as a `WORD`, `is_wspace` lexes one blank as a `SPACE`, and
`is_squote` finds no closing quote and sets `s_quote`. -/
def example_scanners : Scanners where
  is_squote := fun tokens _ tools => (tokens, none, { tools with s_quote := 1 })
  is_dquote := fun tokens _ tools => (tokens, none, { tools with d_quote := 1 })
  is_redirections := fun tokens _ tools => (tokens, none, tools)
  is_wspace := fun tokens line =>
    (addback tokens (some " ".toList) TokType.SPACE, line.map (fun l => l.drop 1))
  is_dollar_pipe := fun tokens _ => (tokens, none)
  is_word := fun tokens line =>
    match line with
    | none => (tokens, none)
    | some l =>
      (addback tokens (some (l.takeWhile (fun c => c ≠ ' ' ∧ c ≠ Char.ofNat 39))) TokType.WORD,
        some (l.dropWhile (fun c => c ≠ ' ' ∧ c ≠ Char.ofNat 39)))
  afdollar := fun tokens _ => (tokens, none)

/-! ## execution_main_utils.c: path lookup -/

/-- The loop of `check_command_in_path` over `path[0], path[1], ...`; `cmd` is
already `"/"` joined with the command name. `access` tells for which paths
`access(path, F_OK)` returns 0. -/
def check_command_in_path_loop (access : CStr → Bool) (cmd : CStr) : List CStr → Option CStr
  | [] => none
  | p :: rest =>
    if access (ft_strjoin (some p) cmd) = true then some (ft_strjoin (some p) cmd)
    else check_command_in_path_loop access cmd rest

/-- Source function `check_command_in_path`; `path` is the array without its `NULL`
terminator. -/
def check_command_in_path (access : CStr → Bool) (path : List CStr) (cmd : CStr) :
    Option CStr :=
  check_command_in_path_loop access (ft_strjoin (some "/".toList) cmd) path

/-! ## ft_heredoc.c -/

/-- Source function `heredoc_prompt`: the bytes written to `fd`. The lines are those
`readline` returns, in order; after the last one it returns `NULL`. -/
def heredoc_prompt (delimiter : CStr) : List CStr → Out
  | [] => []
  | buffer :: rest =>
    if ft_strcmp buffer delimiter = 0 then []
    else ft_strjoin (some buffer) "\n".toList ++ heredoc_prompt delimiter rest

/-- What the specification asks of `heredoc_prompt`: the lines before the first
one equal to the delimiter, each followed by a newline. -/
def heredoc_spec (delimiter : CStr) (lines : List CStr) : Out :=
  ((lines.takeWhile (fun l => decide (l ≠ delimiter))).map (fun l => l ++ ['\n'])).flatten

/-- Source function `count_heredocs`. -/
def count_heredocs (cmd_line : t_cmd_line) : Nat :=
  (cmd_line.redirections.filter (fun r => decide (r.type = TokType.HEREDOC))).length

/-! ## execution_2.c -/

/-- Source function `builtins`. -/
def builtins (cmd : CStr) : Nat :=
  if ft_strcmp cmd "echo".toList = 0 then 1
  else if ft_strcmp cmd "pwd".toList = 0 then 2
  else if ft_strcmp cmd "export".toList = 0 then 3
  else if ft_strcmp cmd "env".toList = 0 then 4
  else 0

/-- Source function `print_env`: the bytes printed. `ft_strcmp (head->value, "")` reads
through `head->value`: `none` when it is `NULL`. -/
def print_env : List t_env_list → Option Out
  | [] => some []
  | head :: rest =>
    match head.value, print_env rest with
    | some v, some o =>
      if ft_strcmp v [] = 0 then some (head.name ++ "\n".toList ++ o)
      else some (head.name ++ "=\"".toList ++ v ++ "\"\n".toList ++ o)
    | _, _ => none

/-- The line the `env` listing holds for an entry, as `print_env` formats it. -/
def env_line (e : t_env_list) : Out :=
  match e.value with
  | none => []
  | some [] => e.name ++ ['\n']
  | some (c :: v) => e.name ++ "=\"".toList ++ (c :: v) ++ "\"\n".toList

/-- The line the specification asks of the `env` listing: name, `=`, value,
newline, with no quoting. -/
def env_line_spec (e : t_env_list) : Out :=
  e.name ++ ['='] ++ e.value.getD [] ++ ['\n']

/-- The line the `export` listing holds for an entry, as `do_export` formats
it: the name alone for an empty value, unless the first `=` of the stored name
is its last byte, in which case two double quotes follow the name. -/
def export_line (e : t_export) : Out :=
  match e.value with
  | none => []
  | some [] =>
    if eqaul_last_only e.var = true then "declare -x ".toList ++ e.var ++ "\"\"\n".toList
    else "declare -x ".toList ++ e.var ++ ['\n']
  | some (c :: v) => "declare -x ".toList ++ e.var ++ "=\"".toList ++ (c :: v) ++ "\"\n".toList

/-- The line the specification asks of the `export` listing. -/
def export_line_spec (e : t_export) : Out :=
  match e.value with
  | none => "declare -x ".toList ++ e.var ++ ['\n']
  | some [] => "declare -x ".toList ++ e.var ++ ['\n']
  | some (c :: v) => "declare -x ".toList ++ e.var ++ "=\"".toList ++ (c :: v) ++ "\"\n".toList

/-! ## execution.c: the child forked for a node -/

/-- How the child process forked by `execute_command` goes on. -/
inductive ChildEnd where
  /-- The `return` of `execute_command`: the child is back in `execution`, then
  in `body`, then in the `while (1)` of `main`, where it calls `prompt`. -/
  | returns
  /-- A built-in was run by `exec_builtins`, which ends with `exit(0)`. -/
  | builtin (code : Nat)
  /-- The call `exit(0)` of `execve_func` after `Command not found`. -/
  | not_found
  /-- The call `execve(cmd_, cmd, envp)`. -/
  | execve (cmd_ : CStr)
deriving DecidableEq, Repr

/-- Source function `execve_func`, reduced to how it ends. `path` is what `get_path`
returns (not in the sources at hand). -/
def execve_func (access : CStr → Bool) (path : List CStr) (cmd0 : CStr) : ChildEnd :=
  match (if at0 cmd0 ≠ '/' then check_command_in_path access path cmd0 else some cmd0) with
  | none => ChildEnd.not_found
  | some c => ChildEnd.execve c

/-- Source function `execute_command_2`, reduced to how it ends. `builtins` reads
through `str[0]`: `none` when it is `NULL` or was never written. -/
def execute_command_2 (access : CStr → Bool) (path : List CStr) (cmd_line : t_cmd_line) :
    Option ChildEnd :=
  match read_slot cmd_line 0 with
  | some (some s0) =>
    if builtins s0 ≠ 0 then some (ChildEnd.builtin (builtins s0))
    else some (execve_func access path s0)
  | _ => none

/-- The child branch of `execute_command` (the body of `if (!(pid = fork()))`),
reduced to how the child goes on; `no_file` is 1 in the parent at every fork. -/
def execute_command_child (access : CStr → Bool) (path : List CStr) (mk : CStr → Bool)
    (cmd_tmp : t_cmd_line) (fs : Files) : Option ChildEnd :=
  if (last_infile mk cmd_tmp 1 fs).2.1 = 0 then some ChildEnd.returns
  else execute_command_2 access path cmd_tmp

/-! ## execution.c, execution_main_utils.c: pipes and file descriptors -/

/-- What an open file descriptor refers to: the terminal, a file, or the read
or write end of the pipe created for node `j`. -/
inductive Desc where
  | tty
  | file (name : CStr)
  | pipe_r (j : Nat)
  | pipe_w (j : Nat)
deriving DecidableEq, Repr

/-- The descriptor is an end of a pipe. -/
def is_pipe_end : Desc → Bool
  | Desc.pipe_r _ => true
  | Desc.pipe_w _ => true
  | _ => false

/-- The descriptor table of a process: entry `n` is what descriptor `n` refers
to, `none` when `n` is not open. -/
abbrev FdTable := List (Option Desc)

/-- What descriptor `n` refers to. -/
def fd_get : FdTable → Nat → Option Desc
  | [], _ => none
  | d :: _, 0 => d
  | _ :: t, n + 1 => fd_get t n

/-- The table with entry `n` replaced. -/
def fd_set : FdTable → Nat → Option Desc → FdTable
  | [], 0, d => [d]
  | [], n + 1, d => none :: fd_set [] n d
  | _ :: t, 0, d => d :: t
  | x :: t, n + 1, d => x :: fd_set t n d

/-- The lowest descriptor number that is not open: the one `open` and `pipe`
hand out. -/
def lowest_free : FdTable → Nat
  | [] => 0
  | none :: _ => 0
  | some _ :: t => lowest_free t + 1

/-- The system call `open` when it succeeds: the new table and the descriptor. -/
def sys_open (tbl : FdTable) (d : Desc) : FdTable × Nat :=
  (fd_set tbl (lowest_free tbl) (some d), lowest_free tbl)

/-- The system call `pipe` when it succeeds, for the pipe of node `j`: the new
table and the pair written to the array (read end first). -/
def sys_pipe (tbl : FdTable) (j : Nat) : FdTable × Nat × Nat :=
  ((sys_open (sys_open tbl (Desc.pipe_r j)).1 (Desc.pipe_w j)).1,
    (sys_open tbl (Desc.pipe_r j)).2,
    (sys_open (sys_open tbl (Desc.pipe_r j)).1 (Desc.pipe_w j)).2)

/-- The system call `close`: the new table, and whether `n` was open. -/
def sys_close (tbl : FdTable) (n : Nat) : FdTable × Bool :=
  match fd_get tbl n with
  | none => (tbl, false)
  | some _ => (fd_set tbl n none, true)

/-- The system call `dup2 (old, new)`: nothing changes when `old` is not open. -/
def sys_dup2 (tbl : FdTable) (old new : Nat) : FdTable :=
  match fd_get tbl old with
  | none => tbl
  | some d => fd_set tbl new (some d)

/-- The array `int **fd` of `execution`: entry `i` is the pair `pipe` wrote to
`fd[i]`, `none` while nothing was written there. -/
abbrev PipeArr := List (Option (Nat × Nat))

/-- Reading `fd[i][0]` and `fd[i][1]`: `none` (an indeterminate value) when
`fd[i]` was never written or `i` is past the array. -/
def arr_get (fd : PipeArr) (i : Nat) : Option (Nat × Nat) :=
  match fd.get? i with
  | some (some p) => some p
  | _ => none

/-- Modelled from the spec: `count_list` is not in the sources at hand; it is
the number of nodes of the pipeline (`n` in the specification). -/
def count_list (cmd_line : List t_cmd_line) : Nat :=
  cmd_line.length

/-- Source function `dup_to_pipe`, run on the descriptor table of the child. -/
def dup_to_pipe (fd : PipeArr) (i cmds : Nat) (tbl : FdTable) : Option FdTable :=
  if i = 0 then
    match arr_get fd i with
    | none => none
    | some (r, w) => some (sys_close (sys_close (sys_dup2 tbl w 1) r).1 w).1
  else if i + 1 = cmds then
    match arr_get fd (i - 1) with
    | none => none
    | some (r0, _) => some (sys_close (sys_dup2 tbl r0 0) r0).1
  else if 0 < i ∧ i + 1 < cmds then
    match arr_get fd (i - 1), arr_get fd i with
    | some (r0, _), some (r, w) =>
      some (sys_close (sys_close (sys_close (sys_dup2 (sys_dup2 tbl r0 0) w 1) r0).1 w).1 r).1
    | _, _ => none
  else some tbl

/-- The state of the parent in `execute_command`: its descriptor table, and
whether every `close` it made so far was given an open descriptor. -/
structure Parent where
  tbl : FdTable
  ok : Bool
deriving DecidableEq, Repr

/-- One `close (n)` in the parent. -/
def parent_close (p : Parent) (n : Nat) : Parent :=
  { tbl := (sys_close p.tbl n).1, ok := p.ok && (sys_close p.tbl n).2 }

/-- Source function `close_pipes`, run on the parent. -/
def close_pipes (fd : PipeArr) (i cmds : Nat) (flag : Bool) (p : Parent) : Option Parent :=
  if flag ≠ true then some p
  else if i = 0 then
    match arr_get fd i with
    | none => none
    | some (_, w) => some (parent_close p w)
  else if i + 1 = cmds then
    match arr_get fd (i - 1) with
    | none => none
    | some (r0, _) => some (parent_close p r0)
  else if 0 < i ∧ i + 1 < cmds then
    match arr_get fd (i - 1), arr_get fd i with
    | some (r0, _), some (_, w) => some (parent_close (parent_close p w) r0)
    | _, _ => none
  else some p

/-- The descriptors `ft_heredoc` opens for a node, one per here-document (none
is closed). -/
def ft_heredoc_opens : Nat → FdTable → FdTable
  | 0, tbl => tbl
  | k + 1, tbl => ft_heredoc_opens k (sys_open tbl (Desc.file "heredoc".toList)).1

/-- What the child forked for node `i` starts from: a copy of the parent's
table, the array, and `flg`. -/
structure Child where
  tbl : FdTable
  fd : PipeArr
  i : Nat
  flg : Bool
deriving DecidableEq, Repr

/-- The first statement of the loop body of `execute_command`:
`if (separator == e_pipe) { pipe (fd[i]); flg = 1; }`. Writing past the array is
`none`. -/
def make_pipe (cmd_tmp : t_cmd_line) (i : Nat) (flg : Bool) (fd : PipeArr) (tbl : FdTable) :
    Option (FdTable × PipeArr × Bool) :=
  if cmd_tmp.separator = t_sep.e_pipe then
    if i < fd.length then
      some ((sys_pipe tbl i).1, fd.set i (some (sys_pipe tbl i).2), true)
    else none
  else some (tbl, fd, flg)

/-- The scheduling loop of `execute_command` seen from the parent: the children
forked, in order, and the parent when the loop is left. `cmds` is
`count_list (cmd_line)`. -/
def execute_command_loop (cmds : Nat) :
    List t_cmd_line → Nat → Bool → PipeArr → Parent → Option (List Child × Parent)
  | [], _, _, _, p => some ([], p)
  | cmd_tmp :: rest, i, flg, fd, p =>
    match make_pipe cmd_tmp i flg fd p.tbl with
    | none => none
    | some (tbl1, fd1, flg1) =>
      match close_pipes fd1 i cmds flg1
          { tbl := ft_heredoc_opens (count_heredocs cmd_tmp) tbl1, ok := p.ok } with
      | none => none
      | some p1 =>
        match execute_command_loop cmds rest (i + 1) flg1 fd1 p1 with
        | none => none
        | some (cs, p2) =>
          some ({ tbl := ft_heredoc_opens (count_heredocs cmd_tmp) tbl1, fd := fd1, i := i,
                  flg := flg1 } :: cs, p2)

/-- Source function `execute_command` seen from the parent, called by `execution`
with a fresh array of `count_list (cmd_line)` entries and the descriptor table
of the shell. -/
def execute_command (cmd_line : List t_cmd_line) (tbl : FdTable) :
    Option (List Child × Parent) :=
  execute_command_loop (count_list cmd_line) cmd_line 0 false
    (List.replicate (count_list cmd_line) none) { tbl := tbl, ok := true }

/-- The child's part of `execute_command` up to and including
`if (flg) dup_to_pipe (...)`, on the descriptor table. -/
def child_dup (cmds : Nat) (c : Child) : Option FdTable :=
  if c.flg = true then dup_to_pipe c.fd c.i cmds c.tbl else some c.tbl

/-- The separators of a pipeline: `PIPE` on every node but the last, end-of-line
on the last. -/
def is_pipeline : List t_cmd_line → Bool
  | [] => false
  | [c] => decide (c.separator = t_sep.e_nline)
  | c :: rest => decide (c.separator = t_sep.e_pipe) && is_pipeline rest

/-- No descriptor of the table is an end of a pipe. -/
def no_pipe_open (tbl : FdTable) : Bool :=
  tbl.all (fun d => match d with | some x => !is_pipe_end x | none => true)

/-- Every end of a pipe that is open in the table is under one of the numbers
listed. -/
def pipes_only_at (tbl : FdTable) (ns : List Nat) : Prop :=
  ∀ m d, fd_get tbl m = some d → is_pipe_end d = true → m ∈ ns

/-- Standard input and standard output are open and are not ends of a pipe. -/
def std_open (tbl : FdTable) : Prop :=
  (∃ d, fd_get tbl 0 = some d ∧ is_pipe_end d = false) ∧
    ∃ d, fd_get tbl 1 = some d ∧ is_pipe_end d = false

/-- What holds in the parent when the loop of `execute_command` reaches node `i`:
every `close` so far was given an open descriptor; at node 0 `flg` is 0 and no
end of a pipe is open; later `flg` is 1 and the one end open is the read end of
the pipe of node `i - 1`, under the number held in `fd[i - 1][0]`. -/
def parent_inv (i : Nat) (flg : Bool) (fd : PipeArr) (p : Parent) : Prop :=
  p.ok = true ∧
    (i = 0 → flg = false ∧ pipes_only_at p.tbl []) ∧
    (0 < i → flg = true ∧ ∃ r0 w0, arr_get fd (i - 1) = some (r0, w0) ∧
      fd_get p.tbl r0 = some (Desc.pipe_r (i - 1)) ∧ pipes_only_at p.tbl [r0])

/-- What the specification asks of the child forked for node `i` of `cmds`
nodes: `dup_to_pipe` is run and returns; afterwards standard input is the read
end of the pipe of node `i - 1` (untouched for node 0), standard output is the
write end of the pipe of node `i` (untouched for the last node), and no end of a
pipe that the child started with is open under its number. The ends it started
with are at most the read end of pipe `i - 1` and the two ends of pipe `i`. -/
def child_wired (cmds : Nat) (c : Child) : Prop :=
  c.flg = true ∧
    (∀ m d, fd_get c.tbl m = some d → is_pipe_end d = true →
      d = Desc.pipe_r (c.i - 1) ∨ d = Desc.pipe_r c.i ∨ d = Desc.pipe_w c.i) ∧
    ∃ tbl1, child_dup cmds c = some tbl1 ∧
      fd_get tbl1 0 = (if 0 < c.i then some (Desc.pipe_r (c.i - 1)) else fd_get c.tbl 0) ∧
      fd_get tbl1 1 = (if c.i + 1 < cmds then some (Desc.pipe_w c.i) else fd_get c.tbl 1) ∧
      ∀ m d, fd_get c.tbl m = some d → is_pipe_end d = true → fd_get tbl1 m = none

/-- The child gets back into the read-eval loop of `main`. After the `return`
of `execute_command` nothing is left to do in `execution` and in `body`, and the
`while (1)` of `main` calls `prompt` again. A call of `execve` that fails
(`execve_fails` tells for which paths) returns as well: nothing follows it in
`execve_func` and `execute_command_2`, so the child goes on in the loop of
`execute_command` like the parent and then returns to `main` too. The ends
`builtin` and `not_found` call `exit(0)`, and a successful `execve` replaces the
program. -/
def back_in_main_loop (execve_fails : CStr → Bool) : ChildEnd → Bool
  | ChildEnd.returns => true
  | ChildEnd.execve cmd_ => execve_fails cmd_
  | _ => false

/-- A token list built from the empty list by calls of `addback`, one per
`(value, type)` pair, in order. -/
def built_with_addback (calls : List (Option CStr × TokType)) : List t_token_list :=
  calls.foldl (fun tokens c => addback tokens c.1 c.2) []

/-! ## Facts about the string helpers -/

theorem char_toNat_inj (a b : Char) (h : a.toNat = b.toNat) : a = b := by
  apply Char.ext
  apply UInt32.ext
  exact h

theorem char_toNat_pos (a : Char) (h : a ≠ Char.ofNat 0) : 0 < a.toNat := by
  rcases Nat.eq_zero_or_pos a.toNat with h0 | h0
  · exact absurd (char_toNat_inj a (Char.ofNat 0) (by rw [h0]; decide)) h
  · exact h0

theorem char_sub_ne_zero (a b : Char) (h : a ≠ b) : (a.toNat : Int) - (b.toNat : Int) ≠ 0 := by
  intro h0
  apply h
  apply char_toNat_inj
  omega

theorem is_cstr_cons {c : Char} {s : CStr} (h : is_cstr (c :: s)) :
    c ≠ Char.ofNat 0 ∧ is_cstr s :=
  ⟨h c (List.mem_cons_self c s), fun d hd => h d (List.mem_cons_of_mem c hd)⟩

theorem strcmp_eq_ft_strcmp (a b : CStr) : strcmp a b = ft_strcmp a b := by
  induction a generalizing b with
  | nil => cases b <;> simp [strcmp, ft_strcmp]
  | cons x a ih =>
    cases b with
    | nil => simp [strcmp, ft_strcmp]
    | cons y b => simp [strcmp, ft_strcmp, ih]

theorem ft_strcmp_self (a : CStr) : ft_strcmp a a = 0 := by
  induction a with
  | nil => simp [ft_strcmp]
  | cons x a ih => simp [ft_strcmp, ih]

theorem ft_strcmp_eq_zero {a b : CStr} (ha : is_cstr a) (hb : is_cstr b)
    (h : ft_strcmp a b = 0) : a = b := by
  induction a generalizing b with
  | nil =>
    cases b with
    | nil => rfl
    | cons y b =>
      have hy := char_toNat_pos y (is_cstr_cons hb).1
      simp [ft_strcmp] at h
      omega
  | cons x a ih =>
    cases b with
    | nil =>
      have hx := char_toNat_pos x (is_cstr_cons ha).1
      simp [ft_strcmp] at h
      omega
    | cons y b =>
      by_cases hxy : x = y
      · subst hxy
        simp [ft_strcmp] at h
        rw [ih (is_cstr_cons ha).2 (is_cstr_cons hb).2 h]
      · simp [ft_strcmp, hxy] at h
        exact absurd h (char_sub_ne_zero x y hxy)

theorem ft_strcmp_ne_zero {a b : CStr} (ha : is_cstr a) (hb : is_cstr b) (h : a ≠ b) :
    ft_strcmp a b ≠ 0 :=
  fun h0 => h (ft_strcmp_eq_zero ha hb h0)

theorem strcmp_pos_iff (a b : CStr) : strcmp a b > 0 ↔ strcmp b a < 0 := by
  induction a generalizing b with
  | nil =>
    cases b with
    | nil => simp [strcmp]
    | cons y b => simp [strcmp]
  | cons x a ih =>
    cases b with
    | nil => simp [strcmp]
    | cons y b =>
      by_cases hxy : x = y
      · subst hxy
        simpa [strcmp] using ih b
      · have hyx : ¬ y = x := fun h => hxy h.symm
        simp [strcmp, hxy, hyx]

theorem strcmp_nonpos_of_not_neg {a b : CStr} (h : ¬ strcmp a b < 0) : strcmp b a ≤ 0 := by
  by_contra hc
  have h1 : strcmp b a > 0 := by omega
  exact h ((strcmp_pos_iff b a).1 h1)

theorem strcmp_nonpos_trans {a b c : CStr} (ha : is_cstr a) (hb : is_cstr b) (hc : is_cstr c)
    (h1 : strcmp a b ≤ 0) (h2 : strcmp b c ≤ 0) : strcmp a c ≤ 0 := by
  induction a generalizing b c with
  | nil => cases c <;> simp [strcmp]
  | cons x a ih =>
    have hx := char_toNat_pos x (is_cstr_cons ha).1
    cases b with
    | nil => simp [strcmp] at h1; omega
    | cons y b =>
      have hy := char_toNat_pos y (is_cstr_cons hb).1
      cases c with
      | nil => simp [strcmp] at h2; omega
      | cons z c =>
        by_cases hxy : x = y
        · subst hxy
          by_cases hxz : x = z
          · subst hxz
            simp [strcmp] at h1 h2 ⊢
            exact ih (is_cstr_cons ha).2 (is_cstr_cons hb).2 (is_cstr_cons hc).2 h1 h2
          · simp [strcmp, hxz] at h2 ⊢
            exact h2
        · by_cases hyz : y = z
          · subst hyz
            simp [strcmp, hxy] at h1 ⊢
            exact h1
          · have hxz : ¬ x = z := by
              intro h
              subst h
              simp [strcmp, hxy] at h1
              have hyx : ¬ y = x := fun h => hxy h.symm
              simp [strcmp, hyx] at h2
              have := char_sub_ne_zero x y hxy
              omega
            simp [strcmp, hxy] at h1
            simp [strcmp, hyz] at h2
            simp [strcmp, hxz]
            omega

theorem strcmp_neg_of_nonpos_of_ne {a b : CStr} (ha : is_cstr a) (hb : is_cstr b)
    (h : strcmp a b ≤ 0) (hne : a ≠ b) : strcmp a b < 0 := by
  have h0 : strcmp a b ≠ 0 := by
    rw [strcmp_eq_ft_strcmp]
    exact ft_strcmp_ne_zero ha hb hne
  omega

/-! ## Facts about `insert` and `sort` -/

theorem insert_after_perm (x : t_export) (l : List t_export) :
    (insert_after x l).Perm (x :: l) := by
  induction l with
  | nil => simp [insert_after]
  | cons n rest ih =>
    unfold insert_after
    split
    · exact (List.Perm.cons n ih).trans (List.Perm.swap x n rest)
    · exact List.Perm.refl _

theorem insert_cons (f : t_export) (rest : List t_export) (x : t_export) :
    insert (f :: rest) x =
      if strcmp f.var x.var > 0 then x :: f :: rest else f :: insert_after x rest := rfl

theorem insert_perm (l : List t_export) (x : t_export) : (insert l x).Perm (x :: l) := by
  cases l with
  | nil => simp [insert]
  | cons f rest =>
    rw [insert_cons]
    split
    · exact List.Perm.refl _
    · exact (List.Perm.cons f (insert_after_perm x rest)).trans (List.Perm.swap x f rest)

theorem sort_loop_perm (acc l : List t_export) : (sort_loop acc l).Perm (acc ++ l) := by
  induction l generalizing acc with
  | nil => simp [sort_loop]
  | cons c next ih =>
    unfold sort_loop
    refine (ih (insert acc c)).trans ?_
    refine ((insert_perm acc c).append_right next).trans ?_
    have hm : (acc ++ c :: next).Perm (c :: (acc ++ next)) := List.perm_middle
    simpa using hm.symm

theorem sort_perm (l : List t_export) : (sort l).Perm l := by
  simpa [sort] using sort_loop_perm [] l

theorem mem_sort {e : t_export} {l : List t_export} : e ∈ sort l ↔ e ∈ l :=
  (sort_perm l).mem_iff

theorem insert_after_sorted (x : t_export) (l : List t_export) (hx : is_cstr x.var)
    (hl : ∀ e ∈ l, is_cstr e.var) (hs : sorted_by_name l) :
    sorted_by_name (insert_after x l) := by
  induction l with
  | nil => simp [insert_after, sorted_by_name]
  | cons n rest ih =>
    have hs2 := List.pairwise_cons.1 hs
    have hrest : ∀ e ∈ rest, is_cstr e.var := fun e he => hl e (List.mem_cons_of_mem n he)
    unfold insert_after
    split
    · rename_i hlt
      refine List.pairwise_cons.2 ⟨?_, ih hrest hs2.2⟩
      intro e he
      rcases List.mem_cons.1 ((insert_after_perm x rest).mem_iff.1 he) with h | h
      · subst h; omega
      · exact hs2.1 e h
    · rename_i hge
      have hxn : strcmp x.var n.var ≤ 0 := strcmp_nonpos_of_not_neg hge
      refine List.pairwise_cons.2 ⟨?_, hs⟩
      intro e he
      rcases List.mem_cons.1 he with h | h
      · subst h; exact hxn
      · exact strcmp_nonpos_trans hx (hl n (List.mem_cons_self n rest)) (hrest e h) hxn (hs2.1 e h)

theorem insert_sorted (l : List t_export) (x : t_export) (hx : is_cstr x.var)
    (hl : ∀ e ∈ l, is_cstr e.var) (hs : sorted_by_name l) :
    sorted_by_name (insert l x) := by
  cases l with
  | nil => simp [insert, sorted_by_name]
  | cons f rest =>
    have hs2 := List.pairwise_cons.1 hs
    have hrest : ∀ e ∈ rest, is_cstr e.var := fun e he => hl e (List.mem_cons_of_mem f he)
    have hf : is_cstr f.var := hl f (List.mem_cons_self f rest)
    rw [insert_cons]
    split
    · rename_i hgt
      have hxf : strcmp x.var f.var ≤ 0 := by
        have := (strcmp_pos_iff f.var x.var).1 hgt
        omega
      refine List.pairwise_cons.2 ⟨?_, hs⟩
      intro e he
      rcases List.mem_cons.1 he with h | h
      · subst h; exact hxf
      · exact strcmp_nonpos_trans hx hf (hrest e h) hxf (hs2.1 e h)
    · rename_i hle
      refine List.pairwise_cons.2 ⟨?_, insert_after_sorted x rest hx hrest hs2.2⟩
      intro e he
      rcases List.mem_cons.1 ((insert_after_perm x rest).mem_iff.1 he) with h | h
      · subst h; omega
      · exact hs2.1 e h

theorem sort_loop_sorted (acc l : List t_export) (hacc : ∀ e ∈ acc, is_cstr e.var)
    (hl : ∀ e ∈ l, is_cstr e.var) (hs : sorted_by_name acc) :
    sorted_by_name (sort_loop acc l) := by
  induction l generalizing acc with
  | nil => simpa [sort_loop] using hs
  | cons c next ih =>
    unfold sort_loop
    have hc : is_cstr c.var := hl c (List.mem_cons_self c next)
    apply ih
    · intro e he
      rcases List.mem_cons.1 ((insert_perm acc c).mem_iff.1 he) with h | h
      · subst h; exact hc
      · exact hacc e h
    · exact fun e he => hl e (List.mem_cons_of_mem c he)
    · exact insert_sorted acc c hc hacc hs

theorem sort_sorted (l : List t_export) (hl : ∀ e ∈ l, is_cstr e.var) :
    sorted_by_name (sort l) := by
  unfold sort
  exact sort_loop_sorted [] l (by simp) hl (by simp [sorted_by_name])

theorem insert_after_of_all_lt (x : t_export) (l : List t_export)
    (h : ∀ e ∈ l, strcmp e.var x.var < 0) : insert_after x l = l ++ [x] := by
  induction l with
  | nil => simp [insert_after]
  | cons n rest ih =>
    unfold insert_after
    rw [if_pos (h n (List.mem_cons_self n rest))]
    rw [ih (fun e he => h e (List.mem_cons_of_mem n he))]
    rfl

theorem insert_of_all_lt (l : List t_export) (x : t_export)
    (h : ∀ e ∈ l, strcmp e.var x.var < 0) : insert l x = l ++ [x] := by
  cases l with
  | nil => simp [insert]
  | cons f rest =>
    rw [insert_cons]
    have hf := h f (List.mem_cons_self f rest)
    rw [if_neg (by omega)]
    rw [insert_after_of_all_lt x rest (fun e he => h e (List.mem_cons_of_mem f he))]
    rfl

theorem sort_loop_of_strictly_sorted (acc l : List t_export)
    (h : strictly_sorted (acc ++ l)) : sort_loop acc l = acc ++ l := by
  induction l generalizing acc with
  | nil => simp [sort_loop]
  | cons c next ih =>
    unfold sort_loop
    have h1 : ∀ e ∈ acc, strcmp e.var c.var < 0 := by
      intro e he
      have := List.pairwise_append.1 h
      exact this.2.2 e he c (List.mem_cons_self c next)
    rw [insert_of_all_lt acc c h1]
    rw [ih (acc ++ [c]) (by simpa using h)]
    simp

theorem sort_of_strictly_sorted (l : List t_export) (h : strictly_sorted l) : sort l = l := by
  unfold sort
  simpa using sort_loop_of_strictly_sorted [] l (by simpa using h)

theorem sort_loop_append (acc l1 l2 : List t_export) :
    sort_loop acc (l1 ++ l2) = sort_loop (sort_loop acc l1) l2 := by
  induction l1 generalizing acc with
  | nil => simp [sort_loop]
  | cons c next ih => simp [sort_loop, ih]

theorem strictly_sorted_of_sorted_nodup (l : List t_export) (hl : ∀ e ∈ l, is_cstr e.var)
    (hs : sorted_by_name l) (hn : (l.map (fun e => e.var)).Nodup) : strictly_sorted l := by
  induction l with
  | nil => simp [strictly_sorted]
  | cons f rest ih =>
    have hs2 := List.pairwise_cons.1 hs
    rw [List.map_cons] at hn
    have hn2 := List.nodup_cons.1 hn
    refine List.pairwise_cons.2 ⟨?_, ih (fun e he => hl e (List.mem_cons_of_mem f he)) hs2.2 hn2.2⟩
    intro e he
    apply strcmp_neg_of_nonpos_of_ne (hl f (List.mem_cons_self f rest))
      (hl e (List.mem_cons_of_mem f he)) (hs2.1 e he)
    intro heq
    exact hn2.1 (List.mem_map.2 ⟨e, he, heq.symm⟩)

/-! ## Facts about the scanners of `export.c` -/

theorem alnum_ne_eq {c : Char} (h : ft_isalnum c = true) : c ≠ '=' := by
  intro hc; subst hc; revert h; decide

theorem alnum_ne_plus {c : Char} (h : ft_isalnum c = true) : c ≠ '+' := by
  intro hc; subst hc; revert h; decide

theorem alnum_ne_nul {c : Char} (h : ft_isalnum c = true) : c ≠ Char.ofNat 0 := by
  intro hc; subst hc; revert h; decide

theorem valid_name_is_cstr {n : CStr} (h : valid_name n) : is_cstr n :=
  fun c hc => alnum_ne_nul (h.2.1 c hc)

theorem get_name_scan_assign (i : Nat) (n v : CStr) (hn : ∀ c ∈ n, ft_isalnum c = true) :
    get_name_scan i (n ++ '=' :: v) = n := by
  induction n generalizing i with
  | nil => simp [get_name_scan]
  | cons c n ih =>
    have hc := hn c (List.mem_cons_self c n)
    have h1 := alnum_ne_eq hc
    have h2 := alnum_ne_plus hc
    simp [get_name_scan, h1, h2, ih (i + 1) (fun d hd => hn d (List.mem_cons_of_mem c hd))]

theorem get_name_assign (n v : CStr) (hn : valid_name n) :
    get_name (n ++ '=' :: v) = some n := by
  obtain ⟨hne, hal, _⟩ := hn
  cases n with
  | nil => exact absurd rfl hne
  | cons c n =>
    have h1 := alnum_ne_eq (hal c (List.mem_cons_self c n))
    unfold get_name
    rw [if_neg (by simp [h1])]
    rw [get_name_scan_assign 0 (c :: n) v hal]

theorem get_value_assign (n v : CStr) (hn : ∀ c ∈ n, ft_isalnum c = true) :
    get_value (n ++ '=' :: v) = some v := by
  induction n with
  | nil => simp [get_value]
  | cons c n ih =>
    have h1 := alnum_ne_eq (hn c (List.mem_cons_self c n))
    simp [get_value, h1, ih (fun d hd => hn d (List.mem_cons_of_mem c hd))]

theorem check_if_equal_is_assign (n v : CStr) (hn : ∀ c ∈ n, ft_isalnum c = true)
    (hv : v ≠ []) : check_if_equal_is (n ++ '=' :: v) = true := by
  induction n with
  | nil => simp [check_if_equal_is, hv]
  | cons c n ih =>
    have h1 := alnum_ne_eq (hn c (List.mem_cons_self c n))
    simp [check_if_equal_is, h1, ih (fun d hd => hn d (List.mem_cons_of_mem c hd))]

theorem eqaul_last_only_assign (n v : CStr) (hn : ∀ c ∈ n, ft_isalnum c = true)
    (hv : v ≠ []) : eqaul_last_only (n ++ '=' :: v) = false := by
  induction n with
  | nil => simp [eqaul_last_only, hv]
  | cons c n ih =>
    have h1 := alnum_ne_eq (hn c (List.mem_cons_self c n))
    simp [eqaul_last_only, h1, ih (fun d hd => hn d (List.mem_cons_of_mem c hd))]

theorem correct_name_loop_alnum (i : Nat) (n : CStr) (hn : ∀ c ∈ n, ft_isalnum c = true) :
    correct_name_loop i n = true := by
  induction n generalizing i with
  | nil => simp [correct_name_loop]
  | cons c n ih =>
    have hc := hn c (List.mem_cons_self c n)
    simp [correct_name_loop, hc, ih (i + 1) (fun d hd => hn d (List.mem_cons_of_mem c hd))]

theorem at0_append (n s : CStr) (hn : n ≠ []) : at0 (n ++ s) = at0 n := by
  cases n with
  | nil => exact absurd rfl hn
  | cons c n => rfl

theorem check_if_in_env_eq_true {name value : CStr} {l : List t_export} {e : t_export}
    (he : e ∈ l) (hv : e.var = name) : check_if_in_env name value l = true := by
  induction l with
  | nil => cases he
  | cons f rest ih =>
    unfold check_if_in_env
    rcases List.mem_cons.1 he with h | h
    · subst h; rw [hv, ft_strcmp_self]; simp
    · split
      · rfl
      · exact ih h

theorem check_if_in_env_eq_false {name value : CStr} {l : List t_export}
    (hl : ∀ e ∈ l, is_cstr e.var) (hn : is_cstr name) (h : ∀ e ∈ l, e.var ≠ name) :
    check_if_in_env name value l = false := by
  induction l with
  | nil => rfl
  | cons f rest ih =>
    unfold check_if_in_env
    have hf := ft_strcmp_ne_zero (hl f (List.mem_cons_self f rest)) hn (h f (List.mem_cons_self f rest))
    rw [if_neg hf]
    exact ih (fun e he => hl e (List.mem_cons_of_mem f he)) (fun e he => h e (List.mem_cons_of_mem f he))

theorem check_name_is_exist_eq (s : CStr) (l : List t_export) :
    check_name_is_exist s l = check_if_in_env s [] l := by
  induction l with
  | nil => rfl
  | cons f rest ih => simp [check_name_is_exist, check_if_in_env, ih]

/-! ## `do_export` with a single argument -/

theorem do_export_accepted (cmd a : CStr) (st : Store) (r : Store × Out)
    (hg : correct_name (get_name a) = true ∧ isdigit (at0 a) = false)
    (h : add_var_in_list st a = some r) :
    do_export [cmd, a] st = some ({ r.1 with data := sort r.1.data }, r.2) := by
  simp [do_export, do_export_loop, hg, h]

theorem do_export_rejected (cmd a : CStr) (st : Store)
    (hg : ¬ (correct_name (get_name a) = true ∧ isdigit (at0 a) = false)) :
    do_export [cmd, a] st = some ({ st with data := sort st.data }, error_od_export a) := by
  simp only [do_export, do_export_loop, List.drop_succ_cons, List.drop_zero, if_neg hg]
  simp

theorem add_var_in_list_new (st : Store) (n v : CStr) (hn : valid_name n) (hv : v ≠ [])
    (hin : check_if_in_env n v st.data = false) :
    add_var_in_list st (n ++ '=' :: v) =
      some ({ data := st.data ++ [{ var := n, value := some v }],
              env_list := st.env_list ++ [{ name := n, value := some v }] }, []) := by
  unfold add_var_in_list
  rw [if_pos ⟨check_if_equal_is_assign n v hn.2.1 hv, eqaul_last_only_assign n v hn.2.1 hv⟩]
  rw [get_name_assign n v hn, get_value_assign n v hn.2.1]
  simp [hin, addback_export, addback_env, addnew, addnew2]

theorem guard_assign (n v : CStr) (hn : valid_name n) :
    correct_name (get_name (n ++ '=' :: v)) = true ∧ isdigit (at0 (n ++ '=' :: v)) = false := by
  rw [get_name_assign n v hn, at0_append n _ hn.1]
  exact ⟨correct_name_loop_alnum 0 n hn.2.1, hn.2.2⟩

/-! ## Facts about `removeNode`, `removeNode2` -/

theorem removeNode_loop_eq_self (n : CStr) (l : List t_export)
    (h : ∀ e ∈ l, ft_strcmp e.var n ≠ 0) : removeNode_loop n l = l := by
  induction l with
  | nil => rfl
  | cons f rest ih =>
    unfold removeNode_loop
    rw [if_neg (h f (List.mem_cons_self f rest)), ih (fun e he => h e (List.mem_cons_of_mem f he))]

theorem removeNode_loop_unique (n : CStr) (l1 l2 : List t_export) (x : t_export)
    (hx : ft_strcmp x.var n = 0) (h1 : ∀ e ∈ l1, ft_strcmp e.var n ≠ 0)
    (h2 : ∀ e ∈ l2, ft_strcmp e.var n ≠ 0) :
    removeNode_loop n (l1 ++ x :: l2) = l1 ++ l2 := by
  induction l1 with
  | nil =>
    simp only [List.nil_append]
    unfold removeNode_loop
    rw [if_pos hx, removeNode_loop_eq_self n l2 h2]
  | cons f rest ih =>
    simp only [List.cons_append]
    unfold removeNode_loop
    rw [if_neg (h1 f (List.mem_cons_self f rest)), ih (fun e he => h1 e (List.mem_cons_of_mem f he))]

theorem removeNode_unique (n : CStr) (l1 l2 : List t_export) (x : t_export)
    (hx : ft_strcmp x.var n = 0) (h1 : ∀ e ∈ l1, ft_strcmp e.var n ≠ 0)
    (h2 : ∀ e ∈ l2, ft_strcmp e.var n ≠ 0) :
    removeNode (l1 ++ x :: l2) n = l1 ++ l2 := by
  cases l1 with
  | nil => simp [removeNode, hx]
  | cons f rest =>
    simp only [List.cons_append, removeNode]
    rw [if_neg (h1 f (List.mem_cons_self f rest)),
      removeNode_loop_unique n rest l2 x hx (fun e he => h1 e (List.mem_cons_of_mem f he)) h2]

theorem removeNode2_loop_eq_self (n : CStr) (l : List t_env_list)
    (h : ∀ e ∈ l, ft_strcmp e.name n ≠ 0) : removeNode2_loop n l = l := by
  induction l with
  | nil => rfl
  | cons f rest ih =>
    unfold removeNode2_loop
    rw [if_neg (h f (List.mem_cons_self f rest)), ih (fun e he => h e (List.mem_cons_of_mem f he))]

theorem removeNode2_loop_last (n : CStr) (l : List t_env_list) (x : t_env_list)
    (hx : ft_strcmp x.name n = 0) (h : ∀ e ∈ l, ft_strcmp e.name n ≠ 0) :
    removeNode2_loop n (l ++ [x]) = l := by
  induction l with
  | nil => simp [removeNode2_loop, hx]
  | cons f rest ih =>
    simp only [List.cons_append]
    unfold removeNode2_loop
    rw [if_neg (h f (List.mem_cons_self f rest)), ih (fun e he => h e (List.mem_cons_of_mem f he))]

theorem removeNode2_last (n : CStr) (l : List t_env_list) (x : t_env_list)
    (hx : ft_strcmp x.name n = 0) (h : ∀ e ∈ l, ft_strcmp e.name n ≠ 0) :
    removeNode2 (l ++ [x]) n = l := by
  cases l with
  | nil => simp [removeNode2, hx]
  | cons f rest =>
    simp only [List.cons_append, removeNode2]
    rw [if_neg (h f (List.mem_cons_self f rest)),
      removeNode2_loop_last n rest x hx (fun e he => h e (List.mem_cons_of_mem f he))]

theorem insert_after_split (x : t_export) (l : List t_export) :
    ∃ l1 l2, l = l1 ++ l2 ∧ insert_after x l = l1 ++ x :: l2 := by
  induction l with
  | nil => exact ⟨[], [], rfl, rfl⟩
  | cons f rest ih =>
    unfold insert_after
    split
    · obtain ⟨l1, l2, h1, h2⟩ := ih
      exact ⟨f :: l1, l2, by rw [h1]; rfl, by rw [h2]; rfl⟩
    · exact ⟨[], f :: rest, rfl, rfl⟩

theorem insert_split (l : List t_export) (x : t_export) :
    ∃ l1 l2, l = l1 ++ l2 ∧ insert l x = l1 ++ x :: l2 := by
  cases l with
  | nil => exact ⟨[], [], rfl, rfl⟩
  | cons f rest =>
    rw [insert_cons]
    split
    · exact ⟨[], f :: rest, rfl, rfl⟩
    · obtain ⟨l1, l2, h1, h2⟩ := insert_after_split x rest
      exact ⟨f :: l1, l2, by rw [h1]; rfl, by rw [h2]; rfl⟩

theorem sort_append_single (l : List t_export) (x : t_export) (h : strictly_sorted l) :
    sort (l ++ [x]) = insert l x := by
  unfold sort
  rw [sort_loop_append, sort_loop_of_strictly_sorted [] l (by simpa using h)]
  simp [sort_loop]

/-! ## Specification properties of `export`, `unset` and `init_env` -/

/-- C1 (the code departs from the claim). `export X=2` on a store that holds
`X=1` in both views: the exported view is updated, but the lookup view still
holds `X=1`, because `edit_value` returns from inside its first loop and never
reaches the loop over the lookup view. -/
theorem do_export_reassign_keeps_lookup_value :
    do_export ["export".toList, "X=2".toList]
        { data := [{ var := "X".toList, value := some "1".toList }],
          env_list := [{ name := "X".toList, value := some "1".toList }] }
      = some ({ data := [{ var := "X".toList, value := some "2".toList }],
                env_list := [{ name := "X".toList, value := some "1".toList }] }, []) := by
  decide

/-- C4 (the code departs from the claim). `unset X` on an exported view that
holds two entries named `X` (as `export X X` leaves it): `removeNode` unlinks the
head and returns, so one entry named `X` is still there. -/
theorem do_unset_keeps_second_duplicate :
    do_unset ["unset".toList, "X".toList]
        { data := [{ var := "X".toList, value := some [] }, { var := "X".toList, value := some [] }],
          env_list := [] }
      = ({ data := [{ var := "X".toList, value := some [] }], env_list := [] }, []) := by
  decide

/-- C6 (the code departs from the claim). `init_env` on the environment
`X=a=b`: `ft_split` cuts the entry at every `=`, so the value stored in both views
is `a`, not `a=b`. -/
theorem init_env_truncates_value_at_second_equal :
    init_env { data := [], env_list := [] } ["X=a=b".toList]
      = some { data := [{ var := "X".toList, value := some "a".toList }],
               env_list := [{ name := "X".toList, value := some "a".toList }] } := by
  decide

/-- C8 (the code departs from the claim). `export X=` run twice on the empty
store leaves two entries `X=` in each view, where one run leaves one: the branch
of `add_var_in_list` for a trailing `=` never looks the name up. -/
theorem do_export_empty_value_twice_duplicates :
    do_export ["export".toList, "X=".toList] { data := [], env_list := [] }
      = some ({ data := [{ var := "X=".toList, value := some [] }],
                env_list := [{ name := "X=".toList, value := some [] }] }, [])
    ∧ do_export ["export".toList, "X=".toList]
        { data := [{ var := "X=".toList, value := some [] }],
          env_list := [{ name := "X=".toList, value := some [] }] }
      = some ({ data := [{ var := "X=".toList, value := some [] },
                         { var := "X=".toList, value := some [] }],
                env_list := [{ name := "X=".toList, value := some [] },
                             { name := "X=".toList, value := some [] }] }, []) := by
  decide

/-- C7. An argument whose first byte is a decimal digit is rejected by
`do_export`: the output is exactly `error : <arg> not identifier` and a newline,
and when the exported view was sorted with pairwise distinct names (all names
being C strings) both views are left exactly as they were. -/
theorem do_export_rejects_leading_digit (cmd : CStr) (c : Char) (rest : CStr) (st : Store)
    (hc : isdigit c = true) :
    (do_export [cmd, c :: rest] st).map Prod.snd
        = some ("error : ".toList ++ (c :: rest) ++ " not identifier\n".toList)
    ∧ (names_are_cstr st → sorted_by_name st.data → (st.data.map (fun e => e.var)).Nodup →
        do_export [cmd, c :: rest] st
          = some (st, "error : ".toList ++ (c :: rest) ++ " not identifier\n".toList)) := by
  have hg : ¬ (correct_name (get_name (c :: rest)) = true ∧ isdigit (at0 (c :: rest)) = false) := by
    intro h
    have h2 : isdigit c = false := h.2
    rw [hc] at h2
    cases h2
  rw [do_export_rejected cmd (c :: rest) st hg]
  refine ⟨rfl, ?_⟩
  intro hwf hs hn
  rw [sort_of_strictly_sorted st.data (strictly_sorted_of_sorted_nodup st.data hwf.1 hs hn)]
  rfl

theorem do_export_rejects_leading_digit_witness :
    (do_export ["export".toList, "1BAD=x".toList]
        { data := [{ var := "A".toList, value := some "1".toList }],
          env_list := [{ name := "A".toList, value := some "1".toList }] }).map Prod.snd
        = some "error : 1BAD=x not identifier\n".toList
    ∧ do_export ["export".toList, "1BAD=x".toList]
        { data := [{ var := "A".toList, value := some "1".toList }],
          env_list := [{ name := "A".toList, value := some "1".toList }] }
      = some ({ data := [{ var := "A".toList, value := some "1".toList }],
                env_list := [{ name := "A".toList, value := some "1".toList }] },
              "error : 1BAD=x not identifier\n".toList) :=
  ⟨(do_export_rejects_leading_digit "export".toList '1' "BAD=x".toList _ (by decide)).1,
   (do_export_rejects_leading_digit "export".toList '1' "BAD=x".toList _ (by decide)).2
      (by decide) (by decide) (by decide)⟩

/-- C5 (as amended). `do_unset` with a name that no entry of the exported view
bears (names being C strings) leaves both views unchanged and prints
`error : <name> not identifier` and a newline. -/
theorem do_unset_absent_name (cmd n : CStr) (st : Store)
    (hwf : ∀ e ∈ st.data, is_cstr e.var) (hn : is_cstr n)
    (habs : ∀ e ∈ st.data, e.var ≠ n) :
    do_unset [cmd, n] st = (st, "error : ".toList ++ n ++ " not identifier\n".toList) := by
  have h : check_name_is_exist n st.data = false := by
    rw [check_name_is_exist_eq]
    exact check_if_in_env_eq_false hwf hn habs
  simp [do_unset, do_unset_loop, h, error_od_export]

theorem do_unset_absent_name_witness :
    do_unset ["unset".toList, "B".toList]
        { data := [{ var := "A".toList, value := some "1".toList }],
          env_list := [{ name := "A".toList, value := some "1".toList }] }
      = ({ data := [{ var := "A".toList, value := some "1".toList }],
           env_list := [{ name := "A".toList, value := some "1".toList }] },
         "error : B not identifier\n".toList) :=
  do_unset_absent_name "unset".toList "B".toList _ (by decide) (by decide) (by decide)

/-- C5 (counterexample). `unset B` on a store without `B` is not silent. -/
theorem do_unset_absent_name_not_silent :
    (do_unset ["unset".toList, "B".toList]
        { data := [{ var := "A".toList, value := some "1".toList }],
          env_list := [{ name := "A".toList, value := some "1".toList }] }).2 ≠ [] := by
  decide

/-- C9 (as amended). On a store of C strings whose exported view is sorted with
pairwise distinct names and in which the valid name `n` occurs in neither view,
`export n=v` with a non-empty value `v` followed by `unset n` prints nothing and
restores both views to exactly their prior contents and order. -/
theorem export_then_unset_restores (cmd1 cmd2 n v : CStr) (st : Store)
    (hwf : names_are_cstr st) (hs : sorted_by_name st.data)
    (hd : (st.data.map (fun e => e.var)).Nodup) (hn : valid_name n) (hv : v ≠ [])
    (h1 : ∀ e ∈ st.data, e.var ≠ n) (h2 : ∀ e ∈ st.env_list, e.name ≠ n) :
    ∃ st1, do_export [cmd1, n ++ '=' :: v] st = some (st1, []) ∧
      do_unset [cmd2, n] st1 = (st, []) := by
  have hnc : is_cstr n := valid_name_is_cstr hn
  have hin : check_if_in_env n v st.data = false := check_if_in_env_eq_false hwf.1 hnc h1
  have hstrict := strictly_sorted_of_sorted_nodup st.data hwf.1 hs hd
  refine ⟨_, do_export_accepted cmd1 _ st _ (guard_assign n v hn) (add_var_in_list_new st n v hn hv hin), ?_⟩
  simp only [sort_append_single _ _ hstrict]
  obtain ⟨l1, l2, hl, hins⟩ := insert_split st.data { var := n, value := some v }
  have hex : check_name_is_exist n (insert st.data { var := n, value := some v }) = true := by
    rw [check_name_is_exist_eq]
    exact check_if_in_env_eq_true
      ((insert_perm st.data _).mem_iff.2 (List.mem_cons_self _ _)) rfl
  have hne1 : ∀ e ∈ l1, ft_strcmp e.var n ≠ 0 := fun e he =>
    ft_strcmp_ne_zero (hwf.1 e (by rw [hl]; exact List.mem_append_left l2 he)) hnc
      (h1 e (by rw [hl]; exact List.mem_append_left l2 he))
  have hne2 : ∀ e ∈ l2, ft_strcmp e.var n ≠ 0 := fun e he =>
    ft_strcmp_ne_zero (hwf.1 e (by rw [hl]; exact List.mem_append_right l1 he)) hnc
      (h1 e (by rw [hl]; exact List.mem_append_right l1 he))
  have hrm : removeNode (insert st.data { var := n, value := some v }) n = st.data := by
    rw [hins, removeNode_unique n l1 l2 _ (ft_strcmp_self n) hne1 hne2, hl]
  have hrm2 : removeNode2 (st.env_list ++ [{ name := n, value := some v }]) n = st.env_list :=
    removeNode2_last n st.env_list _ (ft_strcmp_self n)
      (fun e he => ft_strcmp_ne_zero (hwf.2 e he) hnc (h2 e he))
  simp [do_unset, do_unset_loop, hex, hrm, hrm2]

theorem export_then_unset_restores_witness :
    ∃ st1, do_export ["export".toList, "X=1".toList]
        { data := [{ var := "A".toList, value := some "1".toList },
                   { var := "Z".toList, value := some "2".toList }],
          env_list := [{ name := "Z".toList, value := some "2".toList },
                       { name := "A".toList, value := some "1".toList }] } = some (st1, []) ∧
      do_unset ["unset".toList, "X".toList] st1
        = ({ data := [{ var := "A".toList, value := some "1".toList },
                      { var := "Z".toList, value := some "2".toList }],
             env_list := [{ name := "Z".toList, value := some "2".toList },
                          { name := "A".toList, value := some "1".toList }] }, []) :=
  export_then_unset_restores "export".toList "unset".toList "X".toList "1".toList _
    (by decide) (by decide) (by decide) (by decide) (by decide) (by decide) (by decide)

/-- C9 (counterexample). With the empty value, `export X=` stores the name `X=`,
which `unset X` does not find: the store is not restored. And on a sorted
exported view that holds the name `X` three times, `export Y=1` followed by
`unset Y` leaves the entries of `X` in another order. -/
theorem export_then_unset_not_restored :
    (∃ st1, do_export ["export".toList, "X=".toList] { data := [], env_list := [] }
          = some (st1, []) ∧
        (do_unset ["unset".toList, "X".toList] st1).1 ≠ { data := [], env_list := [] })
    ∧ (sorted_by_name [{ var := "X".toList, value := some "a".toList },
                       { var := "X".toList, value := some "b".toList },
                       { var := "X".toList, value := some "c".toList }]
       ∧ ∃ st1, do_export ["export".toList, "Y=1".toList]
            { data := [{ var := "X".toList, value := some "a".toList },
                       { var := "X".toList, value := some "b".toList },
                       { var := "X".toList, value := some "c".toList }],
              env_list := [] } = some (st1, []) ∧
          (do_unset ["unset".toList, "Y".toList] st1).1
            = { data := [{ var := "X".toList, value := some "a".toList },
                         { var := "X".toList, value := some "c".toList },
                         { var := "X".toList, value := some "b".toList }],
                env_list := [] }) := by
  refine ⟨⟨{ data := [{ var := "X=".toList, value := some [] }],
             env_list := [{ name := "X=".toList, value := some [] }] }, by decide, by decide⟩,
    by decide,
    ⟨{ data := [{ var := "X".toList, value := some "a".toList },
                { var := "X".toList, value := some "c".toList },
                { var := "X".toList, value := some "b".toList },
                { var := "Y".toList, value := some "1".toList }],
       env_list := [{ name := "Y".toList, value := some "1".toList }] }, by decide, by decide⟩⟩

/-! ## `export NAME+=VALUE` -/

theorem get_name_scan_append (i : Nat) (n w : CStr) (hn : ∀ c ∈ n, ft_isalnum c = true)
    (hi : 2 < i + n.length) : get_name_scan i (n ++ '+' :: '=' :: w) = n := by
  induction n generalizing i with
  | nil =>
    have hi2 : 2 < i := by simpa using hi
    simp [get_name_scan, hi2]
  | cons c n ih =>
    have hc := hn c (List.mem_cons_self c n)
    have h1 := alnum_ne_eq hc
    have h2 := alnum_ne_plus hc
    have hi2 : 2 < i + 1 + n.length := by simp only [List.length_cons] at hi; omega
    simp [get_name_scan, h1, h2, ih (i + 1) (fun d hd => hn d (List.mem_cons_of_mem c hd)) hi2]

theorem get_name_append (n w : CStr) (hn : valid_name n) (hlen : 2 < n.length) :
    get_name (n ++ '+' :: '=' :: w) = some n := by
  obtain ⟨hne, hal, _⟩ := hn
  cases n with
  | nil => exact absurd rfl hne
  | cons c n =>
    have h1 := alnum_ne_eq (hal c (List.mem_cons_self c n))
    unfold get_name
    rw [if_neg (by simp [h1])]
    rw [get_name_scan_append 0 (c :: n) w hal (by omega)]

theorem get_value_append (n w : CStr) (hn : ∀ c ∈ n, ft_isalnum c = true) :
    get_value (n ++ '+' :: '=' :: w) = some w := by
  induction n with
  | nil => simp [get_value]
  | cons c n ih =>
    have h1 := alnum_ne_eq (hn c (List.mem_cons_self c n))
    simp [get_value, h1, ih (fun d hd => hn d (List.mem_cons_of_mem c hd))]

theorem check_if_equal_is_append (n w : CStr) (hn : ∀ c ∈ n, ft_isalnum c = true)
    (hw : w ≠ []) : check_if_equal_is (n ++ '+' :: '=' :: w) = true := by
  induction n with
  | nil => simp [check_if_equal_is, hw]
  | cons c n ih =>
    have h1 := alnum_ne_eq (hn c (List.mem_cons_self c n))
    simp [check_if_equal_is, h1, ih (fun d hd => hn d (List.mem_cons_of_mem c hd))]

theorem eqaul_last_only_append (n w : CStr) (hn : ∀ c ∈ n, ft_isalnum c = true)
    (hw : w ≠ []) : eqaul_last_only (n ++ '+' :: '=' :: w) = false := by
  induction n with
  | nil => simp [eqaul_last_only, hw]
  | cons c n ih =>
    have h1 := alnum_ne_eq (hn c (List.mem_cons_self c n))
    simp [eqaul_last_only, h1, ih (fun d hd => hn d (List.mem_cons_of_mem c hd))]

theorem check_append_append (n w : CStr) : check_append (n ++ '+' :: '=' :: w) = true := by
  induction n with
  | nil => simp [check_append]
  | cons c n ih => simp [check_append, ih]

theorem append_string_names (n w : CStr) (l : List t_export) :
    (append_string n w l).map (fun e => e.var) = l.map (fun e => e.var) := by
  induction l with
  | nil => rfl
  | cons f rest ih =>
    unfold append_string
    split
    · rfl
    · simp [ih]

theorem mem_append_string (n v w : CStr) (l : List t_export) (hl : ∀ e ∈ l, is_cstr e.var)
    (hn : is_cstr n) (h1 : ({ var := n, value := some v } : t_export) ∈ l)
    (h2 : ∀ e ∈ l, e.var = n → e.value = some v) :
    ({ var := n, value := some (v ++ w) } : t_export) ∈ append_string n w l := by
  induction l with
  | nil => cases h1
  | cons f rest ih =>
    unfold append_string
    split
    · rename_i h0
      have hf : f.var = n := ft_strcmp_eq_zero (hl f (List.mem_cons_self f rest)) hn h0
      have hv : f.value = some v := h2 f (List.mem_cons_self f rest) hf
      simp [hf, hv, ft_strjoin]
    · rename_i h0
      rcases List.mem_cons.1 h1 with h | h
      · exact absurd (by rw [← h]; exact ft_strcmp_self n) h0
      · exact List.mem_cons_of_mem f
          (ih (fun e he => hl e (List.mem_cons_of_mem f he)) h
            (fun e he => h2 e (List.mem_cons_of_mem f he)))

/-- The extent of the defect of C2. On every store whose exported-view names are
C strings and in which a valid name `n` of length at least 3 is present in the
exported view, every entry of that name holding the value `v`: for every
non-empty `w`, `export n+=w` prints nothing and appends `w` in the exported view
only; `append_string` is not given the lookup view, which therefore still holds
what it held, without `w`. -/
theorem export_append_exported_view_only (cmd n v w : CStr) (st : Store)
    (hwf : ∀ e ∈ st.data, is_cstr e.var) (hn : valid_name n) (hlen : 2 < n.length)
    (hw : w ≠ []) (h1 : ({ var := n, value := some v } : t_export) ∈ st.data)
    (h2 : ∀ e ∈ st.data, e.var = n → e.value = some v) :
    ∃ st1, do_export [cmd, n ++ '+' :: '=' :: w] st = some (st1, []) ∧
      ({ var := n, value := some (v ++ w) } : t_export) ∈ st1.data ∧
      (st1.data.map (fun e => e.var)).Perm (st.data.map (fun e => e.var)) ∧
      st1.env_list = st.env_list := by
  have hg : correct_name (get_name (n ++ '+' :: '=' :: w)) = true
      ∧ isdigit (at0 (n ++ '+' :: '=' :: w)) = false := by
    rw [get_name_append n w hn hlen, at0_append n _ hn.1]
    exact ⟨correct_name_loop_alnum 0 n hn.2.1, hn.2.2⟩
  have hadd : add_var_in_list st (n ++ '+' :: '=' :: w)
      = some ({ st with data := append_string n w st.data }, []) := by
    unfold add_var_in_list
    rw [if_pos ⟨check_if_equal_is_append n w hn.2.1 hw, eqaul_last_only_append n w hn.2.1 hw⟩]
    rw [get_name_append n w hn hlen, get_value_append n w hn.2.1]
    simp [check_if_in_env_eq_true h1 rfl, check_append_append]
  refine ⟨_, do_export_accepted cmd _ st _ hg hadd, ?_, ?_, rfl⟩
  · exact mem_sort.2 (mem_append_string n v w st.data hwf (valid_name_is_cstr hn) h1 h2)
  · exact ((sort_perm _).map _).trans (by rw [append_string_names])

theorem export_append_exported_view_only_witness :
    ∃ st1, do_export ["export".toList, "ABC+=2".toList]
        { data := [{ var := "ABC".toList, value := some "1".toList }],
          env_list := [{ name := "ABC".toList, value := some "1".toList }] } = some (st1, []) ∧
      ({ var := "ABC".toList, value := some "12".toList } : t_export) ∈ st1.data ∧
      (st1.data.map (fun e => e.var)).Perm ["ABC".toList] ∧
      st1.env_list = [{ name := "ABC".toList, value := some "1".toList }] :=
  export_append_exported_view_only "export".toList "ABC".toList "1".toList "2".toList
    { data := [{ var := "ABC".toList, value := some "1".toList }],
      env_list := [{ name := "ABC".toList, value := some "1".toList }] }
    (by decide) (by decide) (by decide) (by decide) (by decide) (by decide)

/-- C2 (the code departs from the claim). `export ABC+=2` on a store holding
`ABC=1` in both views gives `ABC=12` in the exported view and leaves `ABC=1` in
the lookup view, because `append_string` receives the exported view only (the
path for a new name updates both views). And `export AB+=2` on a store holding
`AB=1` in both views appends nothing and adds an entry named `AB+` to both
views, because `get_name` cuts the name at `+=` only when the index of the `+`
is greater than 2. -/
theorem export_append_not_in_lockstep :
    do_export ["export".toList, "ABC+=2".toList]
        { data := [{ var := "ABC".toList, value := some "1".toList }],
          env_list := [{ name := "ABC".toList, value := some "1".toList }] }
      = some ({ data := [{ var := "ABC".toList, value := some "12".toList }],
                env_list := [{ name := "ABC".toList, value := some "1".toList }] }, [])
    ∧ do_export ["export".toList, "AB+=2".toList]
        { data := [{ var := "AB".toList, value := some "1".toList }],
          env_list := [{ name := "AB".toList, value := some "1".toList }] }
      = some ({ data := [{ var := "AB".toList, value := some "1".toList },
                         { var := "AB+".toList, value := some "2".toList }],
                env_list := [{ name := "AB".toList, value := some "1".toList },
                             { name := "AB+".toList, value := some "2".toList }] }, []) := by
  decide

/-! ## Which names the built-ins can leave in the views -/

theorem forall_var_of_map_eq {P : CStr → Prop} {l l1 : List t_export}
    (hm : l1.map (fun e => e.var) = l.map (fun e => e.var)) (h : ∀ e ∈ l, P e.var) :
    ∀ e ∈ l1, P e.var := by
  intro e he
  have h1 : e.var ∈ l1.map (fun e => e.var) := List.mem_map.2 ⟨e, he, rfl⟩
  rw [hm] at h1
  obtain ⟨e0, he0, hv⟩ := List.mem_map.1 h1
  have := h e0 he0
  simpa [hv] using this

theorem forall_name_of_map_eq {P : CStr → Prop} {l l1 : List t_env_list}
    (hm : l1.map (fun e => e.name) = l.map (fun e => e.name)) (h : ∀ e ∈ l, P e.name) :
    ∀ e ∈ l1, P e.name := by
  intro e he
  have h1 : e.name ∈ l1.map (fun e => e.name) := List.mem_map.2 ⟨e, he, rfl⟩
  rw [hm] at h1
  obtain ⟨e0, he0, hv⟩ := List.mem_map.1 h1
  have := h e0 he0
  simpa [hv] using this

theorem edit_value_export_names (n v : CStr) (l l1 : List t_export)
    (h : edit_value_export n v l = some l1) :
    l1.map (fun e => e.var) = l.map (fun e => e.var) := by
  induction l generalizing l1 with
  | nil => simp [edit_value_export] at h
  | cons f rest ih =>
    unfold edit_value_export at h
    split at h
    · cases h; rfl
    · cases hr : edit_value_export n v rest with
      | none => rw [hr] at h; cases h
      | some r1 =>
        rw [hr] at h
        cases h
        simp [ih r1 hr]

theorem edit_value_env_names (n v : CStr) (l : List t_env_list) :
    (edit_value_env n v l).1.map (fun e => e.name) = l.map (fun e => e.name) := by
  induction l with
  | nil => rfl
  | cons f rest ih =>
    unfold edit_value_env
    simp only []
    split
    · rfl
    · simp [ih]

theorem edit_value_names (n v : CStr) (d : List t_export) (e : List t_env_list) :
    (edit_value n v d e).1.map (fun x => x.var) = d.map (fun x => x.var)
    ∧ (edit_value n v d e).2.1.map (fun x => x.name) = e.map (fun x => x.name) := by
  unfold edit_value
  cases hr : edit_value_export n v d with
  | none => exact ⟨rfl, edit_value_env_names n v e⟩
  | some d1 => exact ⟨edit_value_export_names n v d d1 hr, rfl⟩

theorem add_var_in_list_names (P : CStr → Prop) (st : Store) (s : CStr) (r : Store × Out)
    (h : add_var_in_list st s = some r)
    (hd : ∀ e ∈ st.data, P e.var) (he : ∀ e ∈ st.env_list, P e.name)
    (hnew1 : ∀ nm, get_name s = some nm → eqaul_last_only s = false → P nm)
    (hnew2 : ∀ nm, get_name s = some nm → eqaul_last_only s = true → P (nm ++ ['='])) :
    (∀ e ∈ r.1.data, P e.var) ∧ (∀ e ∈ r.1.env_list, P e.name) := by
  unfold add_var_in_list at h
  split at h
  · rename_i hc
    cases hnm : get_name s with
    | none => rw [hnm] at h; cases h
    | some nm =>
      cases hval : get_value s with
      | none => rw [hnm, hval] at h; cases h
      | some v =>
        rw [hnm, hval] at h
        simp only [] at h
        have hp := hnew1 nm hnm hc.2
        split at h
        · split at h
          · cases h
            exact ⟨forall_var_of_map_eq (append_string_names nm v st.data) hd, he⟩
          · cases h
            exact ⟨forall_var_of_map_eq (edit_value_names nm v st.data st.env_list).1 hd,
              forall_name_of_map_eq (edit_value_names nm v st.data st.env_list).2 he⟩
        · cases h
          constructor
          · intro e hmem
            rcases List.mem_append.1 hmem with h1 | h1
            · exact hd e h1
            · rw [List.mem_singleton.1 h1]; exact hp
          · intro e hmem
            rcases List.mem_append.1 hmem with h1 | h1
            · exact he e h1
            · rw [List.mem_singleton.1 h1]; exact hp
  · cases hnm : get_name s with
    | none => rw [hnm] at h; cases h
    | some nm =>
      rw [hnm] at h
      simp only [] at h
      split at h
      · rename_i hl
        have hp := hnew2 nm hnm hl
        cases h
        constructor
        · intro e hmem
          rcases List.mem_append.1 hmem with h1 | h1
          · exact hd e h1
          · rw [List.mem_singleton.1 h1]; exact hp
        · intro e hmem
          rcases List.mem_append.1 hmem with h1 | h1
          · exact he e h1
          · rw [List.mem_singleton.1 h1]; exact hp
      · rename_i hl
        have hp := hnew1 nm hnm (by simpa using hl)
        cases h
        constructor
        · intro e hmem
          rcases List.mem_append.1 hmem with h1 | h1
          · exact hd e h1
          · rw [List.mem_singleton.1 h1]; exact hp
        · exact he

theorem do_export_loop_names (P : CStr → Prop) (args : List CStr) (st : Store)
    (r : Store × Out) (h : do_export_loop args st = some r)
    (hd : ∀ e ∈ st.data, P e.var) (he : ∀ e ∈ st.env_list, P e.name)
    (hnew : ∀ s ∈ args, correct_name (get_name s) = true → isdigit (at0 s) = false →
      ∀ nm, get_name s = some nm →
        (eqaul_last_only s = false → P nm) ∧ (eqaul_last_only s = true → P (nm ++ ['=']))) :
    (∀ e ∈ r.1.data, P e.var) ∧ (∀ e ∈ r.1.env_list, P e.name) := by
  induction args generalizing st r with
  | nil =>
    simp [do_export_loop] at h
    subst h
    exact ⟨hd, he⟩
  | cons s rest ih =>
    have hrest : ∀ s1 ∈ rest, correct_name (get_name s1) = true → isdigit (at0 s1) = false →
        ∀ nm, get_name s1 = some nm →
          (eqaul_last_only s1 = false → P nm) ∧ (eqaul_last_only s1 = true → P (nm ++ ['='])) :=
      fun s1 hs1 => hnew s1 (List.mem_cons_of_mem s hs1)
    unfold do_export_loop at h
    split at h
    · rename_i hg
      cases hadd : add_var_in_list st s with
      | none => rw [hadd] at h; cases h
      | some r1 =>
        rw [hadd] at h
        simp only [] at h
        cases hl : do_export_loop rest r1.1 with
        | none => rw [hl] at h; cases h
        | some r2 =>
          rw [hl] at h
          cases h
          have hs := hnew s (List.mem_cons_self s rest) hg.1 hg.2
          have h1 := add_var_in_list_names P st s r1 hadd hd he
            (fun nm hnm => (hs nm hnm).1) (fun nm hnm => (hs nm hnm).2)
          exact ih r1.1 r2 hl h1.1 h1.2 hrest
    · cases hl : do_export_loop rest st with
      | none => rw [hl] at h; cases h
      | some r2 =>
        rw [hl] at h
        cases h
        exact ih st r2 hl hd he hrest

theorem do_export_names (P : CStr → Prop) (str : List CStr) (st : Store)
    (r : Store × Out) (h : do_export str st = some r)
    (hd : ∀ e ∈ st.data, P e.var) (he : ∀ e ∈ st.env_list, P e.name)
    (hnew : ∀ s ∈ str.drop 1, correct_name (get_name s) = true → isdigit (at0 s) = false →
      ∀ nm, get_name s = some nm →
        (eqaul_last_only s = false → P nm) ∧ (eqaul_last_only s = true → P (nm ++ ['=']))) :
    (∀ e ∈ r.1.data, P e.var) ∧ (∀ e ∈ r.1.env_list, P e.name) := by
  unfold do_export at h
  split at h
  · cases h
  · cases hl : do_export_loop (str.drop 1) st with
    | none => rw [hl] at h; cases h
    | some r1 =>
      rw [hl] at h
      cases h
      have h1 := do_export_loop_names P (str.drop 1) st r1 hl hd he hnew
      exact ⟨fun e hmem => h1.1 e (mem_sort.1 hmem), h1.2⟩

theorem removeNode_loop_subset (n : CStr) (l : List t_export) :
    ∀ e ∈ removeNode_loop n l, e ∈ l := by
  induction l with
  | nil => intro e he; cases he
  | cons f rest ih =>
    intro e he
    unfold removeNode_loop at he
    split at he
    · exact List.mem_cons_of_mem f (ih e he)
    · rcases List.mem_cons.1 he with h | h
      · rw [h]; exact List.mem_cons_self f rest
      · exact List.mem_cons_of_mem f (ih e h)

theorem removeNode_subset (n : CStr) (l : List t_export) :
    ∀ e ∈ removeNode l n, e ∈ l := by
  cases l with
  | nil => intro e he; cases he
  | cons f rest =>
    intro e he
    simp only [removeNode] at he
    split at he
    · exact List.mem_cons_of_mem f he
    · rcases List.mem_cons.1 he with h | h
      · rw [h]; exact List.mem_cons_self f rest
      · exact List.mem_cons_of_mem f (removeNode_loop_subset n rest e h)

theorem removeNode2_loop_subset (n : CStr) (l : List t_env_list) :
    ∀ e ∈ removeNode2_loop n l, e ∈ l := by
  induction l with
  | nil => intro e he; cases he
  | cons f rest ih =>
    intro e he
    unfold removeNode2_loop at he
    split at he
    · exact List.mem_cons_of_mem f (ih e he)
    · rcases List.mem_cons.1 he with h | h
      · rw [h]; exact List.mem_cons_self f rest
      · exact List.mem_cons_of_mem f (ih e h)

theorem removeNode2_subset (n : CStr) (l : List t_env_list) :
    ∀ e ∈ removeNode2 l n, e ∈ l := by
  cases l with
  | nil => intro e he; cases he
  | cons f rest =>
    intro e he
    simp only [removeNode2] at he
    split at he
    · exact List.mem_cons_of_mem f he
    · rcases List.mem_cons.1 he with h | h
      · rw [h]; exact List.mem_cons_self f rest
      · exact List.mem_cons_of_mem f (removeNode2_loop_subset n rest e h)

theorem do_unset_loop_subset (args : List CStr) (st : Store) :
    (∀ e ∈ (do_unset_loop args st).1.data, e ∈ st.data)
    ∧ (∀ e ∈ (do_unset_loop args st).1.env_list, e ∈ st.env_list) := by
  induction args generalizing st with
  | nil => exact ⟨fun e he => he, fun e he => he⟩
  | cons s rest ih =>
    unfold do_unset_loop
    split
    · have h1 := ih { data := removeNode st.data s, env_list := removeNode2 st.env_list s }
      exact ⟨fun e he => removeNode_subset s st.data e (h1.1 e he),
        fun e he => removeNode2_subset s st.env_list e (h1.2 e he)⟩
    · exact ih st

theorem get_name_scan_subset (i : Nat) (s : CStr) : ∀ c ∈ get_name_scan i s, c ∈ s := by
  induction s generalizing i with
  | nil => intro c hc; simp [get_name_scan] at hc
  | cons x s ih =>
    intro c hc
    unfold get_name_scan at hc
    split at hc
    · cases hc
    · split at hc
      · cases hc
      · rcases List.mem_cons.1 hc with h | h
        · rw [h]; exact List.mem_cons_self x s
        · exact List.mem_cons_of_mem x (ih (i + 1) c h)

theorem get_name_is_cstr {s nm : CStr} (hs : is_cstr s) (h : get_name s = some nm) :
    is_cstr nm ∧ is_cstr (nm ++ ['=']) := by
  unfold get_name at h
  split at h
  · cases h
  · cases h
    have h1 : is_cstr (get_name_scan 0 s) := fun c hc => hs c (get_name_scan_subset 0 s c hc)
    refine ⟨h1, ?_⟩
    intro c hc
    rcases List.mem_append.1 hc with h2 | h2
    · exact h1 c h2
    · rw [List.mem_singleton.1 h2]; decide

/-! ## `init_env`: the words of `ft_split`, and when the model is defined -/

theorem ft_split1_subset (c : Char) (acc : Option CStr) (s : CStr) :
    ∀ w ∈ ft_split1 c acc s, ∀ ch ∈ w, (∃ a, acc = some a ∧ ch ∈ a) ∨ ch ∈ s := by
  induction s generalizing acc with
  | nil =>
    intro w hw ch hch
    cases acc with
    | none => simp [ft_split1] at hw
    | some a =>
      simp [ft_split1] at hw
      subst hw
      exact Or.inl ⟨w, rfl, hch⟩
  | cons x s ih =>
    intro w hw ch hch
    cases acc with
    | none =>
      unfold ft_split1 at hw
      split at hw
      · rcases ih none w hw ch hch with ⟨a, ha, _⟩ | h
        · cases ha
        · exact Or.inr (List.mem_cons_of_mem x h)
      · rcases ih (some [x]) w hw ch hch with ⟨a, ha, hm⟩ | h
        · cases ha
          rw [List.mem_singleton.1 hm]
          exact Or.inr (List.mem_cons_self x s)
        · exact Or.inr (List.mem_cons_of_mem x h)
    | some a =>
      unfold ft_split1 at hw
      split at hw
      · rcases List.mem_cons.1 hw with h | h
        · subst h
          exact Or.inl ⟨w, rfl, hch⟩
        · rcases ih none w h ch hch with ⟨a1, ha1, _⟩ | h2
          · cases ha1
          · exact Or.inr (List.mem_cons_of_mem x h2)
      · rcases ih (some (a ++ [x])) w hw ch hch with ⟨a1, ha1, hm⟩ | h
        · cases ha1
          rcases List.mem_append.1 hm with h3 | h3
          · exact Or.inl ⟨a, rfl, h3⟩
          · rw [List.mem_singleton.1 h3]
            exact Or.inr (List.mem_cons_self x s)
        · exact Or.inr (List.mem_cons_of_mem x h)

theorem ft_split_is_cstr (s : CStr) (c : Char) (hs : is_cstr s) :
    ∀ w ∈ ft_split s c, is_cstr w := by
  intro w hw ch hch
  rcases ft_split1_subset c none s w hw ch hch with ⟨a, ha, _⟩ | h
  · cases ha
  · exact hs ch h

theorem ft_split1_some_ne_nil (c : Char) (a : CStr) (s : CStr) :
    ft_split1 c (some a) s ≠ [] := by
  induction s generalizing a with
  | nil => simp [ft_split1]
  | cons x s ih =>
    unfold ft_split1
    split
    · simp
    · exact ih (a ++ [x])

theorem ft_split_ne_nil (c : Char) (s : CStr) (h : ∃ x ∈ s, x ≠ c) : ft_split s c ≠ [] := by
  unfold ft_split
  induction s with
  | nil => obtain ⟨x, hx, _⟩ := h; cases hx
  | cons y s ih =>
    unfold ft_split1
    split
    · rename_i hy
      apply ih
      obtain ⟨x, hx, hne⟩ := h
      rcases List.mem_cons.1 hx with h1 | h1
      · exact absurd (h1.trans hy) hne
      · exact ⟨x, h1, hne⟩
    · exact ft_split1_some_ne_nil c [y] s

theorem init_env_loop_names (env : List CStr) (i : Nat) (st st1 : Store)
    (h : init_env_loop env i st = some st1)
    (hd : ∀ e ∈ st.data, is_cstr e.var) (henv : ∀ e ∈ env, is_cstr e) :
    ∀ e ∈ st1.data, is_cstr e.var := by
  induction env generalizing i st with
  | nil =>
    simp [init_env_loop] at h
    subst h
    exact hd
  | cons e rest ih =>
    unfold init_env_loop at h
    split at h
    · cases h
    · rename_i n vs hsplit
      have hn : is_cstr n :=
        ft_split_is_cstr e '=' (henv e (List.mem_cons_self e rest)) n (by rw [hsplit]; exact List.mem_cons_self n vs)
      split at h
      · cases h
      · rename_i r hadd
        refine ih r.1 _ h ?_ (fun e1 he1 => henv e1 (List.mem_cons_of_mem e he1))
        unfold addback_export1 at hadd
        split at hadd
        · cases hadd
          intro e1 he1
          rw [List.mem_singleton.1 he1]
          exact hn
        · split at hadd
          · cases hadd
          · cases hadd
            intro e1 he1
            rcases List.mem_append.1 he1 with h1 | h1
            · exact hd e1 h1
            · rw [List.mem_singleton.1 h1]
              exact hn

theorem init_env_loop_defined (env : List CStr) (i : Nat) (st : Store)
    (hi : i = 1 ∨ st.data ≠ []) (henv : ∀ e ∈ env, ∃ x ∈ e, x ≠ '=') :
    ∃ st1, init_env_loop env i st = some st1 := by
  induction env generalizing i st with
  | nil => exact ⟨st, rfl⟩
  | cons e rest ih =>
    unfold init_env_loop
    have hne := ft_split_ne_nil '=' e (henv e (List.mem_cons_self e rest))
    split
    · rename_i hsplit
      exact absurd hsplit hne
    · rename_i n vs hsplit
      have hrest : ∀ e1 ∈ rest, ∃ x ∈ e1, x ≠ '=' := fun e1 he1 => henv e1 (List.mem_cons_of_mem e he1)
      unfold addback_export1
      by_cases h1 : i = 1
      · simp only [h1, if_true]
        exact ih _ _ (Or.inr (by simp)) hrest
      · simp only [h1, if_false]
        cases hdata : st.data with
        | nil => rcases hi with h2 | h2
                 · exact absurd h2 h1
                 · exact absurd hdata h2
        | cons f fs =>
          simp only []
          exact ih _ _ (Or.inr (by simp)) hrest

/-! ## `do_export` is defined whenever it has an argument -/

theorem get_value_defined (s : CStr) (h : check_if_equal_is s = true) :
    ∃ v, get_value s = some v := by
  induction s with
  | nil => simp [check_if_equal_is] at h
  | cons c s ih =>
    unfold get_value
    by_cases hc : c = '='
    · exact ⟨s, by simp [hc]⟩
    · unfold check_if_equal_is at h
      simp only [hc, false_and, if_false] at h
      simpa [hc] using ih h

theorem add_var_in_list_defined (st : Store) (s : CStr)
    (hg : correct_name (get_name s) = true) : ∃ r, add_var_in_list st s = some r := by
  cases hnm : get_name s with
  | none => rw [hnm] at hg; cases hg
  | some nm =>
    unfold add_var_in_list
    rw [hnm]
    split
    · rename_i hc
      obtain ⟨v, hv⟩ := get_value_defined s hc.1
      rw [hv]
      simp only []
      split
      · split
        · exact ⟨_, rfl⟩
        · exact ⟨_, rfl⟩
      · exact ⟨_, rfl⟩
    · simp only []
      split
      · exact ⟨_, rfl⟩
      · exact ⟨_, rfl⟩

theorem do_export_loop_defined (args : List CStr) (st : Store) :
    ∃ r, do_export_loop args st = some r := by
  induction args generalizing st with
  | nil => exact ⟨_, rfl⟩
  | cons s rest ih =>
    unfold do_export_loop
    split
    · rename_i hg
      obtain ⟨r1, h1⟩ := add_var_in_list_defined st s hg.1
      obtain ⟨r2, h2⟩ := ih r1.1
      rw [h1]
      simp only []
      rw [h2]
      exact ⟨_, rfl⟩
    · obtain ⟨r2, h2⟩ := ih st
      rw [h2]
      exact ⟨_, rfl⟩

theorem export_print_defined (l : List t_export) (h : ∀ e ∈ l, e.value ≠ none) :
    ∃ o, export_print l = some o := by
  induction l with
  | nil => exact ⟨_, rfl⟩
  | cons f rest ih =>
    obtain ⟨o, ho⟩ := ih (fun e he => h e (List.mem_cons_of_mem f he))
    cases hv : f.value with
    | none => exact absurd hv (h f (List.mem_cons_self f rest))
    | some v =>
      unfold export_print
      rw [hv, ho]
      simp only []
      split
      · split
        · exact ⟨_, rfl⟩
        · exact ⟨_, rfl⟩
      · exact ⟨_, rfl⟩

theorem do_export_defined (str : List CStr) (st : Store)
    (h : str.drop 1 ≠ [] ∨ ∀ e ∈ st.data, e.value ≠ none) :
    ∃ r, do_export str st = some r := by
  obtain ⟨r1, h1⟩ := do_export_loop_defined (str.drop 1) st
  unfold do_export
  by_cases hs : str.drop 1 = []
  · rcases h with h | h
    · exact absurd hs h
    · obtain ⟨o, ho⟩ := export_print_defined st.data h
      rw [if_pos hs, ho]
      simp only []
      rw [h1]
      exact ⟨_, rfl⟩
  · rw [if_neg hs, h1]
    exact ⟨_, rfl⟩

/-- C3. Whenever all names and arguments are C strings, the exported view that
`do_export` leaves is sorted in non-decreasing byte order of the names, whatever
the store (sorted or not) and the argument vector, and `do_export` does return
when it has at least one argument or no value of the exported view is `NULL`;
the exported view that `init_env` builds from
an environment of C strings is sorted too, and `init_env` does return when every
entry has a byte other than `=`. -/
theorem exported_view_sorted :
    (∀ (str : List CStr) (st : Store), names_are_cstr st → (∀ a ∈ str, is_cstr a) →
        (∀ r, do_export str st = some r → sorted_by_name r.1.data)
        ∧ ((str.drop 1 ≠ [] ∨ ∀ e ∈ st.data, e.value ≠ none) → ∃ r, do_export str st = some r))
    ∧ (∀ (envp : List CStr) (st0 : Store), (∀ e ∈ st0.data, is_cstr e.var) →
        (∀ e ∈ envp, is_cstr e) →
        (∀ st1, init_env st0 envp = some st1 → sorted_by_name st1.data)
        ∧ ((∀ e ∈ envp, ∃ x ∈ e, x ≠ '=') → ∃ st1, init_env st0 envp = some st1)) := by
  constructor
  · intro str st hwf hstr
    refine ⟨?_, do_export_defined str st⟩
    intro r h
    have hn := do_export_names is_cstr str st r h hwf.1 hwf.2
      (fun s hs _ _ nm hnm =>
        ⟨fun _ => (get_name_is_cstr (hstr s (List.mem_of_mem_drop hs)) hnm).1,
         fun _ => (get_name_is_cstr (hstr s (List.mem_of_mem_drop hs)) hnm).2⟩)
    unfold do_export at h
    split at h
    · cases h
    · cases hl : do_export_loop (str.drop 1) st with
      | none => rw [hl] at h; cases h
      | some r1 =>
        rw [hl] at h
        cases h
        apply sort_sorted
        intro e he
        exact hn.1 e (mem_sort.2 he)
  · intro envp st0 hwf henv
    constructor
    · intro st1 h
      unfold init_env at h
      cases hl : init_env_loop envp 1 st0 with
      | none => rw [hl] at h; cases h
      | some s1 =>
        rw [hl] at h
        cases h
        exact sort_sorted s1.data (init_env_loop_names envp 1 st0 s1 hl hwf henv)
    · intro hne
      obtain ⟨s1, h1⟩ := init_env_loop_defined envp 1 st0 (Or.inl rfl) hne
      unfold init_env
      rw [h1]
      exact ⟨_, rfl⟩

theorem exported_view_sorted_witness :
    sorted_by_name
        [{ var := "A".toList, value := some "2".toList }, { var := "B".toList, value := some [] },
         { var := "M".toList, value := some "0".toList }, { var := "Z".toList, value := some "1".toList }]
    ∧ sorted_by_name
        [{ var := "HOME".toList, value := some "/root".toList },
         { var := "PATH".toList, value := some "/bin".toList }] :=
  ⟨(exported_view_sorted.1 ["export".toList, "B".toList, "A=2".toList]
      { data := [{ var := "Z".toList, value := some "1".toList },
                 { var := "M".toList, value := some "0".toList }],
        env_list := [{ name := "Z".toList, value := some "1".toList }] }
      (by decide) (by decide)).1
      ({ data := [{ var := "A".toList, value := some "2".toList },
                  { var := "B".toList, value := some [] },
                  { var := "M".toList, value := some "0".toList },
                  { var := "Z".toList, value := some "1".toList }],
         env_list := [{ name := "Z".toList, value := some "1".toList },
                      { name := "A".toList, value := some "2".toList }] }, []) (by decide),
   (exported_view_sorted.2 ["PATH=/bin".toList, "HOME=/root".toList]
      { data := [], env_list := [] } (by decide) (by decide)).1
      { data := [{ var := "HOME".toList, value := some "/root".toList },
                 { var := "PATH".toList, value := some "/bin".toList }],
        env_list := [{ name := "PATH".toList, value := some "/bin".toList },
                     { name := "HOME".toList, value := some "/root".toList }] } (by decide)⟩

/-! ## The name invariant -/

theorem correct_name_loop_shape (i : Nat) (n : CStr) (h : correct_name_loop i n = true) :
    n.all ft_isalnum = true ∨ (n.getLast? = some '+' ∧ n.dropLast.all ft_isalnum = true) := by
  induction n generalizing i with
  | nil => exact Or.inl rfl
  | cons c s ih =>
    unfold correct_name_loop at h
    split at h
    · split at h
      · rename_i hc
        obtain ⟨hc1, hc2, _⟩ := hc
        subst hc1 hc2
        exact Or.inr ⟨rfl, rfl⟩
      · cases h
    · rename_i hal
      have hal2 : ft_isalnum c = true := by simpa using hal
      rcases ih (i + 1) h with h1 | ⟨h1, h2⟩
      · exact Or.inl (by simp [List.all_cons, hal2, h1])
      · cases s with
        | nil => simp at h1
        | cons d s =>
          refine Or.inr ⟨by simpa [List.getLast?_cons_cons] using h1, ?_⟩
          simp only [List.dropLast_cons₂, List.all_cons, hal2, Bool.true_and]
          exact h2

theorem name_ok_of_accepted (s nm : CStr) (hs : s ≠ []) (hnm : get_name s = some nm)
    (hc : correct_name (get_name s) = true) (hdig : isdigit (at0 s) = false) : name_ok nm := by
  cases s with
  | nil => exact absurd rfl hs
  | cons c rest =>
    rw [hnm] at hc
    unfold get_name at hnm
    split at hnm
    · cases hnm
    · rename_i hne
      have hce : c ≠ '=' := by simpa using hne
      cases hnm
      have hscan : get_name_scan 0 (c :: rest) = c :: get_name_scan 1 rest := by
        simp [get_name_scan, hce]
      rw [hscan] at hc ⊢
      exact ⟨by simp, hdig, correct_name_loop_shape 0 _ hc⟩

/-- C10 (as amended). If every name of both views is non-empty, does not begin
with a digit and consists of ASCII alphanumerics optionally followed by one final
`+`, then the same holds after `do_unset` with any argument vector, and after
`do_export` with any argument vector none of whose arguments is empty or has its
first `=` as its last byte (`do_export` does return when it has an argument or
no value of the exported view is `NULL`). -/
theorem name_invariant_preserved (str : List CStr) (st : Store) (hinv : names_ok st) :
    (∀ r, (∀ a ∈ str.drop 1, a ≠ [] ∧ eqaul_last_only a = false) →
        do_export str st = some r → names_ok r.1)
    ∧ ((str.drop 1 ≠ [] ∨ ∀ e ∈ st.data, e.value ≠ none) → ∃ r, do_export str st = some r)
    ∧ names_ok (do_unset str st).1 := by
  refine ⟨?_, do_export_defined str st, ?_⟩
  · intro r hargs h
    exact do_export_names name_ok str st r h hinv.1 hinv.2
      (fun s hs hc hdig nm hnm =>
        ⟨fun _ => name_ok_of_accepted s nm (hargs s hs).1 hnm hc hdig,
         fun hl => by rw [(hargs s hs).2] at hl; cases hl⟩)
  · have h := do_unset_loop_subset (str.drop 1) st
    exact ⟨fun e he => hinv.1 e (h.1 e he), fun e he => hinv.2 e (h.2 e he)⟩

theorem name_invariant_preserved_witness :
    names_ok
        { data := [{ var := "A".toList, value := some "1".toList },
                   { var := "B+".toList, value := some [] },
                   { var := "C".toList, value := some "3".toList }],
          env_list := [{ name := "A".toList, value := some "1".toList },
                       { name := "C".toList, value := some "3".toList }] }
    ∧ names_ok
        (do_unset ["unset".toList, "A".toList]
          { data := [{ var := "A".toList, value := some "1".toList }],
            env_list := [{ name := "A".toList, value := some "1".toList }] }).1 :=
  ⟨(name_invariant_preserved ["export".toList, "C=3".toList, "B+".toList, "1x".toList]
      { data := [{ var := "A".toList, value := some "1".toList }],
        env_list := [{ name := "A".toList, value := some "1".toList }] } (by decide)).1
      ({ data := [{ var := "A".toList, value := some "1".toList },
                  { var := "B+".toList, value := some [] },
                  { var := "C".toList, value := some "3".toList }],
         env_list := [{ name := "A".toList, value := some "1".toList },
                      { name := "C".toList, value := some "3".toList }] },
       "error : 1x not identifier\n".toList) (by decide) (by decide),
   (name_invariant_preserved ["unset".toList, "A".toList]
      { data := [{ var := "A".toList, value := some "1".toList }],
        env_list := [{ name := "A".toList, value := some "1".toList }] } (by decide)).2.2⟩

/-- C10 (counterexample). On the empty store, whose names trivially satisfy the
invariant, `export X=` leaves the name `X=` in both views, and `=` is not
alphanumeric. -/
theorem name_invariant_broken_by_empty_value :
    names_ok { data := [], env_list := [] }
    ∧ ∃ r, do_export ["export".toList, "X=".toList] { data := [], env_list := [] } = some r
        ∧ ¬ names_ok r.1 :=
  ⟨by decide,
   ({ data := [{ var := "X=".toList, value := some [] }],
      env_list := [{ name := "X=".toList, value := some [] }] }, []), by decide, by decide⟩

/-! ## `echo` -/

theorem echo_print_eq_join (l : List CStr) : echo_print l = join_with_spaces l := by
  induction l with
  | nil => rfl
  | cons a rest ih =>
    cases rest with
    | nil => simp [echo_print, join_with_spaces, List.intercalate]
    | cons b rest =>
      rw [echo_print, ih]
      simp [join_with_spaces, List.intercalate]

theorem echo_print_append (l1 l2 : List CStr) (h : l2 ≠ []) :
    echo_print (l1 ++ l2) = (l1.map (fun a => a ++ [' '])).flatten ++ echo_print l2 := by
  induction l1 with
  | nil => simp
  | cons a rest ih =>
    have hne : rest ++ l2 ≠ [] := by simp [h]
    rw [List.cons_append, echo_print, if_pos hne, ih]
    simp

theorem is_n_loop_stops (ns : CStr) (c : Char) (rest : CStr) (hns : ∀ d ∈ ns, d = 'n')
    (hc1 : c ≠ 'n') (hc2 : c ≠ ' ') : is_n_loop (ns ++ c :: rest) = false := by
  induction ns with
  | nil => simp [is_n_loop, hc1, hc2]
  | cons d ns ih =>
    have hd : d = 'n' := hns d (List.mem_cons_self d ns)
    subst hd
    have h := ih (fun e he => hns e (List.mem_cons_of_mem _ he))
    have h2 : is_n_loop ('n' :: (ns ++ c :: rest)) = is_n_loop (ns ++ c :: rest) := by
      simp [is_n_loop]
    rw [List.cons_append, h2, h]

theorem echo_flags_keeps (pre : List CStr) (a : CStr) (post : List CStr) (f : Bool) (i : Nat)
    (ha : is_n (some a) = false) :
    ∃ lead, (echo_flags (pre ++ a :: post) f i).2.2 = lead ++ a :: post := by
  induction pre generalizing f i with
  | nil => exact ⟨[], by simp [echo_flags, ha]⟩
  | cons b pre ih =>
    simp only [List.cons_append, echo_flags]
    split
    · split
      · exact ⟨b :: pre, rfl⟩
      · exact ih true (i + 1)
    · exact ⟨b :: pre, rfl⟩

theorem ft_echo_cons (cmd : CStr) (l : List CStr) (h : l ≠ []) :
    ft_echo (cmd :: l) = echo_print (echo_flags l false 1).2.2
      ++ (if (if (echo_flags l false 1).2.1 > 2 then true else (echo_flags l false 1).1) = false
          then ['\n'] else []) := by
  cases l with
  | nil => exact absurd rfl h
  | cons a rest => rfl

/-- C11 (the code departs from the claim). `echo n`: the argument `n` is not a
flag (no `-`), so the specification asks for `n` and a newline; `ft_echo` prints
`n` without the newline, because its loop sets `f = 1` for every argument that
`is_n` accepts before `if_more_n` rejects it. Likewise `echo - x` drops the
argument `-` as if it were a flag. -/
theorem ft_echo_bare_n_loses_newline :
    ft_echo ["echo".toList, "n".toList] = "n".toList
    ∧ echo_spec ["n".toList] = "n\n".toList
    ∧ ft_echo ["echo".toList, "-".toList, "x".toList] = "x".toList
    ∧ echo_spec ["-".toList, "x".toList] = "- x\n".toList := by
  decide

/-- C12. An argument made of `-`, one or more `n`, and then a byte that is
neither `n` nor a space is never taken for a flag by `ft_echo` (`is_n` is 0 on
it): wherever it stands, the output contains it and all arguments after it joined
by single spaces, followed by nothing or by a newline only; and when it is the
first argument the output is exactly that text and a newline. -/
theorem ft_echo_prints_non_flag (cmd : CStr) (pre post : List CStr) (ns : CStr) (c : Char)
    (rest : CStr) (_hne : ns ≠ []) (hns : ∀ d ∈ ns, d = 'n') (hc1 : c ≠ 'n') (hc2 : c ≠ ' ') :
    is_n (some ('-' :: ns ++ c :: rest)) = false
    ∧ (∃ lead tail, ft_echo (cmd :: pre ++ ('-' :: ns ++ c :: rest) :: post)
          = lead ++ join_with_spaces (('-' :: ns ++ c :: rest) :: post) ++ tail
        ∧ (tail = [] ∨ tail = ['\n']))
    ∧ ft_echo (cmd :: ('-' :: ns ++ c :: rest) :: post)
        = join_with_spaces (('-' :: ns ++ c :: rest) :: post) ++ ['\n'] := by
  have ha : is_n (some ('-' :: ns ++ c :: rest)) = false := by
    simp only [List.cons_append, is_n, if_true]
    exact is_n_loop_stops ns c rest hns hc1 hc2
  refine ⟨ha, ?_, ?_⟩
  · obtain ⟨lead, hl⟩ := echo_flags_keeps pre _ post false 1 ha
    have hcons : cmd :: pre ++ ('-' :: ns ++ c :: rest) :: post
        = cmd :: (pre ++ ('-' :: ns ++ c :: rest) :: post) := rfl
    rw [hcons, ft_echo_cons cmd _ (by simp), hl, echo_print_append lead _ (by simp),
      echo_print_eq_join]
    refine ⟨_, _, rfl, ?_⟩
    split <;> simp
  · have ha2 : is_n (some ('-' :: (ns ++ c :: rest))) = false := ha
    rw [ft_echo_cons cmd _ (by simp)]
    simp [echo_flags, ha2, echo_print_eq_join]

theorem ft_echo_prints_non_flag_witness :
    is_n (some "-nm".toList) = false
    ∧ (∃ lead tail, ft_echo ["echo".toList, "-n".toList, "-nm".toList, "x".toList]
          = lead ++ join_with_spaces ["-nm".toList, "x".toList] ++ tail
        ∧ (tail = [] ∨ tail = ['\n']))
    ∧ ft_echo ["echo".toList, "-nm".toList, "x".toList]
        = join_with_spaces ["-nm".toList, "x".toList] ++ ['\n'] :=
  ft_echo_prints_non_flag "echo".toList ["-n".toList] ["x".toList] ['n'] 'm' []
    (by decide) (by decide) (by decide) (by decide)

/-! ## `last_outfile`, `last_infile` -/

theorem is_last_iff (l : List t_redirections) : is_last l = true ↔ ∀ x ∈ l, ¬ is_out x := by
  induction l with
  | nil => simp [is_last]
  | cons c rest ih =>
    unfold is_last
    by_cases hc : is_out c
    · simp [hc]
    · simp [hc, ih]

theorem is_last_infile_iff (l : List t_redirections) :
    is_last_infile l = true ↔ ∀ x ∈ l, ¬ is_in x := by
  induction l with
  | nil => simp [is_last_infile]
  | cons c rest ih =>
    unfold is_last_infile
    by_cases hc : is_in c
    · simp [hc]
    · simp [hc, ih]

theorem last_outfile_loop_none (mk : CStr → Bool) (l : List t_redirections) (fs : Files) :
    (last_outfile_loop mk l fs).1 = none ↔ ∀ r ∈ l, ¬ is_out r := by
  induction l generalizing fs with
  | nil => simp [last_outfile_loop]
  | cons c rest ih =>
    unfold last_outfile_loop
    by_cases hc : is_out c
    · by_cases hl : is_last rest = true
      · simp [hc, hl]
      · have hex : ∃ x ∈ rest, is_out x := by
          by_contra hno
          exact hl ((is_last_iff rest).2 (fun x hx hox => hno ⟨x, hx, hox⟩))
        obtain ⟨x, hx, hox⟩ := hex
        have hl2 : is_last rest = false := by simpa using hl
        simp only [hc, hl2, if_true]
        constructor
        · intro h; exact absurd hox ((ih _).1 (by simpa using h) x hx)
        · intro h; exact absurd hc (h c (List.mem_cons_self c rest))
    · simp [hc, ih]

theorem last_outfile_loop_some (mk : CStr → Bool) (l : List t_redirections) (fs : Files)
    (r : t_redirections) (h : (last_outfile_loop mk l fs).1 = some r) :
    ∃ pre post, l = pre ++ r :: post ∧ is_out r ∧ ∀ x ∈ post, ¬ is_out x := by
  induction l generalizing fs with
  | nil => simp [last_outfile_loop] at h
  | cons c rest ih =>
    unfold last_outfile_loop at h
    by_cases hc : is_out c
    · by_cases hl : is_last rest = true
      · simp only [hc, hl, if_true] at h
        cases h
        exact ⟨[], rest, rfl, hc, (is_last_iff rest).1 hl⟩
      · have hl2 : is_last rest = false := by simpa using hl
        simp only [hc, hl2, if_true] at h
        obtain ⟨pre, post, h1, h2, h3⟩ := ih _ (by simpa using h)
        exact ⟨c :: pre, post, by rw [h1]; rfl, h2, h3⟩
    · simp only [hc, if_false] at h
      obtain ⟨pre, post, h1, h2, h3⟩ := ih _ h
      exact ⟨c :: pre, post, by rw [h1]; rfl, h2, h3⟩

/-- C19. For every command node, `last_outfile` returns `NULL` exactly when the
node has no redirection of kind `RIGHTRED` or `APPEND`, and otherwise returns a
redirection of one of those kinds after which the list holds no other of those
kinds: the last output redirection. -/
theorem last_outfile_returns_last_output (mk : CStr → Bool) (cmd_line : t_cmd_line)
    (fs : Files) :
    ((last_outfile mk cmd_line fs).1 = none ↔ ∀ r ∈ cmd_line.redirections, ¬ is_out r)
    ∧ ∀ r, (last_outfile mk cmd_line fs).1 = some r →
        ∃ pre post, cmd_line.redirections = pre ++ r :: post ∧ is_out r ∧
          ∀ x ∈ post, ¬ is_out x :=
  ⟨last_outfile_loop_none mk cmd_line.redirections fs,
   fun r h => last_outfile_loop_some mk cmd_line.redirections fs r h⟩

theorem not_in_of_out {c : t_redirections} (h : is_out c) : ¬ is_in c := by
  intro hi
  rcases h with h | h <;> rcases hi with hi | hi <;> rw [h] at hi <;> cases hi

theorem not_leftred_of_out {c : t_redirections} (h : is_out c) : c.type ≠ TokType.LEFTRED :=
  fun hl => not_in_of_out h (Or.inl hl)

theorem mem_open_creat_of_mem {mk : CStr → Bool} {fs : Files} {f g : CStr} (h : g ∈ fs) :
    g ∈ open_creat mk fs f := by
  unfold open_creat
  split
  · exact h
  · split
    · exact List.mem_cons_of_mem f h
    · exact h

theorem mem_open_creat_iff (mk : CStr → Bool) (fs : Files) (f g : CStr) :
    g ∈ open_creat mk fs f ↔ g ∈ fs ∨ (g = f ∧ mk f = true) := by
  unfold open_creat
  by_cases h1 : f ∈ fs
  · simp only [h1, if_true]
    constructor
    · exact fun h => Or.inl h
    · rintro (h | ⟨h, _⟩)
      · exact h
      · rw [h]; exact h1
  · by_cases h2 : mk f = true
    · simp [h1, h2]
      tauto
    · simp [h1, h2]

theorem unopenable_cons_out (mk : CStr → Bool) (fs : Files) (c : t_redirections)
    (rest : List t_redirections) (hc : is_out c) :
    unopenable mk fs (c :: rest) ↔ unopenable mk (open_creat mk fs c.file) rest := by
  constructor
  · rintro ⟨pre, r, post, hl, hr, hfs, hmk⟩
    cases pre with
    | nil =>
      simp only [List.nil_append, List.cons.injEq] at hl
      rw [← hl.1] at hr
      exact absurd hr (not_leftred_of_out hc)
    | cons p pre =>
      simp only [List.cons_append, List.cons.injEq] at hl
      refine ⟨pre, r, post, hl.2, hr, ?_, ?_⟩
      · intro hmem
        rcases (mem_open_creat_iff mk fs c.file r.file).1 hmem with h | ⟨h1, h2⟩
        · exact hfs h
        · exact hmk ⟨by rw [h1]; exact h2, p, List.mem_cons_self p pre,
            by rw [← hl.1]; exact hc, by rw [← hl.1]; exact h1.symm⟩
      · rintro ⟨h1, o, ho, ho2, ho3⟩
        exact hmk ⟨h1, o, List.mem_cons_of_mem p ho, ho2, ho3⟩
  · rintro ⟨pre, r, post, hl, hr, hfs, hmk⟩
    refine ⟨c :: pre, r, post, by rw [hl]; rfl, hr, ?_, ?_⟩
    · exact fun h => hfs (mem_open_creat_of_mem h)
    · rintro ⟨h1, o, ho, ho2, ho3⟩
      rcases List.mem_cons.1 ho with h | h
      · subst h
        exact hfs ((mem_open_creat_iff mk fs o.file r.file).2
          (Or.inr ⟨ho3.symm, by rw [ho3]; exact h1⟩))
      · exact hmk ⟨h1, o, h, ho2, ho3⟩

theorem unopenable_cons_other (mk : CStr → Bool) (fs : Files) (c : t_redirections)
    (rest : List t_redirections) (hc : ¬ is_out c)
    (hok : ¬ (c.type = TokType.LEFTRED ∧ c.file ∉ fs)) :
    unopenable mk fs (c :: rest) ↔ unopenable mk fs rest := by
  constructor
  · rintro ⟨pre, r, post, hl, hr, hfs, hmk⟩
    cases pre with
    | nil =>
      simp only [List.nil_append, List.cons.injEq] at hl
      rw [← hl.1] at hr hfs
      exact absurd ⟨hr, hfs⟩ hok
    | cons p pre =>
      simp only [List.cons_append, List.cons.injEq] at hl
      refine ⟨pre, r, post, hl.2, hr, hfs, ?_⟩
      rintro ⟨h1, o, ho, ho2, ho3⟩
      exact hmk ⟨h1, o, List.mem_cons_of_mem p ho, ho2, ho3⟩
  · rintro ⟨pre, r, post, hl, hr, hfs, hmk⟩
    refine ⟨c :: pre, r, post, by rw [hl]; rfl, hr, hfs, ?_⟩
    rintro ⟨h1, o, ho, ho2, ho3⟩
    rcases List.mem_cons.1 ho with h | h
    · subst h
      exact hc ho2
    · exact hmk ⟨h1, o, h, ho2, ho3⟩

theorem not_unopenable_of_no_in (mk : CStr → Bool) (fs : Files) (l : List t_redirections)
    (h : ∀ x ∈ l, ¬ is_in x) : ¬ unopenable mk fs l := by
  rintro ⟨pre, r, post, hl, hr, _, _⟩
  exact h r (by rw [hl]; simp) (Or.inl hr)

theorem last_infile_loop_spec (mk : CStr → Bool) (l : List t_redirections) (fs : Files)
    (nf : Int) (hnf : nf ≠ 0) :
    (((last_infile_loop mk l fs nf).1 = none ∧ (last_infile_loop mk l fs nf).2.1 = 0)
        ↔ unopenable mk fs l)
    ∧ (¬ unopenable mk fs l →
        (last_infile_loop mk l fs nf).2.1 = nf
        ∧ ((last_infile_loop mk l fs nf).1 = none ↔ ∀ r ∈ l, ¬ is_in r)
        ∧ ∀ r, (last_infile_loop mk l fs nf).1 = some r →
            ∃ pre post, l = pre ++ r :: post ∧ is_in r ∧ ∀ x ∈ post, ¬ is_in x) := by
  induction l generalizing fs with
  | nil =>
    refine ⟨⟨fun h => absurd h.2 hnf, ?_⟩, fun _ => ⟨rfl, by simp [last_infile_loop], ?_⟩⟩
    · rintro ⟨pre, r, post, hl, _⟩
      simp at hl
    · intro r h
      simp [last_infile_loop] at h
  | cons c rest ih =>
    by_cases hc : is_out c
    · have hci := not_in_of_out hc
      have hres : last_infile_loop mk (c :: rest) fs nf
          = last_infile_loop mk rest (open_creat mk fs c.file) nf := by
        simp [last_infile_loop, hc]
      rw [hres]
      obtain ⟨ih1, ih2⟩ := ih (open_creat mk fs c.file)
      rw [unopenable_cons_out mk fs c rest hc]
      refine ⟨ih1, fun hno => ?_⟩
      obtain ⟨h1, h2, h3⟩ := ih2 hno
      refine ⟨h1, ?_, ?_⟩
      · rw [h2]
        simp [hci]
      · intro r hr
        obtain ⟨pre, post, e1, e2, e3⟩ := h3 r hr
        exact ⟨c :: pre, post, by rw [e1]; rfl, e2, e3⟩
    · by_cases hi : is_in c
      · by_cases hbad : c.type = TokType.LEFTRED ∧ c.file ∉ fs
        · have hun : unopenable mk fs (c :: rest) :=
            ⟨[], c, rest, rfl, hbad.1, hbad.2, by simp⟩
          have hres : last_infile_loop mk (c :: rest) fs nf
              = (none, 0, no_such_file c.file, fs) := by
            simp [last_infile_loop, hc, hi, hbad]
          rw [hres]
          exact ⟨⟨fun _ => hun, fun _ => ⟨rfl, rfl⟩⟩, fun h => absurd hun h⟩
        · rw [unopenable_cons_other mk fs c rest hc hbad]
          by_cases hl : is_last_infile rest = true
          · have hrest := (is_last_infile_iff rest).1 hl
            have hno := not_unopenable_of_no_in mk fs rest hrest
            have hres : last_infile_loop mk (c :: rest) fs nf = (some c, nf, [], fs) := by
              rw [last_infile_loop, if_neg hc, if_pos hi, if_neg hbad, if_pos hl]
            rw [hres]
            refine ⟨⟨fun h => Option.noConfusion h.1, fun h => absurd h hno⟩, fun _ => ⟨rfl, ?_, ?_⟩⟩
            · constructor
              · intro h; cases h
              · intro h; exact absurd hi (h c (List.mem_cons_self c rest))
            · intro r hr
              cases hr
              exact ⟨[], rest, rfl, hi, hrest⟩
          · have hres : last_infile_loop mk (c :: rest) fs nf
                = last_infile_loop mk rest fs nf := by
              rw [last_infile_loop, if_neg hc, if_pos hi, if_neg hbad, if_neg hl]
            rw [hres]
            obtain ⟨ih1, ih2⟩ := ih fs
            refine ⟨ih1, fun hno => ?_⟩
            obtain ⟨h1, h2, h3⟩ := ih2 hno
            refine ⟨h1, ?_, ?_⟩
            · constructor
              · intro h
                exact absurd ((is_last_infile_iff rest).2 (h2.1 h)) hl
              · intro h; exact absurd hi (h c (List.mem_cons_self c rest))
            · intro r hr
              obtain ⟨pre, post, e1, e2, e3⟩ := h3 r hr
              exact ⟨c :: pre, post, by rw [e1]; rfl, e2, e3⟩
      · have hbad : ¬ (c.type = TokType.LEFTRED ∧ c.file ∉ fs) := fun h => hi (Or.inl h.1)
        have hres : last_infile_loop mk (c :: rest) fs nf = last_infile_loop mk rest fs nf := by
          rw [last_infile_loop, if_neg hc, if_neg hi]
        rw [hres, unopenable_cons_other mk fs c rest hc hbad]
        obtain ⟨ih1, ih2⟩ := ih fs
        refine ⟨ih1, fun hno => ?_⟩
        obtain ⟨h1, h2, h3⟩ := ih2 hno
        refine ⟨h1, ?_, ?_⟩
        · rw [h2]
          simp [hi]
        · intro r hr
          obtain ⟨pre, post, e1, e2, e3⟩ := h3 r hr
          exact ⟨c :: pre, post, by rw [e1]; rfl, e2, e3⟩

/-- C20 (as amended). With `*no_file` non-zero at the call, `last_infile` reports
failure (returns `NULL` and sets `*no_file` to 0) exactly when some `LEFTRED`
target cannot be opened at the moment the scan reaches it: it is not readable
beforehand and no earlier `RIGHTRED` or `APPEND` entry of the list has created it
(`last_infile` opens those with `O_CREAT` on its way). Otherwise `*no_file` is
left untouched and the result is the last redirection of kind `LEFTRED` or
`HEREDOC`, or `NULL` when the list has none. -/
theorem last_infile_fails_iff_unopenable (mk : CStr → Bool) (cmd_line : t_cmd_line)
    (nf : Int) (fs : Files) (hnf : nf ≠ 0) :
    (((last_infile mk cmd_line nf fs).1 = none ∧ (last_infile mk cmd_line nf fs).2.1 = 0)
        ↔ unopenable mk fs cmd_line.redirections)
    ∧ (¬ unopenable mk fs cmd_line.redirections →
        (last_infile mk cmd_line nf fs).2.1 = nf
        ∧ ((last_infile mk cmd_line nf fs).1 = none ↔ ∀ r ∈ cmd_line.redirections, ¬ is_in r)
        ∧ ∀ r, (last_infile mk cmd_line nf fs).1 = some r →
            ∃ pre post, cmd_line.redirections = pre ++ r :: post ∧ is_in r ∧
              ∀ x ∈ post, ¬ is_in x) :=
  last_infile_loop_spec mk cmd_line.redirections fs nf hnf

theorem last_infile_fails_iff_unopenable_witness :
    (((last_infile (fun _ => true)
          { str := [Slot.str "cat".toList, Slot.null], alloc := 2,
            redirections := [{ type := TokType.LEFTRED, file := "a".toList },
                             { type := TokType.HEREDOC, file := "EOF".toList }],
            separator := t_sep.e_nline } 1 ["a".toList]).1 = none
        ∧ (last_infile (fun _ => true)
          { str := [Slot.str "cat".toList, Slot.null], alloc := 2,
            redirections := [{ type := TokType.LEFTRED, file := "a".toList },
                             { type := TokType.HEREDOC, file := "EOF".toList }],
            separator := t_sep.e_nline } 1 ["a".toList]).2.1 = 0)
      ↔ unopenable (fun _ => true) ["a".toList]
          [{ type := TokType.LEFTRED, file := "a".toList },
           { type := TokType.HEREDOC, file := "EOF".toList }])
    ∧ last_infile (fun _ => true)
          { str := [Slot.str "cat".toList, Slot.null], alloc := 2,
            redirections := [{ type := TokType.LEFTRED, file := "a".toList },
                             { type := TokType.HEREDOC, file := "EOF".toList }],
            separator := t_sep.e_nline } 1 ["a".toList]
        = (some { type := TokType.HEREDOC, file := "EOF".toList }, 1, [], ["a".toList]) :=
  ⟨(last_infile_fails_iff_unopenable (fun _ => true) _ 1 ["a".toList] (by decide)).1, by decide⟩

/-- C20 (counterexample). For `> f < f` with no readable file at all, the
`LEFTRED` target `f` cannot be opened beforehand, yet `last_infile` does not
fail: it first opens the `RIGHTRED` target `f` with `O_CREAT`, which creates
it, and then returns the `LEFTRED` entry with `*no_file` still 1. -/
theorem last_infile_opens_created_target :
    (∃ r ∈ [({ type := TokType.RIGHTRED, file := "f".toList } : t_redirections),
            { type := TokType.LEFTRED, file := "f".toList }],
        r.type = TokType.LEFTRED ∧ r.file ∉ ([] : Files))
    ∧ last_infile (fun _ => true)
          { str := [Slot.str "cat".toList, Slot.null], alloc := 2,
            redirections := [{ type := TokType.RIGHTRED, file := "f".toList },
                             { type := TokType.LEFTRED, file := "f".toList }],
            separator := t_sep.e_nline } 1 []
        = (some { type := TokType.LEFTRED, file := "f".toList }, 1, [], ["f".toList]) := by
  decide

/-! ## `execution` -/

/-- C18 (the code departs from the claim). A pipeline of one node `exit 0`:
the specification (and the comment on the condition in `execution`, which lists
`exit`) has it run in the shell process, but `main_builtins` only knows `cd`,
`export` with an argument and `unset`, so `execution` takes the forking path.
`cd` and `export A=1` do run in the shell process. -/
theorem execution_forks_for_exit :
    execution [{ str := [Slot.str "exit".toList, Slot.str "0".toList, Slot.null], alloc := 3,
                 redirections := [], separator := t_sep.e_nline }] = some Branch.forking
    ∧ runs_in_shell_spec ["exit".toList, "0".toList] 1 = true
    ∧ execution [{ str := [Slot.str "cd".toList, Slot.null], alloc := 2,
                   redirections := [], separator := t_sep.e_nline }] = some Branch.in_shell
    ∧ execution [{ str := [Slot.str "export".toList, Slot.str "A=1".toList, Slot.null],
                   alloc := 3, redirections := [], separator := t_sep.e_nline }]
        = some Branch.in_shell := by
  decide

/-! ## `parser` -/

/-- C13 (the code departs from the claim). The tokens of `echo b>f c`: the
words `b` and `c` have a `SPACE` between them (after the target `f`), yet
`parser` joins them into the one slot `bc`, because its redirection branch steps
over the `SPACE` that follows the target without closing the slot. The array
was allocated for three words, so a slot is left unwritten before the `NULL`. -/
theorem parser_joins_words_across_redirection :
    parser []
        [{ value := "echo".toList, type := TokType.WORD },
         { value := " ".toList, type := TokType.SPACE },
         { value := "b".toList, type := TokType.WORD },
         { value := ">".toList, type := TokType.RIGHTRED },
         { value := "f".toList, type := TokType.WORD },
         { value := " ".toList, type := TokType.SPACE },
         { value := "c".toList, type := TokType.WORD },
         { value := "N".toList, type := TokType.NLINE }]
      = some [{ str := [Slot.str "echo".toList, Slot.str "bc".toList, Slot.unwritten, Slot.null],
                alloc := 4,
                redirections := [{ type := TokType.RIGHTRED, file := "f".toList }],
                separator := t_sep.e_nline }] := by
  decide

theorem valid_ne_nil {l : List t_token_list} (h : valid_tokens l = true) : l ≠ [] := by
  intro hl
  subst hl
  simp [valid_tokens] at h

/-- Once a pass of the loop of `tokenizer` reports an unclosed quote, the loop is
left with the empty list and the message, whatever was lexed before. -/
theorem tokenizer_loop_reports (sc : Scanners) (dfuel : Nat) :
    ∀ (k fuel : Nat) (tokens : List t_token_list) (line : Option CStr) (tools : t_tools),
      reports_in_pass sc dfuel k tokens line tools = true → k < fuel →
      tokenizer_loop sc dfuel fuel tokens line tools = some ([], "Open quote\n".toList) := by
  intro k
  induction k with
  | zero =>
    intro fuel tokens line tools hr hk
    obtain ⟨f, rfl⟩ : ∃ f, fuel = f + 1 := ⟨fuel - 1, by omega⟩
    have hs : tokenizer_step sc dfuel tokens line tools = some Scan.report := by
      simpa [reports_in_pass] using hr
    simp [tokenizer_loop, hs, open_quote_error, ft_lstclear]
  | succ k ih =>
    intro fuel tokens line tools hr hk
    obtain ⟨f, rfl⟩ : ∃ f, fuel = f + 1 := ⟨fuel - 1, by omega⟩
    rw [reports_in_pass] at hr
    rw [tokenizer_loop]
    cases hs : tokenizer_step sc dfuel tokens line tools with
    | none => rw [hs] at hr; simp at hr
    | some r =>
      rw [hs] at hr
      cases r with
      | stop => simp at hr
      | report => simp at hr
      | next t1 l1 tl1 => exact ih f t1 l1 tl1 hr (by omega)

/-- C17. When the single-quote or the double-quote scanner reports an
unclosed quote in some pass `k` of the scanning loop, `tokenizer` (given fuel for
more than `k` passes) returns the list that holds the `NLINE` sentinel only and
has written exactly `Open quote` and a newline; on that list `parser` builds no
command node, and `execution` does nothing for the empty command list. -/
theorem tokenizer_open_quote_returns_sentinel (sc : Scanners) (dfuel k fuel : Nat)
    (line : Option CStr) (tools : t_tools)
    (hr : reports_in_pass sc dfuel k [] line tools = true) (hk : k < fuel) :
    tokenizer sc dfuel fuel line tools
        = some ([{ value := "N".toList, type := TokType.NLINE }], "Open quote\n".toList) ∧
      parser [] [{ value := "N".toList, type := TokType.NLINE }] = some [] ∧
      execution [] = some Branch.nothing := by
  refine ⟨?_, by decide, rfl⟩
  rw [tokenizer, tokenizer_loop_reports sc dfuel k fuel [] line tools hr hk]
  rfl

/-- The line `ab 'c` (a word, a blank, then a quote that is never closed): the
report comes in pass 2, after two tokens were lexed, and only the sentinel is
returned. -/
theorem tokenizer_open_quote_returns_sentinel_witness :
    reports_in_pass example_scanners 1 2 [] (some "ab 'c".toList) ⟨0, 0, 0, 0, 0⟩ = true ∧
      tokenizer example_scanners 1 3 (some "ab 'c".toList) ⟨0, 0, 0, 0, 0⟩
        = some ([{ value := "N".toList, type := TokType.NLINE }], "Open quote\n".toList) :=
  ⟨by decide,
    (tokenizer_open_quote_returns_sentinel example_scanners 1 2 3 (some "ab 'c".toList)
      ⟨0, 0, 0, 0, 0⟩ (by decide) (by decide)).1⟩

/-! ## The error text, the argv count and the uniqueness of names -/

/-- C21 (the code departs from the claim). `cat < missing` with no readable
file: the bytes `last_infile` writes to standard error have a byte 0 between
`minishell: ` and the target, because the first `write` is given the length 12
for a literal of 11 bytes; the text the specification asks for has no byte
there. The third `write` has the right length, 28. -/
theorem last_infile_writes_nul_after_prefix :
    (last_infile (fun _ => true)
        { str := [Slot.str "cat".toList, Slot.null], alloc := 2,
          redirections := [{ type := TokType.LEFTRED, file := "missing".toList }],
          separator := t_sep.e_nline } 1 []).2.2.1
      = "minishell: ".toList ++ [Char.ofNat 0]
          ++ "missing: No such file or directory\n".toList
    ∧ (last_infile (fun _ => true)
        { str := [Slot.str "cat".toList, Slot.null], alloc := 2,
          redirections := [{ type := TokType.LEFTRED, file := "missing".toList }],
          separator := t_sep.e_nline } 1 []).2.2.1
      ≠ "minishell: missing: No such file or directory\n".toList
    ∧ "minishell: ".toList.length = 11
    ∧ ": No such file or directory\n".toList.length = 28 := by
  decide

/-- C28 (the code departs from the claim). The tokens of `echo b>f c`:
`to_alloc_count` returns 3 at the first token, but `parser` writes two slots
only (`echo` and `bc`), so an unwritten slot stands before the `NULL`
terminator. The redirection branch of `parser` steps over the `SPACE` after the
target without closing the open slot, as in C13. -/
theorem to_alloc_count_exceeds_filled_slots :
    to_alloc_count
        [{ value := "echo".toList, type := TokType.WORD },
         { value := " ".toList, type := TokType.SPACE },
         { value := "b".toList, type := TokType.WORD },
         { value := ">".toList, type := TokType.RIGHTRED },
         { value := "f".toList, type := TokType.WORD },
         { value := " ".toList, type := TokType.SPACE },
         { value := "c".toList, type := TokType.WORD },
         { value := "N".toList, type := TokType.NLINE }] = some 3
    ∧ (parser []
        [{ value := "echo".toList, type := TokType.WORD },
         { value := " ".toList, type := TokType.SPACE },
         { value := "b".toList, type := TokType.WORD },
         { value := ">".toList, type := TokType.RIGHTRED },
         { value := "f".toList, type := TokType.WORD },
         { value := " ".toList, type := TokType.SPACE },
         { value := "c".toList, type := TokType.WORD },
         { value := "N".toList, type := TokType.NLINE }]).map
          (fun nodes => nodes.map (fun c => c.str))
        = some [[Slot.str "echo".toList, Slot.str "bc".toList, Slot.unwritten, Slot.null]]
    ∧ valid_tokens
        [{ value := "echo".toList, type := TokType.WORD },
         { value := " ".toList, type := TokType.SPACE },
         { value := "b".toList, type := TokType.WORD },
         { value := ">".toList, type := TokType.RIGHTRED },
         { value := "f".toList, type := TokType.WORD },
         { value := " ".toList, type := TokType.SPACE },
         { value := "c".toList, type := TokType.WORD },
         { value := "N".toList, type := TokType.NLINE }] = true := by
  decide

/-- C30 (the code departs from the claim). `export X` on an exported view
that holds `X` once: the name-only branch of `add_var_in_list` appends without
looking the name up, so the view holds two entries named `X` afterwards. The
same happens for `export X=` on a view that holds the name `X=`. The defect is
the one of C8. -/
theorem do_export_name_only_duplicates :
    do_export ["export".toList, "X".toList]
        { data := [{ var := "X".toList, value := some "1".toList }],
          env_list := [{ name := "X".toList, value := some "1".toList }] }
      = some ({ data := [{ var := "X".toList, value := some "1".toList },
                         { var := "X".toList, value := some [] }],
                env_list := [{ name := "X".toList, value := some "1".toList }] }, [])
    ∧ do_export ["export".toList, "X=".toList]
        { data := [{ var := "X=".toList, value := some [] }], env_list := [] }
      = some ({ data := [{ var := "X=".toList, value := some [] },
                         { var := "X=".toList, value := some [] }],
                env_list := [{ name := "X=".toList, value := some [] }] }, []) := by
  decide

/-! ## Path lookup -/

theorem check_command_in_path_loop_none (access : CStr → Bool) (cmd : CStr) (path : List CStr) :
    check_command_in_path_loop access cmd path = none ↔ ∀ p ∈ path, access (p ++ cmd) = false := by
  induction path with
  | nil => simp [check_command_in_path_loop]
  | cons p rest ih =>
    by_cases h : access (p ++ cmd) = true
    · simp [check_command_in_path_loop, ft_strjoin, h]
    · simp [check_command_in_path_loop, ft_strjoin, h, ih]

theorem check_command_in_path_loop_some (access : CStr → Bool) (cmd : CStr) (path : List CStr)
    (r : CStr) (h : check_command_in_path_loop access cmd path = some r) :
    ∃ pre p post, path = pre ++ p :: post ∧ r = p ++ cmd ∧ access r = true ∧
      ∀ q ∈ pre, access (q ++ cmd) = false := by
  induction path with
  | nil => simp [check_command_in_path_loop] at h
  | cons p rest ih =>
    by_cases ha : access (p ++ cmd) = true
    · simp [check_command_in_path_loop, ft_strjoin, ha] at h
      exact ⟨[], p, rest, rfl, h.symm, by rw [← h]; exact ha,
        fun q hq => absurd hq (List.not_mem_nil q)⟩
    · simp [check_command_in_path_loop, ft_strjoin, ha] at h
      obtain ⟨pre, p1, post, h1, h2, h3, h4⟩ := ih h
      refine ⟨p :: pre, p1, post, by rw [h1]; rfl, h2, h3, ?_⟩
      intro q hq
      rcases List.mem_cons.mp hq with hq | hq
      · rw [hq]; simpa using ha
      · exact h4 q hq

/-- C24. For every list of `PATH` components, every command name and every
accessibility predicate, `check_command_in_path` returns `NULL` exactly when no
component joined with `/` and the command name is accessible, and otherwise
returns that joined path for the first component (smallest index) at which it
is accessible. -/
theorem check_command_in_path_first_hit (access : CStr → Bool) (path : List CStr) (cmd : CStr) :
    (check_command_in_path access path cmd = none
        ↔ ∀ p ∈ path, access (p ++ '/' :: cmd) = false)
    ∧ ∀ r, check_command_in_path access path cmd = some r →
        ∃ i, ∃ hi : i < path.length, r = path.get ⟨i, hi⟩ ++ '/' :: cmd ∧ access r = true ∧
          ∀ j, ∀ hj : j < path.length, j < i → access (path.get ⟨j, hj⟩ ++ '/' :: cmd) = false := by
  refine ⟨check_command_in_path_loop_none access ('/' :: cmd) path, ?_⟩
  intro r h
  obtain ⟨pre, p, post, h1, h2, h3, h4⟩ :=
    check_command_in_path_loop_some access ('/' :: cmd) path r h
  subst h1
  refine ⟨pre.length, by simp, ?_, h3, ?_⟩
  · rw [h2, List.get_eq_getElem, List.getElem_append_right (Nat.le_refl _)]
    simp
  · intro j hj hlt
    have : (pre ++ p :: post).get ⟨j, hj⟩ ∈ pre := by
      simp only [List.get_eq_getElem]
      rw [List.getElem_append_left hlt]
      exact List.getElem_mem _
    exact h4 _ this

/-! ## Heredoc body -/

/-- C25. For every delimiter and every sequence of lines read from the
terminal (C strings), `heredoc_prompt` writes exactly the lines that precede the
first line equal to the delimiter (all lines when none is equal), each followed
by one newline, in order; a line other than the delimiter, also one that holds
it as a prefix, goes into the body and does not end it. -/
theorem heredoc_prompt_writes_body (delimiter : CStr) (lines : List CStr)
    (hd : is_cstr delimiter) (hl : ∀ l ∈ lines, is_cstr l) :
    heredoc_prompt delimiter lines = heredoc_spec delimiter lines
    ∧ ∀ l rest, is_cstr l → (∀ x ∈ rest, is_cstr x) → l ≠ delimiter →
        heredoc_prompt delimiter (l :: rest) = l ++ ['\n'] ++ heredoc_prompt delimiter rest := by
  constructor
  · induction lines with
    | nil => rfl
    | cons l rest ih =>
      have hc : is_cstr l := hl l (List.mem_cons_self l rest)
      have ih1 := ih (fun x hx => hl x (List.mem_cons_of_mem l hx))
      by_cases he : l = delimiter
      · subst he
        simp [heredoc_prompt, heredoc_spec, ft_strcmp_self]
      · have hne := ft_strcmp_ne_zero hc hd he
        simp only [heredoc_prompt, if_neg hne, ih1, heredoc_spec, ft_strjoin]
        simp [List.takeWhile, he]
  · intro l rest hc _ he
    have hne := ft_strcmp_ne_zero hc hd he
    simp [heredoc_prompt, if_neg hne, ft_strjoin]

theorem heredoc_prompt_writes_body_witness :
    heredoc_prompt "EOF".toList ["a".toList, "EOFX".toList, "xEOF".toList, "EOF".toList, "b".toList]
      = "a\nEOFX\nxEOF\n".toList :=
  (heredoc_prompt_writes_body "EOF".toList
    ["a".toList, "EOFX".toList, "xEOF".toList, "EOF".toList, "b".toList]
    (by decide) (by decide)).1.trans (by decide)

/-! ## The `env` and `export` listings -/

theorem is_cstr_nil : is_cstr [] :=
  fun c hc => absurd hc (List.not_mem_nil c)

/-- C26 (as amended). For every lookup view whose values are C strings (none is
`NULL`), `print_env` returns and prints one line per entry, in list order: the
name, `=`, the value between double quotes and a newline when the value is not
empty, and the name and a newline alone when it is empty. -/
theorem print_env_lines (list : List t_env_list)
    (hv : ∀ e ∈ list, ∃ v, e.value = some v ∧ is_cstr v) :
    print_env list = some ((list.map env_line).flatten) := by
  induction list with
  | nil => rfl
  | cons head rest ih =>
    obtain ⟨v, h1, h2⟩ := hv head (List.mem_cons_self head rest)
    have ih1 := ih (fun e he => hv e (List.mem_cons_of_mem head he))
    cases v with
    | nil => simp [print_env, h1, ih1, env_line, ft_strcmp]
    | cons c v =>
      have hne : ft_strcmp (c :: v) [] ≠ 0 :=
        ft_strcmp_ne_zero h2 is_cstr_nil (List.cons_ne_nil c v)
      simp [print_env, h1, ih1, env_line, hne]

theorem print_env_lines_witness :
    print_env [{ name := "A".toList, value := some "1".toList },
               { name := "B=".toList, value := some [] }]
      = some "A=\"1\"\nB=\n".toList :=
  (print_env_lines [{ name := "A".toList, value := some "1".toList },
                    { name := "B=".toList, value := some [] }]
    (by decide)).trans (by decide)

/-- C26 (counterexample). The lookup view that holds `X` with value `1`:
`print_env` prints the value between double quotes, where the claim has no
quoting; and for an empty value it prints the name alone, where the claim has
the name followed by `=`. -/
theorem print_env_quotes_value :
    print_env [{ name := "X".toList, value := some "1".toList }] = some "X=\"1\"\n".toList
    ∧ env_line_spec { name := "X".toList, value := some "1".toList } = "X=1\n".toList
    ∧ print_env [{ name := "Y".toList, value := some [] }] = some "Y\n".toList
    ∧ env_line_spec { name := "Y".toList, value := some [] } = "Y=\n".toList := by
  decide

theorem export_print_lines (l : List t_export) (h : ∀ e ∈ l, e.value ≠ none) :
    export_print l = some ((l.map export_line).flatten) := by
  induction l with
  | nil => rfl
  | cons head rest ih =>
    have ih1 := ih (fun e he => h e (List.mem_cons_of_mem head he))
    cases hv : head.value with
    | none => exact absurd hv (h head (List.mem_cons_self head rest))
    | some v =>
      cases v with
      | nil =>
        by_cases he : eqaul_last_only head.var = true
        · simp [export_print, hv, ih1, export_line, he]
        · simp [export_print, hv, ih1, export_line, he]
      | cons c v => simp [export_print, hv, ih1, export_line]

/-- C27 (as amended). For every store whose exported view holds no `NULL`
value, `do_export` with no argument returns and prints one line per entry of
the exported view, in list order: `declare -x NAME="VALUE"` for a value that is
not empty; for an empty value `declare -x NAME`, unless the first `=` of the
stored name is its last byte (the entry `NAME=` leaves), in which case two
double quotes follow the stored name. The lookup view is never changed, and
the exported view is not changed when it is sorted with distinct names (the
names being C strings). -/
theorem do_export_listing (cmd : CStr) (st : Store) (h : ∀ e ∈ st.data, e.value ≠ none) :
    ∃ st1, do_export [cmd] st = some (st1, (st.data.map export_line).flatten)
      ∧ st1.env_list = st.env_list
      ∧ ((∀ e ∈ st.data, is_cstr e.var) → sorted_by_name st.data →
          (st.data.map (fun e => e.var)).Nodup → st1 = st) := by
  refine ⟨{ st with data := sort st.data }, ?_, rfl, ?_⟩
  · simp [do_export, export_print_lines st.data h, do_export_loop]
  · intro hc hs hn
    rw [sort_of_strictly_sorted st.data (strictly_sorted_of_sorted_nodup st.data hc hs hn)]

theorem do_export_listing_witness :
    do_export ["export".toList]
        { data := [{ var := "A".toList, value := some "1".toList },
                   { var := "B".toList, value := some [] },
                   { var := "C=".toList, value := some [] }],
          env_list := [{ name := "A".toList, value := some "1".toList }] }
      = some ({ data := [{ var := "A".toList, value := some "1".toList },
                         { var := "B".toList, value := some [] },
                         { var := "C=".toList, value := some [] }],
                env_list := [{ name := "A".toList, value := some "1".toList }] },
              "declare -x A=\"1\"\ndeclare -x B\ndeclare -x C=\"\"\n".toList) := by
  obtain ⟨st1, h1, _, h3⟩ := do_export_listing "export".toList
    { data := [{ var := "A".toList, value := some "1".toList },
               { var := "B".toList, value := some [] },
               { var := "C=".toList, value := some [] }],
      env_list := [{ name := "A".toList, value := some "1".toList }] } (by decide)
  rw [h1, h3 (by decide) (by decide) (by decide)]
  decide

/-- C27 (counterexample). The exported view that `export X=` leaves holds the
name `X=` with an empty value: `do_export` with no argument prints it with two
double quotes, where the claim has the name alone, with no quotes. -/
theorem do_export_listing_quotes_after_equal :
    do_export ["export".toList] { data := [{ var := "X=".toList, value := some [] }],
                                  env_list := [{ name := "X=".toList, value := some [] }] }
      = some ({ data := [{ var := "X=".toList, value := some [] }],
                env_list := [{ name := "X=".toList, value := some [] }] },
              "declare -x X=\"\"\n".toList)
    ∧ export_line_spec { var := "X=".toList, value := some [] } = "declare -x X=\n".toList
    ∧ do_export ["export".toList, "X=".toList] { data := [], env_list := [] }
      = some ({ data := [{ var := "X=".toList, value := some [] }],
                env_list := [{ name := "X=".toList, value := some [] }] }, []) := by
  decide

/-! ## The child forked for a node -/

/-- C29 (the code departs from the claim). The node `cat < missing` with no
readable file: the child forked for it leaves `execute_command` by `return`, so
it neither runs a built-in nor calls `execve`, but it goes on in the `while (1)`
of `main` as a second shell; it does not end. With a readable target the same
node reaches `execve`, and the other ends of the child (`exec_builtins`,
`Command not found`) call `exit(0)`. -/
theorem child_returns_when_infile_missing :
    execute_command_child (fun p => decide (p = "/bin/cat".toList)) ["/bin".toList]
        (fun _ => true)
        { str := [Slot.str "cat".toList, Slot.null], alloc := 2,
          redirections := [{ type := TokType.LEFTRED, file := "missing".toList }],
          separator := t_sep.e_nline } []
      = some ChildEnd.returns
    ∧ (∀ execve_fails, back_in_main_loop execve_fails ChildEnd.returns = true)
    ∧ execute_command_child (fun p => decide (p = "/bin/cat".toList)) ["/bin".toList]
        (fun _ => true)
        { str := [Slot.str "cat".toList, Slot.null], alloc := 2,
          redirections := [{ type := TokType.LEFTRED, file := "missing".toList }],
          separator := t_sep.e_nline } ["missing".toList]
      = some (ChildEnd.execve "/bin/cat".toList)
    ∧ execute_command_child (fun p => decide (p = "/bin/cat".toList)) ["/bin".toList]
        (fun _ => true)
        { str := [Slot.str "nocmd".toList, Slot.null], alloc := 2,
          redirections := [], separator := t_sep.e_nline } []
      = some ChildEnd.not_found :=
  ⟨by decide, fun _ => rfl, by decide, by decide⟩

/-! ## Descriptor tables -/

theorem fd_get_nil (m : Nat) : fd_get [] m = none := by
  cases m <;> rfl

theorem fd_get_set (tbl : FdTable) (n : Nat) (d : Option Desc) (m : Nat) :
    fd_get (fd_set tbl n d) m = if m = n then d else fd_get tbl m := by
  induction tbl generalizing n m with
  | nil =>
    induction n generalizing m with
    | zero => cases m <;> simp [fd_set, fd_get, fd_get_nil]
    | succ n ih =>
      cases m with
      | zero => simp [fd_set, fd_get]
      | succ m => simp [fd_set, fd_get, ih m, fd_get_nil]
  | cons x t ih =>
    cases n with
    | zero => cases m <;> simp [fd_set, fd_get]
    | succ n =>
      cases m with
      | zero => simp [fd_set, fd_get]
      | succ m => simp [fd_set, fd_get, ih n m]

theorem fd_get_lowest_free (tbl : FdTable) : fd_get tbl (lowest_free tbl) = none := by
  induction tbl with
  | nil => rfl
  | cons x t ih =>
    cases x with
    | none => rfl
    | some d => simpa [lowest_free, fd_get] using ih

theorem fd_get_open (tbl : FdTable) (d : Desc) (m : Nat) :
    fd_get (sys_open tbl d).1 m = if m = lowest_free tbl then some d else fd_get tbl m := by
  simp [sys_open, fd_get_set]

theorem fd_get_close (tbl : FdTable) (n m : Nat) :
    fd_get (sys_close tbl n).1 m = if m = n then none else fd_get tbl m := by
  unfold sys_close
  cases h : fd_get tbl n with
  | none =>
    by_cases hm : m = n
    · simp [hm, h]
    · simp [hm]
  | some d => simp [fd_get_set]

theorem sys_close_ok (tbl : FdTable) (n : Nat) (d : Desc) (h : fd_get tbl n = some d) :
    (sys_close tbl n).2 = true := by
  simp [sys_close, h]

theorem fd_get_dup2 (tbl : FdTable) (old new : Nat) (d : Desc) (h : fd_get tbl old = some d)
    (m : Nat) : fd_get (sys_dup2 tbl old new) m = if m = new then some d else fd_get tbl m := by
  simp [sys_dup2, h, fd_get_set]

theorem no_pipe_open_iff (tbl : FdTable) : no_pipe_open tbl = true ↔ pipes_only_at tbl [] := by
  induction tbl with
  | nil =>
    simp [no_pipe_open, pipes_only_at, fd_get_nil]
  | cons x t ih =>
    have hstep : no_pipe_open (x :: t) =
        ((match x with | some y => !is_pipe_end y | none => true) && no_pipe_open t) := by
      simp [no_pipe_open]
    rw [hstep, Bool.and_eq_true, ih]
    constructor
    · rintro ⟨h1, h2⟩ m d hm hd
      cases m with
      | zero =>
        simp only [fd_get] at hm
        subst hm
        simp [hd] at h1
      | succ m => exact absurd (h2 m d (by simpa [fd_get] using hm) hd) (List.not_mem_nil m)
    · intro h
      constructor
      · cases x with
        | none => rfl
        | some y =>
          cases hy : is_pipe_end y with
          | false => simp [hy]
          | true => exact absurd (h 0 y rfl hy) (List.not_mem_nil 0)
      · intro m d hm hd
        exact absurd (h (m + 1) d (by simpa [fd_get] using hm) hd) (List.not_mem_nil _)

theorem fd_get_heredoc (k : Nat) : ∀ (tbl : FdTable) (m : Nat),
    fd_get (ft_heredoc_opens k tbl) m = fd_get tbl m ∨
      (fd_get tbl m = none ∧
        fd_get (ft_heredoc_opens k tbl) m = some (Desc.file "heredoc".toList)) := by
  induction k with
  | zero => intro tbl m; exact Or.inl rfl
  | succ k ih =>
    intro tbl m
    have h1 := ih (sys_open tbl (Desc.file "heredoc".toList)).1 m
    rw [fd_get_open] at h1
    simp only [ft_heredoc_opens]
    by_cases hm : m = lowest_free tbl
    · rw [if_pos hm] at h1
      have hn : fd_get tbl m = none := by rw [hm]; exact fd_get_lowest_free tbl
      rcases h1 with h1 | h1
      · exact Or.inr ⟨hn, h1⟩
      · exact absurd h1.1 (by simp)
    · rw [if_neg hm] at h1
      exact h1

theorem heredoc_keeps (k : Nat) (tbl : FdTable) (m : Nat) (d : Desc)
    (h : fd_get tbl m = some d) : fd_get (ft_heredoc_opens k tbl) m = some d := by
  rcases fd_get_heredoc k tbl m with h1 | h1
  · rw [h1, h]
  · rw [h] at h1; exact absurd h1.1 (by simp)

theorem heredoc_pipe (k : Nat) (tbl : FdTable) (m : Nat) (d : Desc)
    (h : fd_get (ft_heredoc_opens k tbl) m = some d) (hd : is_pipe_end d = true) :
    fd_get tbl m = some d := by
  rcases fd_get_heredoc k tbl m with h1 | h1
  · rw [← h1, h]
  · rw [h1.2] at h
    injection h with h
    subst h
    simp [is_pipe_end] at hd

theorem sys_pipe_spec (tbl : FdTable) (j : Nat) :
    fd_get tbl (sys_pipe tbl j).2.1 = none ∧ fd_get tbl (sys_pipe tbl j).2.2 = none ∧
      (sys_pipe tbl j).2.1 ≠ (sys_pipe tbl j).2.2 ∧
      ∀ m, fd_get (sys_pipe tbl j).1 m =
        if m = (sys_pipe tbl j).2.2 then some (Desc.pipe_w j)
        else if m = (sys_pipe tbl j).2.1 then some (Desc.pipe_r j) else fd_get tbl m := by
  have hw := fd_get_lowest_free (sys_open tbl (Desc.pipe_r j)).1
  rw [fd_get_open] at hw
  have hne : lowest_free (sys_open tbl (Desc.pipe_r j)).1 ≠ lowest_free tbl := by
    intro he
    rw [if_pos he] at hw
    simp at hw
  rw [if_neg hne] at hw
  refine ⟨fd_get_lowest_free tbl, hw, fun he => hne he.symm, ?_⟩
  intro m
  simp only [sys_pipe]
  rw [fd_get_open, fd_get_open]
  rfl

theorem arr_get_set_eq (fd : PipeArr) (i : Nat) (p : Nat × Nat) (h : i < fd.length) :
    arr_get (fd.set i (some p)) i = some p := by
  simp [arr_get, List.get?_eq_getElem?, List.getElem?_set, h]

theorem arr_get_set_ne (fd : PipeArr) (i k : Nat) (x : Option (Nat × Nat)) (h : i ≠ k) :
    arr_get (fd.set i x) k = arr_get fd k := by
  simp [arr_get, List.get?_eq_getElem?, List.getElem?_set, h]

/-- The table of the parent after `pipe (fd[i])` and `ft_heredoc`: the two new
ends are open under the numbers written to `fd[i]`, and every other end of a
pipe was open before under the same number. -/
theorem after_pipe_table (tbl : FdTable) (i h : Nat) (t2 : FdTable) (r w : Nat)
    (hs : sys_pipe tbl i = (t2, r, w)) :
    fd_get tbl r = none ∧ fd_get tbl w = none ∧ r ≠ w ∧
      fd_get (ft_heredoc_opens h t2) r = some (Desc.pipe_r i) ∧
      fd_get (ft_heredoc_opens h t2) w = some (Desc.pipe_w i) ∧
      (∀ m d, fd_get tbl m = some d → fd_get (ft_heredoc_opens h t2) m = some d) ∧
      (∀ m d, fd_get (ft_heredoc_opens h t2) m = some d → is_pipe_end d = true →
        (m = w ∧ d = Desc.pipe_w i) ∨ (m = r ∧ d = Desc.pipe_r i) ∨ fd_get tbl m = some d) := by
  obtain ⟨h1, h2, h3, h4⟩ := sys_pipe_spec tbl i
  rw [hs] at h1 h2 h3 h4
  simp only at h1 h2 h3 h4
  refine ⟨h1, h2, h3, ?_, ?_, ?_, ?_⟩
  · apply heredoc_keeps
    rw [h4, if_neg h3, if_pos rfl]
  · apply heredoc_keeps
    rw [h4, if_pos rfl]
  · intro m d hm
    apply heredoc_keeps
    have hmw : m ≠ w := by intro e; rw [e, h2] at hm; cases hm
    have hmr : m ≠ r := by intro e; rw [e, h1] at hm; cases hm
    rw [h4, if_neg hmw, if_neg hmr, hm]
  · intro m d hm hd
    have hm2 := heredoc_pipe h t2 m d hm hd
    rw [h4] at hm2
    by_cases hmw : m = w
    · rw [if_pos hmw] at hm2
      injection hm2 with hm2
      exact Or.inl ⟨hmw, hm2.symm⟩
    · rw [if_neg hmw] at hm2
      by_cases hmr : m = r
      · rw [if_pos hmr] at hm2
        injection hm2 with hm2
        exact Or.inr (Or.inl ⟨hmr, hm2.symm⟩)
      · rw [if_neg hmr] at hm2
        exact Or.inr (Or.inr hm2)

/-- A descriptor that is an end of a pipe is neither standard input nor
standard output of a table in which those two are not ends of a pipe. -/
theorem pipe_not_std (tbl : FdTable) (hstd : std_open tbl) (m : Nat) (d : Desc)
    (hm : fd_get tbl m = some d) (hd : is_pipe_end d = true) : m ≠ 0 ∧ m ≠ 1 := by
  obtain ⟨⟨d0, h0, e0⟩, ⟨d1, h1, e1⟩⟩ := hstd
  constructor
  · intro e
    rw [e, h0] at hm
    injection hm with hm
    rw [hm, hd] at e0
    cases e0
  · intro e
    rw [e, h1] at hm
    injection hm with hm
    rw [hm, hd] at e1
    cases e1

/-- A free descriptor number is neither 0 nor 1 while those two are open. -/
theorem free_not_std (tbl : FdTable) (hstd : std_open tbl) (m : Nat)
    (hm : fd_get tbl m = none) : m ≠ 0 ∧ m ≠ 1 := by
  obtain ⟨⟨d0, h0, _⟩, ⟨d1, h1, _⟩⟩ := hstd
  constructor
  · intro e
    rw [e, h0] at hm
    cases hm
  · intro e
    rw [e, h1] at hm
    cases hm

/-- The first node of a pipeline of several nodes: the pipe is created, the
child is wired as asked, and the parent keeps the read end only. -/
theorem first_node_step (cmds : Nat) (fd : PipeArr) (p : Parent) (c : t_cmd_line)
    (hsep : c.separator = t_sep.e_pipe) (hc : 1 < cmds) (hlen : fd.length = cmds)
    (hinv : parent_inv 0 false fd p) :
    ∃ tbl1 fd1 p1, make_pipe c 0 false fd p.tbl = some (tbl1, fd1, true) ∧
      fd1.length = cmds ∧
      close_pipes fd1 0 cmds true
          { tbl := ft_heredoc_opens (count_heredocs c) tbl1, ok := p.ok } = some p1 ∧
      parent_inv 1 true fd1 p1 ∧
      (std_open p.tbl → std_open p1.tbl ∧
        child_wired cmds { tbl := ft_heredoc_opens (count_heredocs c) tbl1, fd := fd1, i := 0,
                           flg := true }) := by
  obtain ⟨hok, h0, _⟩ := hinv
  have hnp := (h0 rfl).2
  rcases hs : sys_pipe p.tbl 0 with ⟨t2, r, w⟩
  obtain ⟨e1, e2, e3, e4, e5, e6, e7⟩ := after_pipe_table p.tbl 0 (count_heredocs c) t2 r w hs
  have hpos : 0 < fd.length := by omega
  have harr : arr_get (fd.set 0 (some (r, w))) 0 = some (r, w) := arr_get_set_eq fd 0 (r, w) hpos
  have hpipes : ∀ m d, fd_get (ft_heredoc_opens (count_heredocs c) t2) m = some d →
      is_pipe_end d = true → (m = w ∧ d = Desc.pipe_w 0) ∨ (m = r ∧ d = Desc.pipe_r 0) := by
    intro m d hm hd
    rcases e7 m d hm hd with h | h | h
    · exact Or.inl h
    · exact Or.inr h
    · exact absurd (hnp m d h hd) (List.not_mem_nil m)
  refine ⟨t2, fd.set 0 (some (r, w)), parent_close
    { tbl := ft_heredoc_opens (count_heredocs c) t2, ok := p.ok } w, ?_, ?_, ?_, ?_, ?_⟩
  · simp [make_pipe, hsep, hs, hpos]
  · simp [hlen]
  · simp [close_pipes, harr]
  · refine ⟨?_, fun h => absurd h (by decide), fun _ => ⟨rfl, r, w, harr, ?_, ?_⟩⟩
    · simp [parent_close, hok, sys_close_ok _ w _ e5]
    · simp only [parent_close, fd_get_close]
      rw [if_neg e3, e4]
    · intro m d hm hd
      simp only [parent_close, fd_get_close] at hm
      by_cases hmw : m = w
      · rw [if_pos hmw] at hm; cases hm
      · rw [if_neg hmw] at hm
        rcases hpipes m d hm hd with h | h
        · exact absurd h.1 hmw
        · simp [h.1]
  · intro hstd
    obtain ⟨r0, r1⟩ := free_not_std p.tbl hstd r e1
    obtain ⟨w0, w1⟩ := free_not_std p.tbl hstd w e2
    obtain ⟨⟨d0, hd0, hp0⟩, ⟨d1, hd1, hp1⟩⟩ := hstd
    constructor
    · refine ⟨⟨d0, ?_, hp0⟩, ⟨d1, ?_, hp1⟩⟩
      · simp only [parent_close, fd_get_close]
        rw [if_neg (Ne.symm w0)]
        exact e6 0 d0 hd0
      · simp only [parent_close, fd_get_close]
        rw [if_neg (Ne.symm w1)]
        exact e6 1 d1 hd1
    · refine ⟨rfl, ?_, ?_⟩
      · intro m d hm hd
        rcases hpipes m d hm hd with h | h
        · exact Or.inr (Or.inr h.2)
        · exact Or.inr (Or.inl h.2)
      · refine ⟨(sys_close (sys_close (sys_dup2 (ft_heredoc_opens (count_heredocs c) t2) w 1)
          r).1 w).1, by simp [child_dup, dup_to_pipe, harr], ?_, ?_, ?_⟩
        · simp only [fd_get_close, fd_get_dup2 _ w 1 _ e5]
          rw [if_neg (Ne.symm w0), if_neg (Ne.symm r0)]
          simp
        · simp only [fd_get_close, fd_get_dup2 _ w 1 _ e5]
          rw [if_neg (Ne.symm w1), if_neg (Ne.symm r1)]
          simp [hc]
        · intro m d hm hd
          simp only [fd_get_close]
          rcases hpipes m d hm hd with h | h
          · simp [h.1]
          · simp [h.1]

/-- A node in the middle of a pipeline: the next pipe is created, the child is
wired as asked, and the parent keeps the read end of the new pipe only. -/
theorem middle_node_step (cmds i : Nat) (fd : PipeArr) (p : Parent) (c : t_cmd_line)
    (hsep : c.separator = t_sep.e_pipe) (hi : 0 < i) (hc : i + 1 < cmds)
    (hlen : fd.length = cmds) (hinv : parent_inv i true fd p) :
    ∃ tbl1 fd1 p1, make_pipe c i true fd p.tbl = some (tbl1, fd1, true) ∧
      fd1.length = cmds ∧
      close_pipes fd1 i cmds true
          { tbl := ft_heredoc_opens (count_heredocs c) tbl1, ok := p.ok } = some p1 ∧
      parent_inv (i + 1) true fd1 p1 ∧
      (std_open p.tbl → std_open p1.tbl ∧
        child_wired cmds { tbl := ft_heredoc_opens (count_heredocs c) tbl1, fd := fd1, i := i,
                           flg := true }) := by
  obtain ⟨hok, _, h1⟩ := hinv
  obtain ⟨_, r0, w0, ha0, hr0, hnp⟩ := h1 hi
  rcases hs : sys_pipe p.tbl i with ⟨t2, r, w⟩
  obtain ⟨e1, e2, e3, e4, e5, e6, e7⟩ := after_pipe_table p.tbl i (count_heredocs c) t2 r w hs
  have hpos : i < fd.length := by omega
  have hi0 : i ≠ 0 := by omega
  have hic : ¬ (i + 1 = cmds) := by omega
  have hcond : 0 < i ∧ i + 1 < cmds := ⟨hi, hc⟩
  have harr : arr_get (fd.set i (some (r, w))) i = some (r, w) := arr_get_set_eq fd i (r, w) hpos
  have harr0 : arr_get (fd.set i (some (r, w))) (i - 1) = some (r0, w0) := by
    rw [arr_get_set_ne fd i (i - 1) _ (by omega)]; exact ha0
  have e8 := e6 r0 _ hr0
  have hr0r : r0 ≠ r := by intro e; rw [e, e1] at hr0; cases hr0
  have hr0w : r0 ≠ w := by intro e; rw [e, e2] at hr0; cases hr0
  have hpipes : ∀ m d, fd_get (ft_heredoc_opens (count_heredocs c) t2) m = some d →
      is_pipe_end d = true →
      (m = w ∧ d = Desc.pipe_w i) ∨ (m = r ∧ d = Desc.pipe_r i) ∨
        (m = r0 ∧ d = Desc.pipe_r (i - 1)) := by
    intro m d hm hd
    rcases e7 m d hm hd with h | h | h
    · exact Or.inl h
    · exact Or.inr (Or.inl h)
    · have hm0 : m = r0 := by simpa using hnp m d h hd
      refine Or.inr (Or.inr ⟨hm0, ?_⟩)
      rw [hm0, hr0] at h
      injection h with h
      exact h.symm
  refine ⟨t2, fd.set i (some (r, w)), parent_close (parent_close
    { tbl := ft_heredoc_opens (count_heredocs c) t2, ok := p.ok } w) r0, ?_, ?_, ?_, ?_, ?_⟩
  · simp [make_pipe, hsep, hs, hpos]
  · simp [hlen]
  · simp [close_pipes, harr, harr0, hi0, hic, hcond]
  · refine ⟨?_, fun h => absurd h (by omega), fun _ => ⟨rfl, r, w, ?_, ?_, ?_⟩⟩
    · have hc0 : fd_get (sys_close (ft_heredoc_opens (count_heredocs c) t2) w).1 r0
          = some (Desc.pipe_r (i - 1)) := by
        rw [fd_get_close, if_neg hr0w, e8]
      simp [parent_close, hok, sys_close_ok _ w _ e5, sys_close_ok _ r0 _ hc0]
    · simpa using harr
    · simp only [parent_close, fd_get_close]
      rw [if_neg (Ne.symm hr0r), if_neg e3, e4]
      simp
    · intro m d hm hd
      simp only [parent_close, fd_get_close] at hm
      by_cases hm0 : m = r0
      · rw [if_pos hm0] at hm; cases hm
      · rw [if_neg hm0] at hm
        by_cases hmw : m = w
        · rw [if_pos hmw] at hm; cases hm
        · rw [if_neg hmw] at hm
          rcases hpipes m d hm hd with h | h | h
          · exact absurd h.1 hmw
          · simp [h.1]
          · exact absurd h.1 hm0
  · intro hstd
    obtain ⟨r_0, r_1⟩ := free_not_std p.tbl hstd r e1
    obtain ⟨w_0, w_1⟩ := free_not_std p.tbl hstd w e2
    obtain ⟨q_0, q_1⟩ := pipe_not_std p.tbl hstd r0 _ hr0 rfl
    obtain ⟨⟨d0, hd0, hp0⟩, ⟨d1, hd1, hp1⟩⟩ := hstd
    have hdup1 : fd_get (sys_dup2 (ft_heredoc_opens (count_heredocs c) t2) r0 0) w
        = some (Desc.pipe_w i) := by
      rw [fd_get_dup2 _ r0 0 _ e8, if_neg w_0, e5]
    constructor
    · refine ⟨⟨d0, ?_, hp0⟩, ⟨d1, ?_, hp1⟩⟩
      · simp only [parent_close, fd_get_close]
        rw [if_neg (Ne.symm q_0), if_neg (Ne.symm w_0)]
        exact e6 0 d0 hd0
      · simp only [parent_close, fd_get_close]
        rw [if_neg (Ne.symm q_1), if_neg (Ne.symm w_1)]
        exact e6 1 d1 hd1
    · refine ⟨rfl, ?_, ?_⟩
      · intro m d hm hd
        rcases hpipes m d hm hd with h | h | h
        · exact Or.inr (Or.inr h.2)
        · exact Or.inr (Or.inl h.2)
        · exact Or.inl h.2
      · refine ⟨(sys_close (sys_close (sys_close (sys_dup2 (sys_dup2
            (ft_heredoc_opens (count_heredocs c) t2) r0 0) w 1) r0).1 w).1 r).1,
          by simp [child_dup, dup_to_pipe, harr, harr0, hi0, hic, hcond], ?_, ?_, ?_⟩
        · simp only [fd_get_close, fd_get_dup2 _ w 1 _ hdup1, fd_get_dup2 _ r0 0 _ e8]
          rw [if_neg (Ne.symm r_0), if_neg (Ne.symm w_0), if_neg (Ne.symm q_0)]
          simp [hi]
        · simp only [fd_get_close, fd_get_dup2 _ w 1 _ hdup1]
          rw [if_neg (Ne.symm r_1), if_neg (Ne.symm w_1), if_neg (Ne.symm q_1)]
          simp [hc]
        · intro m d hm hd
          simp only [fd_get_close]
          rcases hpipes m d hm hd with h | h | h
          · simp [h.1]
          · simp [h.1]
          · simp [h.1]

/-- The last node of a pipeline of several nodes: no pipe is created, the child
takes its input from the pipe of the node before, and the parent closes the one
end it still held. -/
theorem last_node_step (cmds i : Nat) (fd : PipeArr) (p : Parent) (c : t_cmd_line)
    (hsep : c.separator = t_sep.e_nline) (hi : 0 < i) (hc : i + 1 = cmds)
    (hinv : parent_inv i true fd p) :
    ∃ p1, make_pipe c i true fd p.tbl = some (p.tbl, fd, true) ∧
      close_pipes fd i cmds true
          { tbl := ft_heredoc_opens (count_heredocs c) p.tbl, ok := p.ok } = some p1 ∧
      p1.ok = true ∧ pipes_only_at p1.tbl [] ∧
      (std_open p.tbl →
        child_wired cmds { tbl := ft_heredoc_opens (count_heredocs c) p.tbl, fd := fd, i := i,
                           flg := true }) := by
  obtain ⟨hok, _, h1⟩ := hinv
  obtain ⟨_, r0, w0, ha0, hr0, hnp⟩ := h1 hi
  have hi0 : i ≠ 0 := by omega
  have e8 := heredoc_keeps (count_heredocs c) p.tbl r0 _ hr0
  have hpipes : ∀ m d, fd_get (ft_heredoc_opens (count_heredocs c) p.tbl) m = some d →
      is_pipe_end d = true → m = r0 ∧ d = Desc.pipe_r (i - 1) := by
    intro m d hm hd
    have h := heredoc_pipe _ _ m d hm hd
    have hm0 : m = r0 := by simpa using hnp m d h hd
    refine ⟨hm0, ?_⟩
    rw [hm0, hr0] at h
    injection h with h
    exact h.symm
  refine ⟨parent_close { tbl := ft_heredoc_opens (count_heredocs c) p.tbl, ok := p.ok } r0,
    ?_, ?_, ?_, ?_, ?_⟩
  · simp [make_pipe, hsep]
  · simp [close_pipes, ha0, hi0, hc]
  · simp [parent_close, hok, sys_close_ok _ r0 _ e8]
  · intro m d hm hd
    simp only [parent_close, fd_get_close] at hm
    by_cases hm0 : m = r0
    · rw [if_pos hm0] at hm; cases hm
    · rw [if_neg hm0] at hm
      exact absurd (hpipes m d hm hd).1 hm0
  · intro hstd
    obtain ⟨q_0, q_1⟩ := pipe_not_std p.tbl hstd r0 _ hr0 rfl
    refine ⟨rfl, fun m d hm hd => Or.inl (hpipes m d hm hd).2, ?_⟩
    refine ⟨(sys_close (sys_dup2 (ft_heredoc_opens (count_heredocs c) p.tbl) r0 0) r0).1,
      by simp [child_dup, dup_to_pipe, ha0, hi0, hc], ?_, ?_, ?_⟩
    · simp only [fd_get_close, fd_get_dup2 _ r0 0 _ e8]
      rw [if_neg (Ne.symm q_0)]
      simp [hi]
    · simp only [fd_get_close, fd_get_dup2 _ r0 0 _ e8]
      rw [if_neg (Ne.symm q_1)]
      have : ¬ (i + 1 < cmds) := by omega
      simp [this]
    · intro m d hm hd
      simp only [fd_get_close]
      simp [(hpipes m d hm hd).1]

/-- A command that stands alone: no pipe is created and nothing is closed. -/
theorem single_node_step (cmds : Nat) (fd : PipeArr) (p : Parent) (c : t_cmd_line)
    (hsep : c.separator = t_sep.e_nline) (hinv : parent_inv 0 false fd p) :
    make_pipe c 0 false fd p.tbl = some (p.tbl, fd, false) ∧
      close_pipes fd 0 cmds false
          { tbl := ft_heredoc_opens (count_heredocs c) p.tbl, ok := p.ok }
        = some { tbl := ft_heredoc_opens (count_heredocs c) p.tbl, ok := p.ok } ∧
      pipes_only_at (ft_heredoc_opens (count_heredocs c) p.tbl) [] ∧ p.ok = true := by
  obtain ⟨hok, h0, _⟩ := hinv
  refine ⟨by simp [make_pipe, hsep], by simp [close_pipes], ?_, hok⟩
  intro m d hm hd
  exact (h0 rfl).2 m d (heredoc_pipe _ _ m d hm hd) hd

theorem is_pipeline_cons (c c2 : t_cmd_line) (rest : List t_cmd_line) :
    is_pipeline (c :: c2 :: rest)
      = (decide (c.separator = t_sep.e_pipe) && is_pipeline (c2 :: rest)) := by
  rfl

/-- The scheduling loop of `execute_command` on the nodes from `i` on: it
returns; all the pipe ends are closed in the parent at the end, each `close`
having been given an open descriptor; and every child is wired as asked. -/
theorem execute_command_loop_spec (cmds : Nat) :
    ∀ (rest : List t_cmd_line) (i : Nat) (flg : Bool) (fd : PipeArr) (p : Parent),
      is_pipeline rest = true → i + rest.length = cmds → fd.length = cmds →
      parent_inv i flg fd p →
      ∃ cs p2, execute_command_loop cmds rest i flg fd p = some (cs, p2) ∧
        p2.ok = true ∧ pipes_only_at p2.tbl [] ∧ cs.length = rest.length ∧
        (∀ k c, cs.get? k = some c → c.i = i + k) ∧
        (std_open p.tbl → 1 < cmds → ∀ c ∈ cs, child_wired cmds c) := by
  intro rest
  induction rest with
  | nil => intro i flg fd p h; simp [is_pipeline] at h
  | cons c rest ih =>
    intro i flg fd p hp hl hlen hinv
    cases rest with
    | nil =>
      have hsep : c.separator = t_sep.e_nline := by simpa [is_pipeline] using hp
      rcases Nat.eq_zero_or_pos i with hi | hi
      · subst hi
        have hflg : flg = false := (hinv.2.1 rfl).1
        subst hflg
        obtain ⟨h1, h2, h3, h4⟩ := single_node_step cmds fd p c hsep hinv
        refine ⟨[{ tbl := ft_heredoc_opens (count_heredocs c) p.tbl, fd := fd, i := 0,
                   flg := false }],
          { tbl := ft_heredoc_opens (count_heredocs c) p.tbl, ok := p.ok }, ?_, h4, h3, rfl,
          ?_, ?_⟩
        · simp [execute_command_loop, h1, h2]
        · intro k c1 hk
          cases k with
          | zero => simp at hk; rw [← hk]
          | succ k => simp at hk
        · intro _ hc
          simp at hl
          omega
      · have hflg : flg = true := (hinv.2.2 hi).1
        subst hflg
        obtain ⟨p1, h1, h2, h3, h4, h5⟩ :=
          last_node_step cmds i fd p c hsep hi (by simpa using hl) hinv
        refine ⟨[{ tbl := ft_heredoc_opens (count_heredocs c) p.tbl, fd := fd, i := i,
                   flg := true }], p1, ?_, h3, h4, rfl, ?_, ?_⟩
        · simp [execute_command_loop, h1, h2]
        · intro k c1 hk
          cases k with
          | zero => simp at hk; rw [← hk]; rfl
          | succ k => simp at hk
        · intro hstd _ c1 hc1
          rw [List.mem_singleton] at hc1
          rw [hc1]
          exact h5 hstd
    | cons c2 rest2 =>
      rw [is_pipeline_cons, Bool.and_eq_true] at hp
      have hsep : c.separator = t_sep.e_pipe := by simpa using hp.1
      have hc : i + 1 < cmds := by simp at hl; omega
      rcases Nat.eq_zero_or_pos i with hi | hi
      · subst hi
        have hflg : flg = false := (hinv.2.1 rfl).1
        subst hflg
        obtain ⟨tbl1, fd1, p1, h1, h2, h3, h4, h5⟩ :=
          first_node_step cmds fd p c hsep (by omega) hlen hinv
        obtain ⟨cs, p2, g1, g2, g3, g4, g5, g6⟩ :=
          ih 1 true fd1 p1 hp.2 (by simp at hl ⊢; omega) h2 h4
        refine ⟨{ tbl := ft_heredoc_opens (count_heredocs c) tbl1, fd := fd1, i := 0,
                  flg := true } :: cs, p2, ?_, g2, g3, by simp [g4], ?_, ?_⟩
        · rw [execute_command_loop]
          simp only [h1, h3, Nat.zero_add, g1]
        · intro k c1 hk
          cases k with
          | zero => simp at hk; rw [← hk]
          | succ k =>
            have := g5 k c1 (by simpa using hk)
            omega
        · intro hstd hc1 c1 hm
          rcases List.mem_cons.mp hm with hm | hm
          · rw [hm]; exact (h5 hstd).2
          · exact g6 (h5 hstd).1 hc1 c1 hm
      · have hflg : flg = true := (hinv.2.2 hi).1
        subst hflg
        obtain ⟨tbl1, fd1, p1, h1, h2, h3, h4, h5⟩ :=
          middle_node_step cmds i fd p c hsep hi hc hlen hinv
        obtain ⟨cs, p2, g1, g2, g3, g4, g5, g6⟩ :=
          ih (i + 1) true fd1 p1 hp.2 (by simp at hl ⊢; omega) h2 h4
        refine ⟨{ tbl := ft_heredoc_opens (count_heredocs c) tbl1, fd := fd1, i := i,
                  flg := true } :: cs, p2, ?_, g2, g3, by simp [g4], ?_, ?_⟩
        · rw [execute_command_loop]
          simp only [h1, h3, Nat.zero_add, g1]
        · intro k c1 hk
          cases k with
          | zero => simp at hk; rw [← hk]; rfl
          | succ k =>
            have := g5 k c1 (by simpa using hk)
            omega
        · intro hstd hc1 c1 hm
          rcases List.mem_cons.mp hm with hm | hm
          · rw [hm]; exact (h5 hstd).2
          · exact g6 (h5 hstd).1 hc1 c1 hm

theorem parent_inv_start (fd : PipeArr) (tbl : FdTable) (h0 : no_pipe_open tbl = true) :
    parent_inv 0 false fd { tbl := tbl, ok := true } :=
  ⟨rfl, fun _ => ⟨rfl, (no_pipe_open_iff tbl).mp h0⟩, fun h => absurd h (Nat.lt_irrefl 0)⟩

theorem std_open_of_open (tbl : FdTable) (h0 : no_pipe_open tbl = true)
    (hin : (fd_get tbl 0).isSome = true) (hout : (fd_get tbl 1).isSome = true) :
    std_open tbl := by
  have hnp := (no_pipe_open_iff tbl).mp h0
  have key : ∀ m, (fd_get tbl m).isSome = true → ∃ d, fd_get tbl m = some d ∧ is_pipe_end d = false := by
    intro m hm
    obtain ⟨d, hd⟩ := Option.isSome_iff_exists.mp hm
    refine ⟨d, hd, ?_⟩
    cases hb : is_pipe_end d with
    | false => rfl
    | true => exact absurd (hnp m d hd hb) (List.not_mem_nil m)
  exact ⟨key 0 hin, key 1 hout⟩

/-- C22. In a pipeline of `n > 1` nodes, started in a shell that has standard
input and output open and no end of a pipe open, the child forked for node `i`
has `flg` set, has inherited at most the read end of pipe `i - 1` and the two
ends of pipe `i`, and after `dup_to_pipe` (which returns): standard input is the
read end of pipe `i - 1` when `i > 0` and is untouched when `i = 0`; standard
output is the write end of pipe `i` when `i < n - 1` and is untouched when
`i = n - 1`; and no end of a pipe that the child inherited is still open under
its number. -/
theorem dup_to_pipe_wires_child (cmd_line : List t_cmd_line) (tbl : FdTable)
    (hp : is_pipeline cmd_line = true) (hn : 1 < cmd_line.length)
    (h0 : no_pipe_open tbl = true) (hin : (fd_get tbl 0).isSome = true)
    (hout : (fd_get tbl 1).isSome = true) :
    ∃ cs p, execute_command cmd_line tbl = some (cs, p) ∧ cs.length = cmd_line.length ∧
      ∀ i c, cs.get? i = some c →
        c.i = i ∧ c.flg = true ∧
        (∀ m d, fd_get c.tbl m = some d → is_pipe_end d = true →
          d = Desc.pipe_r (i - 1) ∨ d = Desc.pipe_r i ∨ d = Desc.pipe_w i) ∧
        ∃ tbl1, dup_to_pipe c.fd i cmd_line.length c.tbl = some tbl1 ∧
          fd_get tbl1 0 = (if 0 < i then some (Desc.pipe_r (i - 1)) else fd_get c.tbl 0) ∧
          fd_get tbl1 1
            = (if i + 1 < cmd_line.length then some (Desc.pipe_w i) else fd_get c.tbl 1) ∧
          ∀ m d, fd_get c.tbl m = some d → is_pipe_end d = true → fd_get tbl1 m = none := by
  obtain ⟨cs, p, g1, _, _, g4, g5, g6⟩ :=
    execute_command_loop_spec cmd_line.length cmd_line 0 false
      (List.replicate cmd_line.length none) { tbl := tbl, ok := true } hp (by simp) (by simp)
      (parent_inv_start _ tbl h0)
  refine ⟨cs, p, g1, g4, ?_⟩
  intro i c hc
  have hi : c.i = i := by simpa using g5 i c hc
  obtain ⟨w1, w2, tbl1, w3, w4, w5, w6⟩ :=
    g6 (std_open_of_open tbl h0 hin hout) hn c (List.get?_mem hc)
  rw [hi] at w2 w4 w5
  refine ⟨hi, w1, w2, tbl1, ?_, w4, w5, w6⟩
  rw [← hi]
  simpa [child_dup, w1] using w3

theorem dup_to_pipe_wires_child_witness :
    ∃ cs p, execute_command
        [{ str := [Slot.str "ls".toList, Slot.null], alloc := 2, redirections := [],
           separator := t_sep.e_pipe },
         { str := [Slot.str "cat".toList, Slot.null], alloc := 2,
           redirections := [{ type := TokType.HEREDOC, file := "E".toList }],
           separator := t_sep.e_pipe },
         { str := [Slot.str "wc".toList, Slot.null], alloc := 2, redirections := [],
           separator := t_sep.e_nline }]
        [some Desc.tty, some Desc.tty, some Desc.tty] = some (cs, p) ∧ cs.length = 3 := by
  obtain ⟨cs, p, h1, h2, _⟩ := dup_to_pipe_wires_child
    [{ str := [Slot.str "ls".toList, Slot.null], alloc := 2, redirections := [],
       separator := t_sep.e_pipe },
     { str := [Slot.str "cat".toList, Slot.null], alloc := 2,
       redirections := [{ type := TokType.HEREDOC, file := "E".toList }],
       separator := t_sep.e_pipe },
     { str := [Slot.str "wc".toList, Slot.null], alloc := 2, redirections := [],
       separator := t_sep.e_nline }]
    [some Desc.tty, some Desc.tty, some Desc.tty]
    (by decide) (by decide) (by decide) (by decide) (by decide)
  exact ⟨cs, p, h1, h2⟩

/-- C23. For every pipeline of `n ≥ 1` nodes, started with no end of a pipe
open in the parent, the scheduling loop of `execute_command` returns after
forking `n` children; when it has processed all the nodes no end of a pipe is
open in the parent, and every `close` the parent made was given a descriptor
that was open. -/
theorem parent_closes_every_pipe_end (cmd_line : List t_cmd_line) (tbl : FdTable)
    (hp : is_pipeline cmd_line = true) (h0 : no_pipe_open tbl = true) :
    ∃ cs p, execute_command cmd_line tbl = some (cs, p) ∧ cs.length = cmd_line.length ∧
      no_pipe_open p.tbl = true ∧ p.ok = true := by
  obtain ⟨cs, p, g1, g2, g3, g4, _, _⟩ :=
    execute_command_loop_spec cmd_line.length cmd_line 0 false
      (List.replicate cmd_line.length none) { tbl := tbl, ok := true } hp (by simp) (by simp)
      (parent_inv_start _ tbl h0)
  exact ⟨cs, p, g1, g4, (no_pipe_open_iff p.tbl).mpr g3, g2⟩

theorem parent_closes_every_pipe_end_witness :
    ∃ cs p, execute_command
        [{ str := [Slot.str "ls".toList, Slot.null], alloc := 2, redirections := [],
           separator := t_sep.e_pipe },
         { str := [Slot.str "wc".toList, Slot.null], alloc := 2, redirections := [],
           separator := t_sep.e_nline }]
        [some Desc.tty, some Desc.tty, some Desc.tty] = some (cs, p) ∧ cs.length = 2 ∧
      no_pipe_open p.tbl = true ∧ p.ok = true :=
  parent_closes_every_pipe_end _ _ (by decide) (by decide)

/-! ## `sort` keeps the entries -/

/-- C31. For every exported view, the list `sort` produces is a permutation of
its input: each entry (name and value) occurs in it exactly as often as in the
input, so no variable is lost, duplicated or altered, and the length is kept. -/
theorem sort_is_permutation (l : List t_export) :
    (sort l).Perm l ∧ (∀ e, (sort l).count e = l.count e) ∧ (sort l).length = l.length ∧
      ∀ e, e ∈ sort l ↔ e ∈ l :=
  ⟨sort_perm l, fun e => (sort_perm l).count_eq e, (sort_perm l).length_eq,
    fun _ => (sort_perm l).mem_iff⟩

/-! ## `parser` ends and reads the whole list -/

theorem addback_values (tokens : List t_token_list) (value : Option CStr) (type : TokType)
    (h : ∀ t ∈ tokens, t.value ≠ []) : ∀ t ∈ addback tokens value type, t.value ≠ [] := by
  cases value with
  | none => exact h
  | some v =>
    cases v with
    | nil => exact h
    | cons c v =>
      intro t ht
      simp only [addback, List.mem_append, List.mem_singleton] at ht
      rcases ht with ht | ht
      · exact h t ht
      · rw [ht]; exact List.cons_ne_nil c v

theorem foldl_addback_values (calls : List (Option CStr × TokType)) :
    ∀ tokens : List t_token_list, (∀ t ∈ tokens, t.value ≠ []) →
      ∀ t ∈ calls.foldl (fun tokens c => addback tokens c.1 c.2) tokens, t.value ≠ [] := by
  induction calls with
  | nil => intro tokens h; exact h
  | cons c rest ih =>
    intro tokens h
    exact ih (addback tokens c.1 c.2) (addback_values tokens c.1 c.2 h)

/-- C33. For a value that is not empty `addback` appends exactly one token
with that value and kind at the end of the list and leaves the tokens before it
as they were, in order; for `NULL` and for the empty string it leaves the list
unchanged, so the `NULL` that `ft_strndup` returns for length 0 (an empty quoted
string) yields no token. Hence no token of a list built with `addback` has an
empty value. -/
theorem addback_appends_non_empty (tokens : List t_token_list) (type : TokType)
    (calls : List (Option CStr × TokType)) :
    (∀ v, v ≠ [] → addback tokens (some v) type = tokens ++ [{ value := v, type := type }])
    ∧ addback tokens none type = tokens
    ∧ addback tokens (some []) type = tokens
    ∧ (∀ src, addback tokens (ft_strndup src 0) type = tokens)
    ∧ ∀ t ∈ built_with_addback calls, t.value ≠ [] := by
  refine ⟨?_, rfl, rfl, fun src => rfl, ?_⟩
  · intro v hv
    cases v with
    | nil => exact absurd rfl hv
    | cons c v => rfl
  · exact foldl_addback_values calls [] (fun t ht => absurd ht (List.not_mem_nil t))

/-! ## `str[0]` of a node -/

end Minishell
